import Mathlib

/-!
Verification of the AST-merge engine of `packages/core/tooling/js/kit.ts`
(`addHooksHandle`, `addGlobalAppInterface`) against its specification.

The JavaScript/TypeScript syntax trees handled by the engine are shallowly
embedded below.  Trees produced by the parser (`recast`) never populate both
the `declaration` and the `specifiers` field of an `ExportNamedDeclaration`,
so the embedding models an export statement as a sum of the two shapes.
Statement identity (the `n !== node` filters of the source) is modelled by
the positions the locator pass records, which is exact because the located
statements are retrieved by index and the freshly built statements are not
in the body when the filters run.
-/

namespace Kit

/-- Expressions, as far as the merge engine inspects them: identifier
references, call expressions, and a catch-all for any other expression
(`lit n`, with `n` distinguishing different opaque program texts). -/
inductive Expr where
  | ident (name : String)
  | call (callee : Expr) (args : List Expr)
  | lit (tag : Nat)

/-- Binding patterns of a variable declarator: an `Identifier` or any other
pattern shape (destructuring, etc.). -/
inductive Pat where
  | ident (name : String)
  | other (tag : Nat)
deriving DecidableEq

mutual

def Expr.decEq : (a b : Expr) → Decidable (a = b)
  | .ident a, .ident b =>
    match String.decEq a b with
    | isTrue h => isTrue (by rw [h])
    | isFalse h => isFalse (fun hc => by cases hc; exact h rfl)
  | .ident _, .call _ _ => isFalse (fun h => Expr.noConfusion h)
  | .ident _, .lit _ => isFalse (fun h => Expr.noConfusion h)
  | .call _ _, .ident _ => isFalse (fun h => Expr.noConfusion h)
  | .call c1 a1, .call c2 a2 =>
    match Expr.decEq c1 c2, Expr.decEqList a1 a2 with
    | isTrue h1, isTrue h2 => isTrue (by rw [h1, h2])
    | isFalse h1, _ => isFalse (fun hc => by cases hc; exact h1 rfl)
    | _, isFalse h2 => isFalse (fun hc => by cases hc; exact h2 rfl)
  | .call _ _, .lit _ => isFalse (fun h => Expr.noConfusion h)
  | .lit _, .ident _ => isFalse (fun h => Expr.noConfusion h)
  | .lit _, .call _ _ => isFalse (fun h => Expr.noConfusion h)
  | .lit a, .lit b =>
    match Nat.decEq a b with
    | isTrue h => isTrue (by rw [h])
    | isFalse h => isFalse (fun hc => by cases hc; exact h rfl)

def Expr.decEqList : (a b : List Expr) → Decidable (a = b)
  | [], [] => isTrue rfl
  | [], _ :: _ => isFalse (fun h => List.noConfusion h)
  | _ :: _, [] => isFalse (fun h => List.noConfusion h)
  | x :: xs, y :: ys =>
    match Expr.decEq x y, Expr.decEqList xs ys with
    | isTrue h1, isTrue h2 => isTrue (by rw [h1, h2])
    | isFalse h1, _ => isFalse (fun hc => by cases hc; exact h1 rfl)
    | _, isFalse h2 => isFalse (fun hc => by cases hc; exact h2 rfl)

end

instance : DecidableEq Expr := Expr.decEq

/-- A `VariableDeclarator`: binding pattern, optional initializer and the
optional type annotation attached by `variables.typeAnnotateDeclarator`. -/
structure Declarator where
  id : Pat
  init : Option Expr
  tsType : Option String := none
deriving DecidableEq

/-- An `ExportSpecifier`: `local` (optional in the AST typings, hence the
`local?.name ?? exported.name` fallback in the source) and `exported`. -/
structure ExportSpec where
  localName : Option String
  exportedName : String
deriving DecidableEq

/-- The declaration kinds the engine manipulates (`AstKinds.DeclarationKind`
as used by `addHooksHandle`): variable declarations and function
declarations.  A function body is kept only as the list of expressions it
contains (inspected solely by the structural-equality search `hasNode`). -/
inductive Decl where
  | varDecl (kind : String) (decls : List Declarator)
  | funDecl (name : Option String) (body : List Expr)
deriving DecidableEq

/-- Statements of an ambient (`.d.ts`-style) block: `TSModuleDeclaration`
(with `global`/`declare` flags; `hasBody = false` models a missing body and
`bodyIsBlock = false` a body that is not a `TSModuleBlock`),
`TSInterfaceDeclaration`, and a catch-all. -/
inductive TSStmt where
  | module (idIsIdent : Bool) (idName : String) (isGlobal : Bool) (isDeclare : Bool)
      (hasBody : Bool) (bodyIsBlock : Bool) (bodyStmts : List TSStmt)
  | iface (idIsIdent : Bool) (idName : String) (tag : Nat)
  | otherTS (tag : Nat)

mutual

def TSStmt.decEq : (a b : TSStmt) → Decidable (a = b)
  | .module a1 a2 a3 a4 a5 a6 a7, .module b1 b2 b3 b4 b5 b6 b7 =>
    match Bool.decEq a1 b1, String.decEq a2 b2, Bool.decEq a3 b3, Bool.decEq a4 b4,
          Bool.decEq a5 b5, Bool.decEq a6 b6, TSStmt.decEqList a7 b7 with
    | isTrue h1, isTrue h2, isTrue h3, isTrue h4, isTrue h5, isTrue h6, isTrue h7 =>
      isTrue (by rw [h1, h2, h3, h4, h5, h6, h7])
    | isFalse h, _, _, _, _, _, _ => isFalse (fun hc => by cases hc; exact h rfl)
    | _, isFalse h, _, _, _, _, _ => isFalse (fun hc => by cases hc; exact h rfl)
    | _, _, isFalse h, _, _, _, _ => isFalse (fun hc => by cases hc; exact h rfl)
    | _, _, _, isFalse h, _, _, _ => isFalse (fun hc => by cases hc; exact h rfl)
    | _, _, _, _, isFalse h, _, _ => isFalse (fun hc => by cases hc; exact h rfl)
    | _, _, _, _, _, isFalse h, _ => isFalse (fun hc => by cases hc; exact h rfl)
    | _, _, _, _, _, _, isFalse h => isFalse (fun hc => by cases hc; exact h rfl)
  | .module _ _ _ _ _ _ _, .iface _ _ _ => isFalse (fun h => TSStmt.noConfusion h)
  | .module _ _ _ _ _ _ _, .otherTS _ => isFalse (fun h => TSStmt.noConfusion h)
  | .iface _ _ _, .module _ _ _ _ _ _ _ => isFalse (fun h => TSStmt.noConfusion h)
  | .iface a1 a2 a3, .iface b1 b2 b3 =>
    match Bool.decEq a1 b1, String.decEq a2 b2, Nat.decEq a3 b3 with
    | isTrue h1, isTrue h2, isTrue h3 => isTrue (by rw [h1, h2, h3])
    | isFalse h, _, _ => isFalse (fun hc => by cases hc; exact h rfl)
    | _, isFalse h, _ => isFalse (fun hc => by cases hc; exact h rfl)
    | _, _, isFalse h => isFalse (fun hc => by cases hc; exact h rfl)
  | .iface _ _ _, .otherTS _ => isFalse (fun h => TSStmt.noConfusion h)
  | .otherTS _, .module _ _ _ _ _ _ _ => isFalse (fun h => TSStmt.noConfusion h)
  | .otherTS _, .iface _ _ _ => isFalse (fun h => TSStmt.noConfusion h)
  | .otherTS a, .otherTS b =>
    match Nat.decEq a b with
    | isTrue h => isTrue (by rw [h])
    | isFalse h => isFalse (fun hc => by cases hc; exact h rfl)

def TSStmt.decEqList : (a b : List TSStmt) → Decidable (a = b)
  | [], [] => isTrue rfl
  | [], _ :: _ => isFalse (fun h => List.noConfusion h)
  | _ :: _, [] => isFalse (fun h => List.noConfusion h)
  | x :: xs, y :: ys =>
    match TSStmt.decEq x y, TSStmt.decEqList xs ys with
    | isTrue h1, isTrue h2 => isTrue (by rw [h1, h2])
    | isFalse h1, _ => isFalse (fun hc => by cases hc; exact h1 rfl)
    | _, isFalse h2 => isFalse (fun hc => by cases hc; exact h2 rfl)

end

instance : DecidableEq TSStmt := TSStmt.decEq

/-- Top-level statements of a `Program` body.  `other` carries the
expressions contained in an otherwise irrelevant statement (they matter only
to the structural-equality search `hasNode`). -/
inductive Stmt where
  | decl (d : Decl)
  | exportDecl (d : Decl)
  | exportSpecs (specs : List ExportSpec)
  | importDecl (source : String) (named : List (String × String)) (typeOnly : Bool)
  | tsModule (idIsIdent : Bool) (idName : String) (isGlobal : Bool) (isDeclare : Bool)
      (hasBody : Bool) (bodyIsBlock : Bool) (bodyStmts : List TSStmt)
  | other (tag : Nat) (exprs : List Expr)
deriving DecidableEq

/-- A `Program` is its ordered list of top-level statements. -/
abbrev Program := List Stmt

/-! ### Structural-equality search (`common.hasNode`) -/

mutual

/-- Does `needle` occur (as a structurally equal subterm) in expression `e`?
`common.hasNode` walks every node of the tree and compares it for deep
structural equality (ignoring source locations) with the fragment. -/
def occursInExpr (needle : Expr) (e : Expr) : Bool :=
  needle = e ||
    match e with
    | .call c args => occursInExpr needle c || occursInExprList needle args
    | _ => false

def occursInExprList (needle : Expr) : List Expr → Bool
  | [] => false
  | e :: rest => occursInExpr needle e || occursInExprList needle rest

end

def occursInDecl (needle : Expr) : Decl → Bool
  | .varDecl _ ds =>
    ds.any (fun d =>
      match d.init with
      | some e => occursInExpr needle e
      | none => false)
  | .funDecl _ body => occursInExprList needle body

def occursInStmt (needle : Expr) : Stmt → Bool
  | .decl d => occursInDecl needle d
  | .exportDecl d => occursInDecl needle d
  | .other _ exprs => occursInExprList needle exprs
  | _ => false

/-- `common.hasNode(ast, node)`: is a node structurally equal to `needle`
present anywhere in the program? -/
def hasNode (ast : Program) (needle : Expr) : Bool :=
  ast.any (occursInStmt needle)

/-! ### The helper predicates of kit.ts (lines 238-271) -/

/-- kit.ts `getVariableDeclarator`: the first declarator whose id is an
`Identifier` named `handleName`. -/
def getVariableDeclarator (ds : List Declarator) (handleName : String) : Option Declarator :=
  ds.find? (fun d =>
    match d.id with
    | .ident n => n = handleName
    | _ => false)

/-- kit.ts `isVariableDeclaration` (on a declaration node). -/
def isVariableDeclaration (d : Decl) (variableName : String) : Bool :=
  match d with
  | .varDecl _ ds => (getVariableDeclarator ds variableName).isSome
  | _ => false

/-- kit.ts `isFunctionDeclaration` (on a declaration node): `node.id?.name
=== funcName`. -/
def isFunctionDeclaration (d : Decl) (funcName : String) : Bool :=
  match d with
  | .funDecl (some n) _ => n = funcName
  | _ => false

/-- kit.ts `isVariableDeclaration` applied to a top-level statement (the
`ast.body.find` searches): only a bare `VariableDeclaration` statement has
`type === 'VariableDeclaration'`. -/
def isVariableDeclarationStmt (s : Stmt) (variableName : String) : Bool :=
  match s with
  | .decl d => isVariableDeclaration d variableName
  | _ => false

/-- kit.ts `isFunctionDeclaration` applied to a top-level statement. -/
def isFunctionDeclarationStmt (s : Stmt) (funcName : String) : Bool :=
  match s with
  | .decl d => isFunctionDeclaration d funcName
  | _ => false

/-- kit.ts `usingSequence`: declarator named `handleName` whose initializer
is a call whose callee is the identifier `sequence`. -/
def usingSequence (d : Declarator) (handleName : String) : Bool :=
  match d.id, d.init with
  | .ident n, some (.call (.ident c) _) => n = handleName && c = "sequence"
  | _, _ => false

/-! ### The Construct Locator (the export-scanning walk, lines 69-111) -/

/-- Where the located original `handle` declaration lives: as a separate
top-level statement at index `idx` (specifier exports), or inside the export
statement itself (`node.declaration`). -/
inductive Site where
  | top (idx : Nat)
  | inExport
deriving DecidableEq

/-- The locator result: the index of the export statement (`exportDecl` in
the source) plus the site of the original declaration
(`originalHandleDecl`). -/
structure Finding where
  exportIdx : Nat
  site : Site
deriving DecidableEq

/-- The mutable state of the walk: `isSpecifier`, `handleName` and the pair
`exportDecl`/`originalHandleDecl` (always assigned together). -/
structure WalkState where
  isSpecifier : Bool
  handleName : String
  found : Option Finding
deriving DecidableEq

def initState : WalkState := ⟨false, "handle", none⟩

/-- Lines 91-94: the `ast.body.find` searches for the specifier's local
name, function declarations first (`handleFunc ?? handleVar`). -/
def resolveSite (body : Program) (hName : String) : Option Site :=
  match body.findIdx? (fun n => isFunctionDeclarationStmt n hName) with
  | some k => some (.top k)
  | none =>
    match body.findIdx? (fun n => isVariableDeclarationStmt n hName) with
    | some k => some (.top k)
    | none => none

/-- One visit of the `ExportNamedDeclaration` walker callback, for the
statement at index `i`.  `body` is the whole program body. -/
def walkStep (body : Program) (st : WalkState) (i : Nat) (s : Stmt) : WalkState :=
  match s with
  | .exportSpecs specs =>
    match specs.find? (fun sp => sp.exportedName = "handle") with
    | some sp =>
      let hName := sp.localName.getD sp.exportedName
      match resolveSite body hName with
      | some site => ⟨true, hName, some ⟨i, site⟩⟩
      | none => ⟨true, hName, st.found⟩
    | none => st
  | .exportDecl d =>
    if isVariableDeclaration d st.handleName || isFunctionDeclaration d st.handleName then
      ⟨st.isSpecifier, st.handleName, some ⟨i, .inExport⟩⟩
    else st
  | _ => st

def walkAux (body : Program) : WalkState → Nat → List Stmt → WalkState
  | st, _, [] => st
  | st, i, s :: rest => walkAux body (walkStep body st i s) (i + 1) rest

/-- The full locator pass: fold the walker callback over the top-level
statements in source order (`i` tracks the index of the visited statement
within `body`). -/
def walkFind (body : Program) : WalkState :=
  walkAux body initState 0 body

/-! ### Modelled collaborators (`imports`, `exports`, `variables`,
`functions`, `common` of `packages/core/tooling/js/index.ts`, which is not
part of the sources under verification) -/

def kitSource : String := "@sveltejs/kit"

def hooksSource : String := "@sveltejs/kit/hooks"

def isImportFrom (s : Stmt) (src : String) : Bool :=
  match s with
  | .importDecl src2 _ _ => src2 = src
  | _ => false

/-- Add to `named` the bindings of `bs` that it does not already contain. -/
def mergeBindings (named bs : List (String × String)) : List (String × String) :=
  named ++ bs.filter (fun b => decide (b ∉ named))

def mergeIntoImport : Program → String → List (String × String) → Program
  | [], _, _ => []
  | s :: rest, src, bs =>
    match s with
    | .importDecl src2 named t2 =>
      if src2 = src then .importDecl src2 (mergeBindings named bs) t2 :: rest
      else s :: mergeIntoImport rest src bs
    | _ => s :: mergeIntoImport rest src bs

/-- Modelled from the spec: `imports.addNamed` (the import half of the Node
Builders collaborator, §6 `build-import(moduleSpecifier, namedBindings,
isTypeOnly)`) merges the requested named bindings into the first existing
statement importing from the same module specifier, or inserts a fresh
statement at the top of the body; when the bindings are already present
the tree is left unchanged. -/
def addNamedImport (body : Program) (src : String) (bs : List (String × String))
    (typeOnly : Bool) : Program :=
  if body.any (fun s => isImportFrom s src) then mergeIntoImport body src bs
  else .importDecl src bs typeOnly :: body

/-- Modelled from the spec: `exports.namedExport(ast, name, decl)` (§6
`build-export(name, declarationOrNothing)`) wraps the declaration in an
export statement and emits it; §4.3 has the rewriter append replacement
statements at the end of the body. -/
def namedExport (body : Program) (name : String) (d : Decl) : Program :=
  body ++ [.exportDecl d]

/-- `variables.declaration(ast, 'const', name, init)` followed (when
`typescript` is set) by `variables.typeAnnotateDeclarator(declarator,
'Handle')`. -/
def mkDeclarator (typescript : Bool) (name : String) (init : Expr) : Declarator :=
  ⟨.ident name, some init, if typescript then some "Handle" else none⟩

def mkNewDecl (typescript : Bool) (name : String) (init : Expr) : Stmt :=
  .decl (.varDecl "const" [mkDeclarator typescript name init])

/-! ### The Tree Rewriter part of `addHooksHandle` (lines 113-236) -/

def stmtAt (l : Program) (i : Nat) : Stmt :=
  l.getD i (.other 0 [])

/-- The indices a `Finding` designates, i.e. the statements the `n !==
originalHandleDecl && n !== exportDecl` filters remove from the top level
(`originalHandleDecl` is a top-level statement only in the specifier case). -/
def siteIdxs (f : Finding) : List Nat :=
  match f.site with
  | .top k => [f.exportIdx, k]
  | .inExport => [f.exportIdx]

def removeAtAux : List Stmt → List Nat → Nat → List Stmt
  | [], _, _ => []
  | s :: rest, idxs, cur =>
    (if cur ∈ idxs then [] else [s]) ++ removeAtAux rest idxs (cur + 1)

/-- Remove the statements at the given indices. -/
def removeAt (l : List Stmt) (idxs : List Nat) : List Stmt :=
  removeAtAux l idxs 0

/-- The located `originalHandleDecl` as a declaration node. -/
def getOrig (ast : Program) (f : Finding) : Decl :=
  match f.site with
  | .inExport =>
    match stmtAt ast f.exportIdx with
    | .exportDecl d => d
    | _ => .varDecl "" []
  | .top k =>
    match stmtAt ast k with
    | .decl d => d
    | _ => .varDecl "" []

def isIdentNamed (name : String) (e : Expr) : Bool :=
  match e with
  | .ident n => n = name
  | _ => false

def appendSeqArg : List Declarator → String → Expr → List Declarator
  | [], _, _ => []
  | d :: rest, hName, arg =>
    if usingSequence d hName then
      match d.init with
      | some (.call c args) => ⟨d.id, some (.call c (args ++ [arg])), d.tsType⟩ :: rest
      | _ => d :: rest
    else d :: appendSeqArg rest hName arg

/-- `sequence.arguments.push(...)` applied to the first declarator that
`usingSequence` matches. -/
def appendSeq (d : Decl) (hName : String) (arg : Expr) : Decl :=
  match d with
  | .varDecl k ds => .varDecl k (appendSeqArg ds hName arg)
  | _ => d

def renameDeclarator : List Declarator → String → String → List Declarator
  | [], _, _ => []
  | d :: rest, hName, newName =>
    match d.id with
    | .ident n =>
      if n = hName then ⟨.ident newName, d.init, d.tsType⟩ :: rest
      else d :: renameDeclarator rest hName newName
    | _ => d :: renameDeclarator rest hName newName

/-- Lines 191-204: decide `renameRequired` and perform the rename of the
original `handle` binding to `originalHandle`.  A matching variable
declarator is renamed unless its initializer is an identifier reference; a
matching function declaration is always renamed. -/
def renameStep (d : Decl) (handleName : String) : Bool × Decl :=
  match d with
  | .varDecl k ds =>
    match getVariableDeclarator ds handleName with
    | some dec =>
      match dec.init with
      | some (.ident _) => (false, d)
      | _ => (true, .varDecl k (renameDeclarator ds handleName "originalHandle"))
    | none => (false, d)
  | .funDecl (some n) b =>
    if n = handleName then (true, .funDecl (some "originalHandle") b) else (false, d)
  | .funDecl none _ => (false, d)

/-- Line 225: `(variableDeclarator?.init as AstTypes.Identifier).name`.
The fallback is unreachable from `addHooksHandle`: the branch only runs when
`renameRequired` is false, which forces the initializer of the matching
declarator to be an identifier. -/
def passThroughName (d : Decl) (handleName : String) : String :=
  match d with
  | .varDecl _ ds =>
    match getVariableDeclarator ds handleName with
    | some dec =>
      match dec.init with
      | some (.ident y) => y
      | _ => "undefined"
    | none => "undefined"
  | _ => "undefined"

/-- Lines 149-156: the arguments of the `sequence(...)` call of the first
declarator that `usingSequence` matches, if any. -/
def seqArgsOf (orig : Decl) (handleName : String) : Option (List Expr) :=
  match orig with
  | .varDecl _ ds =>
    match ds.find? (fun d => usingSequence d handleName) with
    | some d =>
      match d.init with
      | some (.call _ args) => some args
      | _ => none
    | none => none
  | _ => none

/-- Lines 161-167: append the new handle's identifier to the `sequence`
arguments unless it is already among them. -/
def seqAppended (orig : Decl) (handleName newHandleName : String) : Decl :=
  match seqArgsOf orig handleName with
  | some args =>
    if args.any (isIdentNamed newHandleName) then orig
    else appendSeq orig handleName (.ident newHandleName)
  | none => orig

/-- Lines 185-187: `const <handleName> = sequence(originalHandle,
<newHandleName>);` (this declaration never receives a type annotation). -/
def newHandleDeclOf (handleName newHandleName : String) : Decl :=
  .varDecl "const"
    [⟨.ident handleName,
      some (.call (.ident "sequence") [.ident "originalHandle", .ident newHandleName]),
      none⟩]

/-- The value of `originalHandleDecl` after the in-place mutations of lines
161-167 (sequence argument push) and 191-204 (rename). -/
def mergeOrig2 (ast : Program) (handleName newHandleName : String) (f : Finding) : Decl :=
  (renameStep (seqAppended (getOrig ast f) handleName newHandleName) handleName).2

/-- The value of `renameRequired` after lines 191-204. -/
def mergeRename (ast : Program) (handleName newHandleName : String) (f : Finding) : Bool :=
  (renameStep (seqAppended (getOrig ast f) handleName newHandleName) handleName).1

/-- The body after the filters of lines 170-172 and 207 with the `sequence`
binding of line 189 merged in.  The identity filters remove exactly the
located statements together with everything the `if (sequence)` branch
pushed (which lines 170-180 had pushed after the same removals), and the
insertion only touches import statements, so it commutes with the
removals. -/
def mergeBase (ast : Program) (f : Finding) : Program :=
  addNamedImport (removeAt ast (siteIdxs f)) hooksSource [("sequence", "sequence")] false

/-- The `exportDecl` object at re-push time: for a declaration export its
`declaration` field is the very node the mutations rewrote. -/
def mergeExportStmt (ast : Program) (handleName newHandleName : String) (f : Finding) : Stmt :=
  match f.site with
  | .inExport => .exportDecl (mergeOrig2 ast handleName newHandleName f)
  | .top _ => stmtAt ast f.exportIdx

/-- Lines 209-211: the re-push performed for specifier exports. -/
def mergeWithSpec (ast : Program) (typescript : Bool) (newHandleName : String)
    (newHandle : Expr) (isSpec : Bool) (handleName : String) (f : Finding) : Program :=
  if isSpec then
    mergeBase ast f ++
      [.decl (mergeOrig2 ast handleName newHandleName f),
       mkNewDecl typescript newHandleName newHandle,
       .decl (newHandleDeclOf handleName newHandleName),
       mergeExportStmt ast handleName newHandleName f]
  else mergeBase ast f

/-- Line 225: the composition built in the pass-through branch (lines
220-235), `const <handleName> = sequence(<original initializer>,
<newHandleName>)`, type-annotated when `typescript` is set. -/
def passThroughDecl (typescript : Bool) (orig2 : Decl) (handleName newHandleName : String) : Decl :=
  .varDecl "const"
    [mkDeclarator typescript handleName
      (.call (.ident "sequence")
        [.ident (passThroughName orig2 handleName), .ident newHandleName])]

/-- Lines 141-236 of `addHooksHandle`: the rewrite applied when the locator
found an existing `handle` export.  Note that the `if (sequence)` branch
(lines 161-180) does not return, so execution always continues into the
promote logic at line 182. -/
def mergeExisting (ast : Program) (typescript : Bool) (newHandleName : String)
    (newHandle : Expr) (isSpec : Bool) (handleName : String) (f : Finding) : Program :=
  -- lines 213-219: `exportDecl.declaration && renameRequired`
  if f.site = Site.inExport ∧ mergeRename ast handleName newHandleName f = true then
    namedExport
      (mergeWithSpec ast typescript newHandleName newHandle isSpec handleName f ++
        [.decl (mergeOrig2 ast handleName newHandleName f),
         mkNewDecl typescript newHandleName newHandle])
      handleName (newHandleDeclOf handleName newHandleName)
  -- lines 220-235: `exportDecl.declaration && isVariableDeclaration(...)`
  else if f.site = Site.inExport ∧
      isVariableDeclaration (mergeOrig2 ast handleName newHandleName f) handleName = true then
    namedExport
      (mergeWithSpec ast typescript newHandleName newHandle isSpec handleName f ++
        [mkNewDecl typescript newHandleName newHandle])
      handleName
      (passThroughDecl typescript (mergeOrig2 ast handleName newHandleName f)
        handleName newHandleName)
  else mergeWithSpec ast typescript newHandleName newHandle isSpec handleName f

/-- Lines 65-67: the type-only `Handle` import merged when `typescript` is
set. -/
def kitImport (typescript : Bool) (ast : Program) : Program :=
  if typescript then addNamedImport ast kitSource [("Handle", "Handle")] true else ast

/-- kit.ts `addHooksHandle` (lines 59-236).  `handleContent` is the already
parsed fragment expression (`common.expressionFromString(handleContent)`). -/
def addHooksHandle (ast : Program) (typescript : Bool) (newHandleName : String)
    (handleContent : Expr) : Program :=
  -- lines 113-114 (the walk of lines 69-111 is pure and is consulted below)
  if hasNode (kitImport typescript ast) handleContent then kitImport typescript ast
  else
    match (walkFind (kitImport typescript ast)).found with
    | none =>
      -- lines 116-139
      namedExport (kitImport typescript ast ++ [mkNewDecl typescript newHandleName handleContent])
        (walkFind (kitImport typescript ast)).handleName
        (.varDecl "const"
          [mkDeclarator typescript (walkFind (kitImport typescript ast)).handleName
            (.ident newHandleName)])
    | some f =>
      mergeExisting (kitImport typescript ast) typescript newHandleName handleContent
        (walkFind (kitImport typescript ast)).isSpecifier
        (walkFind (kitImport typescript ast)).handleName f

/-! ### The Global Declaration Merger (`addGlobalAppInterface`, lines 4-57)

The walker visits the located `declare global` module and all of its
descendants in pre-order, repeatedly overwriting `app`/`interfaceNode`, so
each search yields the last matching node in pre-order.  Modules whose body
is missing or is not a `TSModuleBlock` are opaque leaves. -/

def moduleBodyIsBlock : TSStmt → Bool
  | .module _ _ _ _ hb bib _ => hb && bib
  | _ => false

mutual

/-- Walk-order (pre-order) paths of the `TSModuleDeclaration` nodes whose id
is the identifier `App`, as child-index lists through module block bodies. -/
def appPathsTS : TSStmt → List (List Nat)
  | .module ii n _ _ hb bib stmts =>
    (if ii && n = "App" then [[]] else []) ++
      (if hb && bib then appPathsTSList stmts 0 else [])
  | _ => []

def appPathsTSList : List TSStmt → Nat → List (List Nat)
  | [], _ => []
  | s :: rest, i => (appPathsTS s).map (i :: ·) ++ appPathsTSList rest (i + 1)

end

mutual

/-- Walk-order list of the `TSInterfaceDeclaration` nodes whose id is the
identifier `name`. -/
def ifaceNodesTS (name : String) : TSStmt → List TSStmt
  | .module _ _ _ _ hb bib stmts =>
    if hb && bib then ifaceNodesTSList name stmts else []
  | .iface ii n t => if ii && n = name then [.iface ii n t] else []
  | _ => []

def ifaceNodesTSList (name : String) : List TSStmt → List TSStmt
  | [] => []
  | s :: rest => ifaceNodesTS name s ++ ifaceNodesTSList name rest

end

def lookupTS (s : TSStmt) : List Nat → TSStmt
  | [] => s
  | i :: rest =>
    match s with
    | .module _ _ _ _ _ _ stmts => lookupTS (stmts.getD i (.otherTS 0)) rest
    | _ => .otherTS 0

/-- Append `x` to the block body of the module at path `p`. -/
def pushAtTS (s : TSStmt) (p : List Nat) (x : TSStmt) : TSStmt :=
  match p with
  | [] =>
    match s with
    | .module ii n g d hb bib stmts => .module ii n g d hb bib (stmts ++ [x])
    | s2 => s2
  | i :: rest =>
    match s with
    | .module ii n g d hb bib stmts =>
      .module ii n g d hb bib (stmts.set i (pushAtTS (stmts.getD i (.otherTS 0)) rest x))
    | s2 => s2

def rootChildCount : TSStmt → Nat
  | .module _ _ _ _ _ _ stmts => stmts.length
  | _ => 0

/-- `n.type === 'TSModuleDeclaration' && n.global && n.declare`. -/
def isGlobalDeclare (s : Stmt) : Bool :=
  match s with
  | .tsModule _ _ g d _ _ _ => g && d
  | _ => false

def tsOfStmt (s : Stmt) : TSStmt :=
  match s with
  | .tsModule ii n g d hb bib stmts => .module ii n g d hb bib stmts
  | _ => .otherTS 0

def stmtOfTS (s : TSStmt) : Stmt :=
  match s with
  | .module ii n g d hb bib stmts => .tsModule ii n g d hb bib stmts
  | _ => .other 0 []

/-- `common.statementFromString('declare global {}')`. -/
def freshGlobal : Stmt := .tsModule true "global" true true true true []

/-- `common.statementFromString('namespace App {}')`. -/
def freshApp : TSStmt := .module true "App" false false true true []

/-- `common.statementFromString('interface <name> {}')`. -/
def freshIface (name : String) : TSStmt := .iface true name 0

def setStmt (l : Program) (i : Nat) (s : Stmt) : Program := l.set i s

/-- kit.ts `addGlobalAppInterface` (lines 4-57).  Returns the (possibly
mutated) tree together with the returned interface node, or the message of
the thrown error. -/
def addGlobalAppInterface (ast : Program) (name : String) : Program × Except String TSStmt :=
  -- lines 8-15: locate the first `declare global`, creating one if absent
  let gIdx? := ast.findIdx? isGlobalDeclare
  let ast1 := match gIdx? with | some _ => ast | none => ast ++ [freshGlobal]
  let gIdx := match gIdx? with | some i => i | none => ast.length
  let g := tsOfStmt (stmtAt ast1 gIdx)
  -- lines 17-19
  if ¬ moduleBodyIsBlock g then
    (ast1, .error "Unexpected body type of `declare global` in `src/app.d.ts`")
  else
    -- lines 21-37: the walk (performed before any creation below)
    let apps := appPathsTS g
    let ifcs := ifaceNodesTS name g
    -- lines 39-42
    let created :=
      match apps.getLast? with
      | some p => (ast1, p)
      | none =>
        (setStmt ast1 gIdx (stmtOfTS (pushAtTS g [] freshApp)), [rootChildCount g])
    let ast2 := created.1
    let appPath := created.2
    let app := lookupTS (tsOfStmt (stmtAt ast2 gIdx)) appPath
    -- lines 44-46
    if ¬ moduleBodyIsBlock app then
      (ast2, .error "Unexpected body type of `namespace App` in `src/app.d.ts`")
    else
      -- lines 48-56
      match ifcs.getLast? with
      | some node => (ast2, .ok node)
      | none =>
        (setStmt ast2 gIdx
          (stmtOfTS (pushAtTS (tsOfStmt (stmtAt ast2 gIdx)) appPath (freshIface name))),
         .ok (freshIface name))

/-! ### Predicates used by the specification's properties -/

/-- Is `s` an export of the public name `handle`: a specifier export whose
exported name is `handle`, or a declaration export binding `handle` (by an
identifier declarator or a function name)? -/
def exportsHandle (s : Stmt) : Bool :=
  match s with
  | .exportSpecs specs => specs.any (fun sp => sp.exportedName = "handle")
  | .exportDecl d => isVariableDeclaration d "handle" || isFunctionDeclaration d "handle"
  | _ => false

/-- The number of exports of the public name `handle` in the program. -/
def countHandleExports (ast : Program) : Nat :=
  ast.countP exportsHandle

/-- Is `s` a specifier export mentioning the exported name `handle`? -/
def isSpecHandle (s : Stmt) : Bool :=
  match s with
  | .exportSpecs specs => specs.any (fun sp => sp.exportedName = "handle")
  | _ => false

/-- Every specifier export of `handle` resolves to a top-level declaration
of its local name (valid input: `export { foo as handle }` requires `foo` to
be declared). -/
def specifiersResolvable (ast : Program) : Bool :=
  ast.all (fun s =>
    match s with
    | .exportSpecs specs =>
      specs.all (fun sp =>
        if sp.exportedName = "handle" then
          ast.any (fun t =>
            isFunctionDeclarationStmt t (sp.localName.getD sp.exportedName) ||
            isVariableDeclarationStmt t (sp.localName.getD sp.exportedName))
        else true)
    | _ => true)

/-- The interface declarations named `name` within the first `declare
global` module of the program (the region `addGlobalAppInterface`
searches), in walk order. -/
def ifacesInGlobal (ast : Program) (name : String) : List TSStmt :=
  match ast.findIdx? isGlobalDeclare with
  | some i => ifaceNodesTS name (tsOfStmt (stmtAt ast i))
  | none => []

def countIfaceInGlobal (ast : Program) (name : String) : Nat :=
  (ifacesInGlobal ast name).length

/-! ### Basic list lemmas -/

theorem stmtAt_cons_succ (a : Stmt) (l : Program) (i : Nat) :
    stmtAt (a :: l) (i + 1) = stmtAt l i := by
  simp [stmtAt]

theorem stmtAt_append_length (l1 : Program) (s : Stmt) (l2 : Program) :
    stmtAt (l1 ++ s :: l2) l1.length = s := by
  induction l1 with
  | nil => rfl
  | cons a t ih => simpa [stmtAt, List.getD] using ih

theorem stmtAt_append_left (l1 l2 : Program) (i : Nat) (h : i < l1.length) :
    stmtAt (l1 ++ l2) i = stmtAt l1 i := by
  induction l1 generalizing i with
  | nil => simp at h
  | cons a t ih =>
    cases i with
    | zero => rfl
    | succ j =>
      have := ih j (by simpa using h)
      simpa [stmtAt, List.getD] using this

theorem stmtAt_mem (l : Program) (i : Nat) (h : i < l.length) :
    stmtAt l i ∈ l := by
  induction l generalizing i with
  | nil => simp at h
  | cons a t ih =>
    cases i with
    | zero => simp [stmtAt]
    | succ j =>
      have := ih j (by simpa using h)
      simp [stmtAt, List.getD] at this ⊢
      exact Or.inr this

theorem countP_pos_of_mem {p : Stmt → Bool} {s : Stmt} {l : Program}
    (hm : s ∈ l) (hp : p s = true) : 1 ≤ l.countP p := by
  induction l with
  | nil => simp at hm
  | cons a t ih =>
    rcases List.mem_cons.mp hm with h | h
    · subst h; simp [List.countP_cons, hp]
    · have := ih h
      simp only [List.countP_cons]
      omega

theorem countP_two_of_mem {p : Stmt → Bool} {a b : Stmt} {l : Program}
    (ha : a ∈ l) (hb : b ∈ l) (hne : a ≠ b) (hpa : p a = true) (hpb : p b = true) :
    2 ≤ l.countP p := by
  induction l with
  | nil => simp at ha
  | cons x t ih =>
    rcases List.mem_cons.mp ha with h1 | h1
    · rcases List.mem_cons.mp hb with h2 | h2
      · exact absurd (h1.trans h2.symm) hne
      · subst h1
        have := countP_pos_of_mem h2 hpb
        rw [List.countP_cons, hpa]
        simp only [if_true]
        omega
    · rcases List.mem_cons.mp hb with h2 | h2
      · subst h2
        have := countP_pos_of_mem h1 hpa
        rw [List.countP_cons, hpb]
        simp only [if_true]
        omega
      · have := ih h1 h2
        simp only [List.countP_cons]
        omega

theorem findIdx?_some_spec {p : Stmt → Bool} {l : Program} {k : Nat}
    (h : l.findIdx? p = some k) : k < l.length ∧ p (stmtAt l k) = true := by
  induction l generalizing k with
  | nil => simp [List.findIdx?] at h
  | cons a t ih =>
    rw [List.findIdx?_cons] at h
    by_cases hp : p a
    · simp [hp] at h
      subst h
      exact ⟨by simp, by simpa [stmtAt] using hp⟩
    · simp [hp] at h
      obtain ⟨k2, hk2, rfl⟩ := h
      obtain ⟨h1, h2⟩ := ih hk2
      exact ⟨by simpa using h1, by simpa [stmtAt_cons_succ] using h2⟩

theorem findIdx?_none_spec {p : Stmt → Bool} {l : Program}
    (h : l.findIdx? p = none) : ∀ s ∈ l, p s = false := by
  induction l with
  | nil => simp
  | cons a t ih =>
    rw [List.findIdx?_cons] at h
    by_cases hp : p a
    · simp [hp] at h
    · simp [hp] at h
      intro s hs
      rcases List.mem_cons.mp hs with h1 | h1
      · subst h1; simpa using hp
      · exact ih (by simpa using h) s h1

/-! ### Occurrence lemmas -/

theorem occursInExpr_self (e : Expr) : occursInExpr e e = true := by
  cases e <;> simp [occursInExpr]

theorem occursInStmt_mkNewDecl (ts : Bool) (n : String) (c : Expr) :
    occursInStmt c (mkNewDecl ts n c) = true := by
  simp [mkNewDecl, occursInStmt, occursInDecl, mkDeclarator, occursInExpr_self]

theorem hasNode_append (l1 l2 : Program) (e : Expr) :
    hasNode (l1 ++ l2) e = (hasNode l1 e || hasNode l2 e) := by
  simp [hasNode, List.any_append]

/-! ### Lemmas about the modelled import merger -/

theorem mergeIntoImport_skip {s : Stmt} {l : Program} {src : String}
    {bs : List (String × String)} (h : isImportFrom s src = false) :
    mergeIntoImport (s :: l) src bs = s :: mergeIntoImport l src bs := by
  cases s with
  | importDecl src2 named t2 =>
    simp [isImportFrom, decide_eq_true_eq] at h
    simp [mergeIntoImport, h]
  | decl d => rfl
  | exportDecl d => rfl
  | exportSpecs specs => rfl
  | tsModule a b c d e f g => rfl
  | other a b => rfl

/-- A generic transport: any Boolean `List.any` test that never holds of
an import statement is unchanged by the import merger. -/
theorem any_mergeIntoImport {q : Stmt → Bool}
    (hq : ∀ a b c, q (.importDecl a b c) = false)
    (l : Program) (src : String) (bs : List (String × String)) :
    (mergeIntoImport l src bs).any q = l.any q := by
  induction l with
  | nil => rfl
  | cons s rest ih =>
    cases s with
    | importDecl src2 named t2 =>
      by_cases hs : src2 = src
      · simp [mergeIntoImport, hs, hq]
      · simp [mergeIntoImport, hs, hq, ih]
    | decl d => simp [mergeIntoImport, ih]
    | exportDecl d => simp [mergeIntoImport, ih]
    | exportSpecs specs => simp [mergeIntoImport, ih]
    | tsModule a b c d e f g => simp [mergeIntoImport, ih]
    | other a b => simp [mergeIntoImport, ih]

theorem countP_mergeIntoImport {q : Stmt → Bool}
    (hq : ∀ a b c, q (.importDecl a b c) = false)
    (l : Program) (src : String) (bs : List (String × String)) :
    (mergeIntoImport l src bs).countP q = l.countP q := by
  induction l with
  | nil => rfl
  | cons s rest ih =>
    cases s with
    | importDecl src2 named t2 =>
      by_cases hs : src2 = src
      · simp [mergeIntoImport, hs, List.countP_cons, hq]
      · simp [mergeIntoImport, hs, List.countP_cons, hq, ih]
    | decl d => simp [mergeIntoImport, List.countP_cons, ih]
    | exportDecl d => simp [mergeIntoImport, List.countP_cons, ih]
    | exportSpecs specs => simp [mergeIntoImport, List.countP_cons, ih]
    | tsModule a b c d e f g => simp [mergeIntoImport, List.countP_cons, ih]
    | other a b => simp [mergeIntoImport, List.countP_cons, ih]

theorem hasNode_addNamedImport (l : Program) (src : String)
    (bs : List (String × String)) (t : Bool) (e : Expr) :
    hasNode (addNamedImport l src bs t) e = hasNode l e := by
  unfold addNamedImport
  by_cases h : l.any (fun s => isImportFrom s src)
  · simp only [h, if_true]
    exact any_mergeIntoImport (fun _ _ _ => rfl) l src bs
  · simp only [h, if_false]
    simp [hasNode, occursInStmt]

theorem countP_addNamedImport {q : Stmt → Bool}
    (hq : ∀ a b c, q (.importDecl a b c) = false)
    (l : Program) (src : String) (bs : List (String × String)) (t : Bool) :
    (addNamedImport l src bs t).countP q = l.countP q := by
  unfold addNamedImport
  by_cases h : l.any (fun s => isImportFrom s src)
  · simp only [h, if_true]
    exact countP_mergeIntoImport hq l src bs
  · simp only [h, if_false]
    simp [List.countP_cons, hq]

/-- Every statement of the merged body is either an original statement or
an import statement. -/
theorem mem_mergeIntoImport {l : Program} {src : String}
    {bs : List (String × String)} :
    ∀ s ∈ mergeIntoImport l src bs,
      s ∈ l ∨ ∃ a b c, s = Stmt.importDecl a b c := by
  induction l with
  | nil => simp [mergeIntoImport]
  | cons x rest ih =>
    intro s hs
    cases x with
    | importDecl src2 named t2 =>
      by_cases hx : src2 = src
      · simp [mergeIntoImport, hx] at hs
        rcases hs with h | h
        · exact Or.inr ⟨_, _, _, h⟩
        · exact Or.inl (List.mem_cons_of_mem _ h)
      · simp [mergeIntoImport, hx] at hs
        rcases hs with h | h
        · exact Or.inl (by simp [h])
        · rcases ih s h with h2 | h2
          · exact Or.inl (List.mem_cons_of_mem _ h2)
          · exact Or.inr h2
    | decl d =>
      rcases List.mem_cons.mp hs with h | h
      · exact Or.inl (by simp [h])
      · rcases ih s h with h2 | h2
        · exact Or.inl (List.mem_cons_of_mem _ h2)
        · exact Or.inr h2
    | exportDecl d =>
      rcases List.mem_cons.mp hs with h | h
      · exact Or.inl (by simp [h])
      · rcases ih s h with h2 | h2
        · exact Or.inl (List.mem_cons_of_mem _ h2)
        · exact Or.inr h2
    | exportSpecs specs =>
      rcases List.mem_cons.mp hs with h | h
      · exact Or.inl (by simp [h])
      · rcases ih s h with h2 | h2
        · exact Or.inl (List.mem_cons_of_mem _ h2)
        · exact Or.inr h2
    | tsModule a b c d e f g =>
      rcases List.mem_cons.mp hs with h | h
      · exact Or.inl (by simp [h])
      · rcases ih s h with h2 | h2
        · exact Or.inl (List.mem_cons_of_mem _ h2)
        · exact Or.inr h2
    | other a b =>
      rcases List.mem_cons.mp hs with h | h
      · exact Or.inl (by simp [h])
      · rcases ih s h with h2 | h2
        · exact Or.inl (List.mem_cons_of_mem _ h2)
        · exact Or.inr h2

theorem mem_addNamedImport {l : Program} {src : String}
    {bs : List (String × String)} {t : Bool} :
    ∀ s ∈ addNamedImport l src bs t,
      s ∈ l ∨ ∃ a b c, s = Stmt.importDecl a b c := by
  unfold addNamedImport
  by_cases h : l.any (fun s => isImportFrom s src)
  · simp only [h, if_true]
    exact mem_mergeIntoImport
  · simp only [h, if_false]
    intro s hs
    rcases List.mem_cons.mp hs with h1 | h1
    · exact Or.inr ⟨_, _, _, h1⟩
    · exact Or.inl h1

/-- Non-import statements survive the import merger. -/
theorem mem_mergeIntoImport_of_mem {s : Stmt} {l : Program} {src : String}
    {bs : List (String × String)} (hs : s ∈ l)
    (hni : ∀ a b c, s ≠ Stmt.importDecl a b c) :
    s ∈ mergeIntoImport l src bs := by
  induction l with
  | nil => simp at hs
  | cons x rest ih =>
    rcases List.mem_cons.mp hs with h | h
    · subst h
      cases s with
      | importDecl a b c => exact absurd rfl (hni a b c)
      | decl d => simp [mergeIntoImport]
      | exportDecl d => simp [mergeIntoImport]
      | exportSpecs specs => simp [mergeIntoImport]
      | tsModule a b c d e f g => simp [mergeIntoImport]
      | other a b => simp [mergeIntoImport]
    · cases x with
      | importDecl src2 named t2 =>
        by_cases hx : src2 = src
        · simp [mergeIntoImport, hx]
          exact Or.inr h
        · simp [mergeIntoImport, hx]
          exact Or.inr (ih h)
      | decl d => exact List.mem_cons_of_mem _ (ih h)
      | exportDecl d => exact List.mem_cons_of_mem _ (ih h)
      | exportSpecs specs => exact List.mem_cons_of_mem _ (ih h)
      | tsModule a b c d e f g => exact List.mem_cons_of_mem _ (ih h)
      | other a b => exact List.mem_cons_of_mem _ (ih h)

theorem mem_addNamedImport_of_mem {s : Stmt} {l : Program} {src : String}
    {bs : List (String × String)} {t : Bool} (hs : s ∈ l)
    (hni : ∀ a b c, s ≠ Stmt.importDecl a b c) :
    s ∈ addNamedImport l src bs t := by
  unfold addNamedImport
  by_cases h : l.any (fun s => isImportFrom s src)
  · simp only [h, if_true]
    exact mem_mergeIntoImport_of_mem hs hni
  · simp only [h, if_false]
    exact List.mem_cons_of_mem _ hs

/-- The first import from `src` (if any) already carries all the requested
bindings. -/
def firstImportHas : Program → String → List (String × String) → Bool
  | [], _, _ => false
  | s :: rest, src, bs =>
    match s with
    | .importDecl src2 named _ =>
      if src2 = src then bs.all (fun b => decide (b ∈ named))
      else firstImportHas rest src bs
    | _ => firstImportHas rest src bs

theorem firstImportHas_skip {s : Stmt} {l : Program} {src : String}
    {bs : List (String × String)} (h : isImportFrom s src = false) :
    firstImportHas (s :: l) src bs = firstImportHas l src bs := by
  cases s with
  | importDecl src2 named t2 =>
    simp [isImportFrom, decide_eq_true_eq] at h
    simp [firstImportHas, h]
  | decl d => rfl
  | exportDecl d => rfl
  | exportSpecs specs => rfl
  | tsModule a b c d e f g => rfl
  | other a b => rfl

theorem any_import_of_firstImportHas {l : Program} {src : String}
    {bs : List (String × String)} (h : firstImportHas l src bs = true) :
    l.any (fun s => isImportFrom s src) = true := by
  induction l with
  | nil => simp [firstImportHas] at h
  | cons x rest ih =>
    by_cases hx : isImportFrom x src
    · simp [hx]
    · have hx2 : isImportFrom x src = false := by simpa using hx
      rw [firstImportHas_skip hx2] at h
      simp [ih h]

theorem mergeIntoImport_eq_self {l : Program} {src : String}
    {bs : List (String × String)} (h : firstImportHas l src bs = true) :
    mergeIntoImport l src bs = l := by
  induction l with
  | nil => rfl
  | cons x rest ih =>
    by_cases hx : isImportFrom x src
    · cases x with
      | importDecl src2 named t2 =>
        simp [isImportFrom, decide_eq_true_eq] at hx
        simp [firstImportHas, hx] at h
        have hf : bs.filter (fun b => decide (b ∉ named)) = [] := by
          rw [List.filter_eq_nil_iff]
          intro b hb
          simp [h b.1 b.2 hb]
        simp [mergeIntoImport, hx, mergeBindings, hf]
        exact h
      | decl d => simp [isImportFrom] at hx
      | exportDecl d => simp [isImportFrom] at hx
      | exportSpecs specs => simp [isImportFrom] at hx
      | tsModule a b c d e f g => simp [isImportFrom] at hx
      | other a b => simp [isImportFrom] at hx
    · have hx2 : isImportFrom x src = false := by simpa using hx
      rw [mergeIntoImport_skip hx2]
      rw [firstImportHas_skip hx2] at h
      rw [ih h]

theorem addNamedImport_eq_self {l : Program} {src : String}
    {bs : List (String × String)} {t : Bool} (h : firstImportHas l src bs = true) :
    addNamedImport l src bs t = l := by
  unfold addNamedImport
  rw [any_import_of_firstImportHas h]
  simp [mergeIntoImport_eq_self h]

theorem firstImportHas_mergeIntoImport {l : Program} {src : String}
    {bs : List (String × String)}
    (h : l.any (fun s => isImportFrom s src) = true) :
    firstImportHas (mergeIntoImport l src bs) src bs = true := by
  induction l with
  | nil => simp at h
  | cons x rest ih =>
    by_cases hx : isImportFrom x src
    · cases x with
      | importDecl src2 named t2 =>
        simp [isImportFrom, decide_eq_true_eq] at hx
        subst hx
        simp [mergeIntoImport, firstImportHas, mergeBindings]
        intro a b hab
        by_cases hbn : (a, b) ∈ named
        · exact Or.inl hbn
        · exact Or.inr ⟨hab, hbn⟩
      | decl d => simp [isImportFrom] at hx
      | exportDecl d => simp [isImportFrom] at hx
      | exportSpecs specs => simp [isImportFrom] at hx
      | tsModule a b c d e f g => simp [isImportFrom] at hx
      | other a b => simp [isImportFrom] at hx
    · have hx2 : isImportFrom x src = false := by simpa using hx
      rw [mergeIntoImport_skip hx2, firstImportHas_skip hx2]
      rw [List.any_cons, hx2] at h
      exact ih (by simpa using h)

theorem firstImportHas_addNamedImport (l : Program) (src : String)
    (bs : List (String × String)) (t : Bool) :
    firstImportHas (addNamedImport l src bs t) src bs = true := by
  unfold addNamedImport
  by_cases h : l.any (fun s => isImportFrom s src)
  · simp only [h, if_true]
    exact firstImportHas_mergeIntoImport h
  · simp only [h, if_false]
    show (if src = src then bs.all (fun b => decide (b ∈ bs)) else firstImportHas l src bs) = true
    simp

/-! ### Lemmas about removal by index -/

/-- The statements `removeAtAux` drops (the complement of its result). -/
def removedIdxStmts : List Stmt → List Nat → Nat → List Stmt
  | [], _, _ => []
  | s :: rest, idxs, cur =>
    (if cur ∈ idxs then [s] else []) ++ removedIdxStmts rest idxs (cur + 1)

theorem countP_removeAtAux (p : Stmt → Bool) (l : List Stmt) (idxs : List Nat) (cur : Nat) :
    (removeAtAux l idxs cur).countP p + (removedIdxStmts l idxs cur).countP p
      = l.countP p := by
  induction l generalizing cur with
  | nil => rfl
  | cons s rest ih =>
    by_cases h : cur ∈ idxs
    · simp [removeAtAux, removedIdxStmts, h, List.countP_cons]
      have := ih (cur + 1)
      omega
    · simp [removeAtAux, removedIdxStmts, h, List.countP_cons]
      have := ih (cur + 1)
      omega

theorem mem_removedIdxStmts {l : List Stmt} {idxs : List Nat} {cur : Nat} :
    ∀ s ∈ removedIdxStmts l idxs cur, ∃ j ∈ idxs, cur ≤ j ∧ stmtAt l (j - cur) = s := by
  induction l generalizing cur with
  | nil => simp [removedIdxStmts]
  | cons x rest ih =>
    intro s hs
    by_cases h : cur ∈ idxs
    · simp [removedIdxStmts, h] at hs
      rcases hs with h1 | h1
      · exact ⟨cur, h, le_refl _, by simp [h1, stmtAt]⟩
      · obtain ⟨j, hj, hle, hst⟩ := ih s h1
        refine ⟨j, hj, by omega, ?_⟩
        have : j - cur = (j - (cur + 1)) + 1 := by omega
        rw [this, stmtAt_cons_succ]
        exact hst
    · simp [removedIdxStmts, h] at hs
      obtain ⟨j, hj, hle, hst⟩ := ih s hs
      refine ⟨j, hj, by omega, ?_⟩
      rcases Nat.lt_or_ge cur j with hlt | hge
      · have : j - cur = (j - (cur + 1)) + 1 := by omega
        rw [this, stmtAt_cons_succ]
        exact hst
      · have : j = cur := by omega
        subst this
        exact absurd hj h

theorem removedIdxStmts_empty_of_lt {l : List Stmt} {idxs : List Nat} {cur : Nat}
    (h : ∀ j ∈ idxs, j < cur) : removedIdxStmts l idxs cur = [] := by
  induction l generalizing cur with
  | nil => rfl
  | cons x rest ih =>
    have hne : cur ∉ idxs := fun hc => absurd (h cur hc) (by omega)
    simp [removedIdxStmts, hne]
    exact ih (fun j hj => by have := h j hj; omega)

theorem removedIdxStmts_drop_lt {l : List Stmt} {i : Nat} {idxs : List Nat} {cur : Nat}
    (h : i < cur) : removedIdxStmts l (i :: idxs) cur = removedIdxStmts l idxs cur := by
  induction l generalizing cur with
  | nil => rfl
  | cons x rest ih =>
    have h1 : (cur ∈ i :: idxs) = (cur ∈ idxs) := by
      simp only [List.mem_cons]
      have : ¬cur = i := by omega
      simp [this]
    simp only [removedIdxStmts, h1]
    rw [ih (by omega)]

theorem removedIdxStmts_single {l : List Stmt} {i : Nat} {cur : Nat}
    (h1 : cur ≤ i) (h2 : i < cur + l.length) :
    removedIdxStmts l [i] cur = [stmtAt l (i - cur)] := by
  induction l generalizing cur with
  | nil => simp at h2; omega
  | cons x rest ih =>
    by_cases hc : i = cur
    · subst hc
      simp [removedIdxStmts, @removedIdxStmts_empty_of_lt rest [i]
        (i + 1) (by intro j hj; simp at hj; omega), stmtAt]
    · have hlt : cur < i := by omega
      have hmem : cur ∉ [i] := by simp; omega
      simp only [removedIdxStmts, hmem, if_neg (by simpa using hmem)]
      rw [ih (by omega) (by simp at h2 ⊢; omega)]
      have : i - cur = (i - (cur + 1)) + 1 := by omega
      rw [this, stmtAt_cons_succ]
      simp

theorem removedIdxStmts_pair {l : List Stmt} {i k : Nat} {cur : Nat}
    (hik : i < k) (h1 : cur ≤ i) (h2 : k < cur + l.length) :
    removedIdxStmts l [i, k] cur = [stmtAt l (i - cur), stmtAt l (k - cur)] := by
  induction l generalizing cur with
  | nil => simp at h2; omega
  | cons x rest ih =>
    by_cases hc : i = cur
    · subst hc
      have hmem : (i ∈ [i, k]) := by simp
      simp only [removedIdxStmts, if_pos hmem]
      rw [removedIdxStmts_drop_lt (by omega)]
      rw [removedIdxStmts_single (by omega) (by simp at h2 ⊢; omega)]
      have : k - i = (k - (i + 1)) + 1 := by omega
      rw [this, stmtAt_cons_succ]
      simp [stmtAt]
    · have hmem : cur ∉ [i, k] := by simp; omega
      simp only [removedIdxStmts, if_neg hmem]
      rw [ih (by omega) (by simp at h2 ⊢; omega)]
      have hi : i - cur = (i - (cur + 1)) + 1 := by omega
      have hk : k - cur = (k - (cur + 1)) + 1 := by omega
      rw [hi, hk, stmtAt_cons_succ, stmtAt_cons_succ]
      simp

theorem firstImportHas_removeAtAux {l : List Stmt} {idxs : List Nat} {cur : Nat}
    {src : String} {bs : List (String × String)}
    (h : ∀ s ∈ removedIdxStmts l idxs cur, isImportFrom s src = false) :
    firstImportHas (removeAtAux l idxs cur) src bs = firstImportHas l src bs := by
  induction l generalizing cur with
  | nil => rfl
  | cons x rest ih =>
    by_cases hc : cur ∈ idxs
    · have hx : isImportFrom x src = false := by
        apply h
        simp [removedIdxStmts, hc]
      simp only [removeAtAux, if_pos hc, List.nil_append]
      rw [firstImportHas_skip hx]
      apply ih
      intro s hs
      apply h
      simp [removedIdxStmts, hc, hs]
    · simp only [removeAtAux, if_neg hc, List.singleton_append]
      by_cases hx : isImportFrom x src
      · cases x with
        | importDecl src2 named t2 =>
          simp [isImportFrom, decide_eq_true_eq] at hx
          simp [firstImportHas, hx]
        | decl d => simp [isImportFrom] at hx
        | exportDecl d => simp [isImportFrom] at hx
        | exportSpecs specs => simp [isImportFrom] at hx
        | tsModule a b c d e f g => simp [isImportFrom] at hx
        | other a b => simp [isImportFrom] at hx
      · have hx2 : isImportFrom x src = false := by simpa using hx
        rw [firstImportHas_skip hx2, firstImportHas_skip hx2]
        apply ih
        intro s hs
        apply h
        simp [removedIdxStmts, hc, hs]

theorem removeAtAux_append (l1 l2 : List Stmt) (idxs : List Nat) (cur : Nat) :
    removeAtAux (l1 ++ l2) idxs cur
      = removeAtAux l1 idxs cur ++ removeAtAux l2 idxs (cur + l1.length) := by
  induction l1 generalizing cur with
  | nil => simp [removeAtAux]
  | cons x rest ih =>
    have hlen : cur + 1 + rest.length = cur + (x :: rest).length := by
      simp
      omega
    by_cases hc : cur ∈ idxs
    · simp only [List.cons_append, removeAtAux, if_pos hc, List.nil_append, List.append_eq]
      rw [ih (cur + 1), hlen]
    · simp only [List.cons_append, removeAtAux, if_neg hc, List.singleton_append,
        List.append_eq]
      rw [ih (cur + 1), hlen]
      simp

theorem removeAtAux_id_of {l : List Stmt} {idxs : List Nat} {cur : Nat}
    (h : ∀ j ∈ idxs, j < cur ∨ cur + l.length ≤ j) :
    removeAtAux l idxs cur = l := by
  induction l generalizing cur with
  | nil => rfl
  | cons x rest ih =>
    have hne : cur ∉ idxs := by
      intro hc
      rcases h cur hc with h1 | h1 <;> simp at h1 <;> omega
    simp only [removeAtAux, if_neg hne, List.singleton_append]
    rw [ih]
    intro j hj
    rcases h j hj with h1 | h1
    · exact Or.inl (by omega)
    · exact Or.inr (by simp at h1 ⊢; omega)

theorem removeAt_middle (l1 : List Stmt) (s : Stmt) (l2 : List Stmt) :
    removeAt (l1 ++ s :: l2) [l1.length] = l1 ++ l2 := by
  unfold removeAt
  rw [removeAtAux_append]
  rw [removeAtAux_id_of (by intro j hj; simp at hj; omega)]
  simp only [Nat.zero_add]
  show l1 ++ ((if l1.length ∈ [l1.length] then [] else [s]) ++ removeAtAux l2 [l1.length] (l1.length + 1)) = l1 ++ l2
  rw [if_pos (by simp)]
  rw [removeAtAux_id_of (by intro j hj; simp at hj; omega)]
  simp

/-! ### Characterization of the Construct Locator walk -/

theorem isFunctionDeclarationStmt_shape {s : Stmt} {n : String}
    (h : isFunctionDeclarationStmt s n = true) :
    ∃ d, s = Stmt.decl d ∧ isFunctionDeclaration d n = true := by
  cases s with
  | decl d => exact ⟨d, rfl, h⟩
  | exportDecl d => simp [isFunctionDeclarationStmt] at h
  | exportSpecs specs => simp [isFunctionDeclarationStmt] at h
  | importDecl a b c => simp [isFunctionDeclarationStmt] at h
  | tsModule a b c d e f g => simp [isFunctionDeclarationStmt] at h
  | other a b => simp [isFunctionDeclarationStmt] at h

theorem isVariableDeclarationStmt_shape {s : Stmt} {n : String}
    (h : isVariableDeclarationStmt s n = true) :
    ∃ d, s = Stmt.decl d ∧ isVariableDeclaration d n = true := by
  cases s with
  | decl d => exact ⟨d, rfl, h⟩
  | exportDecl d => simp [isVariableDeclarationStmt] at h
  | exportSpecs specs => simp [isVariableDeclarationStmt] at h
  | importDecl a b c => simp [isVariableDeclarationStmt] at h
  | tsModule a b c d e f g => simp [isVariableDeclarationStmt] at h
  | other a b => simp [isVariableDeclarationStmt] at h

theorem resolveSite_spec {body : Program} {hName : String} {site : Site}
    (h : resolveSite body hName = some site) :
    ∃ k, site = Site.top k ∧ k < body.length ∧
      ∃ d, stmtAt body k = Stmt.decl d ∧
        (isFunctionDeclaration d hName || isVariableDeclaration d hName) = true := by
  unfold resolveSite at h
  rcases hf : body.findIdx? (fun n => isFunctionDeclarationStmt n hName) with _ | k
  · rw [hf] at h
    rcases hv : body.findIdx? (fun n => isVariableDeclarationStmt n hName) with _ | k
    · rw [hv] at h; simp at h
    · rw [hv] at h
      simp at h
      obtain ⟨hk, hp⟩ := findIdx?_some_spec hv
      obtain ⟨d, hd, hdp⟩ := isVariableDeclarationStmt_shape hp
      exact ⟨k, h.symm, hk, d, hd, by simp [hdp]⟩
  · rw [hf] at h
    simp at h
    obtain ⟨hk, hp⟩ := findIdx?_some_spec hf
    obtain ⟨d, hd, hdp⟩ := isFunctionDeclarationStmt_shape hp
    exact ⟨k, h.symm, hk, d, hd, by simp [hdp]⟩

theorem resolveSite_isSome_of_any {body : Program} {hName : String}
    (h : (body.any fun t =>
      isFunctionDeclarationStmt t hName || isVariableDeclarationStmt t hName) = true) :
    (resolveSite body hName).isSome = true := by
  unfold resolveSite
  rcases hf : body.findIdx? (fun n => isFunctionDeclarationStmt n hName) with _ | k
  · rcases hv : body.findIdx? (fun n => isVariableDeclarationStmt n hName) with _ | k
    · exfalso
      have hfn := findIdx?_none_spec hf
      have hvn := findIdx?_none_spec hv
      rw [List.any_eq_true] at h
      obtain ⟨t, ht, hp⟩ := h
      rw [Bool.or_eq_true] at hp
      rcases hp with hp | hp
      · rw [hfn t ht] at hp; exact Bool.false_ne_true hp
      · rw [hvn t ht] at hp; exact Bool.false_ne_true hp
    · simp
  · simp

theorem walkStep_decl (body : Program) (st : WalkState) (i : Nat) (d : Decl) :
    walkStep body st i (.decl d) = st := rfl

theorem walkStep_importDecl (body : Program) (st : WalkState) (i : Nat)
    (a : String) (b : List (String × String)) (c : Bool) :
    walkStep body st i (.importDecl a b c) = st := rfl

theorem walkStep_tsModule (body : Program) (st : WalkState) (i : Nat)
    (a : Bool) (b : String) (c d e f : Bool) (g : List TSStmt) :
    walkStep body st i (.tsModule a b c d e f g) = st := rfl

theorem walkStep_other (body : Program) (st : WalkState) (i : Nat)
    (a : Nat) (b : List Expr) :
    walkStep body st i (.other a b) = st := rfl

theorem walkStep_exportDecl (body : Program) (st : WalkState) (i : Nat) (d : Decl) :
    walkStep body st i (.exportDecl d) =
      if (isVariableDeclaration d st.handleName || isFunctionDeclaration d st.handleName) = true
      then ⟨st.isSpecifier, st.handleName, some ⟨i, .inExport⟩⟩
      else st := rfl

theorem walkStep_exportSpecs {body : Program} {st : WalkState} {i : Nat}
    {specs : List ExportSpec} :
    walkStep body st i (.exportSpecs specs) =
      match specs.find? (fun sp => sp.exportedName = "handle") with
      | some sp =>
        (match resolveSite body (sp.localName.getD sp.exportedName) with
         | some site => ⟨true, sp.localName.getD sp.exportedName, some ⟨i, site⟩⟩
         | none => ⟨true, sp.localName.getD sp.exportedName, st.found⟩)
      | none => st := rfl

theorem walkStep_exportSpecs_some {body : Program} {st : WalkState} {i : Nat}
    {specs : List ExportSpec} {sp : ExportSpec}
    (hfind : specs.find? (fun sp => sp.exportedName = "handle") = some sp) :
    walkStep body st i (.exportSpecs specs) =
      match resolveSite body (sp.localName.getD sp.exportedName) with
      | some site => ⟨true, sp.localName.getD sp.exportedName, some ⟨i, site⟩⟩
      | none => ⟨true, sp.localName.getD sp.exportedName, st.found⟩ := by
  rw [walkStep_exportSpecs, hfind]

/-- The state facts the rewrite phase relies on, maintained by every step of
the walk (with no assumption on the tree). -/
structure WalkInvW (body : Program) (st : WalkState) : Prop where
  spec_hname : st.isSpecifier = false → st.handleName = "handle"
  site_top_spec : ∀ f k, st.found = some f → f.site = Site.top k → st.isSpecifier = true
  found_shape : ∀ f, st.found = some f →
    f.exportIdx < body.length ∧
    ((∃ d, stmtAt body f.exportIdx = .exportDecl d ∧ f.site = Site.inExport) ∨
     (∃ specs k, stmtAt body f.exportIdx = .exportSpecs specs ∧
        (specs.any fun sp => sp.exportedName = "handle") = true ∧ f.site = Site.top k ∧
        k < body.length ∧ ∃ d2, stmtAt body k = Stmt.decl d2))
  found_match : st.isSpecifier = false → ∀ f, st.found = some f →
    ∃ d, stmtAt body f.exportIdx = .exportDecl d ∧
      (isVariableDeclaration d st.handleName || isFunctionDeclaration d st.handleName) = true

theorem walkInvW_init (body : Program) : WalkInvW body initState := by
  constructor
  · intro _; rfl
  · intro f k h; simp [initState] at h
  · intro f h; simp [initState] at h
  · intro _ f h; simp [initState] at h

theorem walkInvW_step {body : Program} {st : WalkState} {i : Nat} {s : Stmt}
    (hinv : WalkInvW body st) (hi : stmtAt body i = s) (hlen : i < body.length) :
    WalkInvW body (walkStep body st i s) := by
  cases s with
  | decl d => rw [walkStep_decl]; exact hinv
  | importDecl a b c => rw [walkStep_importDecl]; exact hinv
  | tsModule a b c d e f g => rw [walkStep_tsModule]; exact hinv
  | other a b => rw [walkStep_other]; exact hinv
  | exportDecl d =>
    rw [walkStep_exportDecl]
    by_cases hc : (isVariableDeclaration d st.handleName || isFunctionDeclaration d st.handleName) = true
    · rw [if_pos hc]
      constructor
      · exact hinv.spec_hname
      · intro f k hf hk
        simp at hf
        rw [← hf] at hk
        simp at hk
      · intro f hf
        simp at hf
        rw [← hf]
        exact ⟨hlen, Or.inl ⟨d, hi, rfl⟩⟩
      · intro hsp f hf
        simp at hf
        rw [← hf]
        exact ⟨d, hi, hc⟩
    · rw [if_neg hc]; exact hinv
  | exportSpecs specs =>
    rcases hfind : specs.find? (fun sp => sp.exportedName = "handle") with _ | sp
    · rw [walkStep_exportSpecs, hfind]; exact hinv
    · rw [walkStep_exportSpecs_some hfind]
      rcases hres : resolveSite body (sp.localName.getD sp.exportedName) with _ | site
      · constructor
        · intro h; simp at h
        · intro f k hf hk
          rfl
        · intro f hf
          exact hinv.found_shape f hf
        · intro hsp; simp at hsp
      · obtain ⟨k, hsite, hk, d2, hd2, _⟩ := resolveSite_spec hres
        constructor
        · intro h; simp at h
        · intro f k2 hf hk2; rfl
        · intro f hf
          simp at hf
          rw [← hf]
          refine ⟨hlen, Or.inr ⟨specs, k, hi, ?_, by simp [hsite], hk, d2, hd2⟩⟩
          have hmem := List.mem_of_find?_eq_some hfind
          have hprop := List.find?_some hfind
          exact List.any_eq_true.mpr ⟨sp, hmem, hprop⟩
        · intro hsp; simp at hsp

theorem drop_cons_spec {l : Program} {i : Nat} {s : Stmt} {rest : List Stmt}
    (h : l.drop i = s :: rest) :
    i < l.length ∧ stmtAt l i = s ∧ l.drop (i + 1) = rest := by
  induction l generalizing i with
  | nil => simp at h
  | cons x t ih =>
    cases i with
    | zero =>
      simp at h
      exact ⟨by simp, by simp [stmtAt, h.1], by simpa using h.2⟩
    | succ j =>
      rw [List.drop_succ_cons] at h
      obtain ⟨h1, h2, h3⟩ := ih h
      exact ⟨by simp; omega, by simpa [stmtAt_cons_succ] using h2, by simpa using h3⟩

theorem walkInvW_aux {body : Program} :
    ∀ (l : List Stmt) (i : Nat) (st : WalkState), body.drop i = l →
      WalkInvW body st → WalkInvW body (walkAux body st i l) := by
  intro l
  induction l with
  | nil => intro i st _ hinv; exact hinv
  | cons s rest ih =>
    intro i st hdrop hinv
    obtain ⟨h1, h2, h3⟩ := drop_cons_spec hdrop
    show WalkInvW body (walkAux body (walkStep body st i s) (i + 1) rest)
    exact ih (i + 1) _ h3 (walkInvW_step hinv h2 h1)

theorem walkInvW_find (body : Program) : WalkInvW body (walkFind body) :=
  walkInvW_aux body 0 initState (by simp) (walkInvW_init body)

/-! ### Lemmas about the rewrite components -/

theorem getVariableDeclarator_appendSeqArg_isSome (ds : List Declarator)
    (hName : String) (a : Expr) (nm : String) :
    (getVariableDeclarator (appendSeqArg ds hName a) nm).isSome
      = (getVariableDeclarator ds nm).isSome := by
  induction ds with
  | nil => rfl
  | cons dd rest ih =>
    by_cases hu : usingSequence dd hName
    · simp only [appendSeqArg, if_pos hu]
      rcases hinit : dd.init with _ | e
      · rfl
      · cases e with
        | call cc args =>
          show (getVariableDeclarator (⟨dd.id, _, dd.tsType⟩ :: rest) nm).isSome = _
          unfold getVariableDeclarator
          cases hid : dd.id with
          | ident n =>
            by_cases hn : n = nm
            · rw [List.find?_cons_of_pos _ (by simp [hid, hn]),
                List.find?_cons_of_pos _ (by simp [hid, hn])]
              rfl
            · rw [List.find?_cons_of_neg _ (by simp [hid, hn]),
                List.find?_cons_of_neg _ (by simp [hid, hn])]
          | other t =>
            rw [List.find?_cons_of_neg _ (by simp [hid]),
              List.find?_cons_of_neg _ (by simp [hid])]
        | ident n2 => rfl
        | lit t2 => rfl
    · simp only [appendSeqArg, if_neg hu]
      unfold getVariableDeclarator
      cases hid : dd.id with
      | ident n =>
        by_cases hn : n = nm
        · rw [List.find?_cons_of_pos _ (by simp [hid, hn]),
            List.find?_cons_of_pos _ (by simp [hid, hn])]
        · rw [List.find?_cons_of_neg _ (by simp [hid, hn]),
            List.find?_cons_of_neg _ (by simp [hid, hn])]
          exact ih
      | other t =>
        rw [List.find?_cons_of_neg _ (by simp [hid]),
          List.find?_cons_of_neg _ (by simp [hid])]
        exact ih

theorem isVariableDeclaration_appendSeq (d : Decl) (hName : String) (a : Expr)
    (nm : String) :
    isVariableDeclaration (appendSeq d hName a) nm = isVariableDeclaration d nm := by
  cases d with
  | funDecl n b => rfl
  | varDecl k ds =>
    show (getVariableDeclarator (appendSeqArg ds hName a) nm).isSome
      = (getVariableDeclarator ds nm).isSome
    rw [getVariableDeclarator_appendSeqArg_isSome]

theorem isFunctionDeclaration_appendSeq (d : Decl) (hName : String) (a : Expr)
    (nm : String) :
    isFunctionDeclaration (appendSeq d hName a) nm = isFunctionDeclaration d nm := by
  cases d with
  | funDecl n b => rfl
  | varDecl k ds => rfl

theorem isVariableDeclaration_seqAppended (d : Decl) (hName nn : String) (nm : String) :
    isVariableDeclaration (seqAppended d hName nn) nm = isVariableDeclaration d nm := by
  unfold seqAppended
  rcases h : seqArgsOf d hName with _ | args
  · rfl
  · by_cases ha : args.any (isIdentNamed nn)
    · simp [ha]
    · simp [ha, isVariableDeclaration_appendSeq]

theorem isFunctionDeclaration_seqAppended (d : Decl) (hName nn : String) (nm : String) :
    isFunctionDeclaration (seqAppended d hName nn) nm = isFunctionDeclaration d nm := by
  unfold seqAppended
  rcases h : seqArgsOf d hName with _ | args
  · rfl
  · by_cases ha : args.any (isIdentNamed nn)
    · simp [ha]
    · simp [ha, isFunctionDeclaration_appendSeq]

theorem renameStep_varDecl (k : String) (ds : List Declarator) (hName : String) :
    renameStep (.varDecl k ds) hName =
      match getVariableDeclarator ds hName with
      | some dec =>
        match dec.init with
        | some (.ident _) => (false, .varDecl k ds)
        | _ => (true, .varDecl k (renameDeclarator ds hName "originalHandle"))
      | none => (false, .varDecl k ds) := rfl

theorem renameStep_funDecl (n : Option String) (b : List Expr) (hName : String) :
    renameStep (.funDecl n b) hName =
      match n with
      | some nm =>
        if nm = hName then (true, .funDecl (some "originalHandle") b)
        else (false, .funDecl (some nm) b)
      | none => (false, .funDecl none b) := by
  cases n with
  | none => rfl
  | some nm => rfl

theorem renameStep_snd_of_false {d : Decl} {hName : String}
    (h : (renameStep d hName).1 = false) : (renameStep d hName).2 = d := by
  cases d with
  | varDecl k ds =>
    rw [renameStep_varDecl] at h ⊢
    rcases hg : getVariableDeclarator ds hName with _ | dec
    · simp only [hg]
    · simp only [hg] at h ⊢
      rcases hinit : dec.init with _ | e
      · simp [hinit] at h
      · cases e with
        | ident y => simp only [hinit]
        | call cc args => simp [hinit] at h
        | lit t => simp [hinit] at h
  | funDecl n b =>
    simp only [renameStep_funDecl] at h ⊢
    cases n with
    | none => rfl
    | some nm =>
      by_cases hn : nm = hName
      · simp only [if_pos hn] at h; simp at h
      · simp only [if_neg hn]

theorem renameStep_false_var {d : Decl} {hName : String}
    (hmatch : (isVariableDeclaration d hName || isFunctionDeclaration d hName) = true)
    (h : (renameStep d hName).1 = false) :
    isVariableDeclaration d hName = true := by
  rw [Bool.or_eq_true] at hmatch
  rcases hmatch with hv | hf
  · exact hv
  · exfalso
    cases d with
    | varDecl k ds => simp [isFunctionDeclaration] at hf
    | funDecl n b =>
      cases n with
      | none => simp [isFunctionDeclaration] at hf
      | some nm =>
        simp [isFunctionDeclaration, decide_eq_true_eq] at hf
        simp only [renameStep_funDecl, if_pos hf] at h
        simp at h

/-- When the original declaration matches the walk's `handleName`, one of
the two re-emission branches of lines 213-235 fires. -/
theorem mergeBranch_fires {ast : Program} {handleName newHandleName : String} {f : Finding}
    {d : Decl} (horig : getOrig ast f = d)
    (hmatch : (isVariableDeclaration d handleName || isFunctionDeclaration d handleName) = true)
    (hrr : mergeRename ast handleName newHandleName f = false) :
    isVariableDeclaration (mergeOrig2 ast handleName newHandleName f) handleName = true := by
  unfold mergeRename at hrr
  unfold mergeOrig2
  rw [horig] at hrr ⊢
  rw [renameStep_snd_of_false hrr]
  apply renameStep_false_var _ hrr
  rw [isVariableDeclaration_seqAppended, isFunctionDeclaration_seqAppended]
  exact hmatch

/-- Every branch of `mergeExisting` leaves the new fragment's declaration in
the body, so the fragment's expression occurs in the result. -/
theorem hasNode_mergeExisting {ast : Program} {ts : Bool} {n : String} {c : Expr}
    {isSpec : Bool} {hName : String} {f : Finding}
    (htop : ∀ k, f.site = Site.top k → isSpec = true)
    (hmatch : isSpec = false → ∃ d, stmtAt ast f.exportIdx = .exportDecl d ∧
      (isVariableDeclaration d hName || isFunctionDeclaration d hName) = true) :
    hasNode (mergeExisting ast ts n c isSpec hName f) c = true := by
  have hws : isSpec = true →
      hasNode (mergeWithSpec ast ts n c isSpec hName f) c = true := by
    intro hsp
    unfold mergeWithSpec
    rw [if_pos hsp]
    rw [hasNode_append]
    simp [hasNode, occursInStmt_mkNewDecl]
  unfold mergeExisting
  by_cases h1 : f.site = Site.inExport ∧ mergeRename ast hName n f = true
  · rw [if_pos h1]
    unfold namedExport
    rw [hasNode_append, hasNode_append]
    simp [hasNode, occursInStmt_mkNewDecl]
  · rw [if_neg h1]
    by_cases h2 : f.site = Site.inExport ∧
        isVariableDeclaration (mergeOrig2 ast hName n f) hName = true
    · rw [if_pos h2]
      unfold namedExport
      rw [hasNode_append, hasNode_append]
      simp [hasNode, occursInStmt_mkNewDecl]
    · rw [if_neg h2]
      by_cases hsp : isSpec = true
      · exact hws hsp
      · have hspf : isSpec = false := by simpa using hsp
        exfalso
        rcases hsite : f.site with k | _
        · exact hsp (htop k hsite)
        · obtain ⟨d, hd, hdm⟩ := hmatch hspf
          have horig : getOrig ast f = d := by
            unfold getOrig
            rw [hsite, hd]
          by_cases hrr : mergeRename ast hName n f = true
          · exact h1 ⟨hsite, hrr⟩
          · have := mergeBranch_fires horig hdm (by simpa using hrr)
            exact h2 ⟨hsite, this⟩

theorem hasNode_singleton_mkNewDecl (ts : Bool) (n : String) (c : Expr) :
    hasNode [mkNewDecl ts n c] c = true := by
  simp [hasNode, occursInStmt_mkNewDecl]

theorem hasNode_addHooksHandle (ast : Program) (ts : Bool) (n : String) (c : Expr) :
    hasNode (addHooksHandle ast ts n c) c = true := by
  unfold addHooksHandle
  by_cases h : hasNode (kitImport ts ast) c = true
  · rw [if_pos h]; exact h
  · rw [if_neg h]
    rcases hf : (walkFind (kitImport ts ast)).found with _ | f
    · unfold namedExport
      rw [hasNode_append, hasNode_append, hasNode_singleton_mkNewDecl]
      simp
    · have hinv := walkInvW_find (kitImport ts ast)
      apply hasNode_mergeExisting
      · intro k hsite
        exact hinv.site_top_spec f k hf hsite
      · intro hsp
        exact hinv.found_match hsp f hf

theorem isImportFrom_shape {s : Stmt} {src : String} (h : isImportFrom s src = true) :
    ∃ named t2, s = Stmt.importDecl src named t2 := by
  cases s with
  | importDecl src2 named t2 =>
    simp [isImportFrom, decide_eq_true_eq] at h
    exact ⟨named, t2, by rw [h]⟩
  | decl d => simp [isImportFrom] at h
  | exportDecl d => simp [isImportFrom] at h
  | exportSpecs specs => simp [isImportFrom] at h
  | tsModule a b c d e f g => simp [isImportFrom] at h
  | other a b => simp [isImportFrom] at h

theorem firstImportHas_append_left {l l2 : Program} {src : String}
    {bs : List (String × String)} (h : firstImportHas l src bs = true) :
    firstImportHas (l ++ l2) src bs = true := by
  induction l with
  | nil => simp [firstImportHas] at h
  | cons x rest ih =>
    by_cases hx : isImportFrom x src = true
    · obtain ⟨named, t2, rfl⟩ := isImportFrom_shape hx
      simp [firstImportHas] at h ⊢
      exact h
    · have hx2 : isImportFrom x src = false := by simpa using hx
      rw [List.cons_append, firstImportHas_skip hx2]
      rw [firstImportHas_skip hx2] at h
      exact ih h

theorem mergeIntoImport_cons_self (src2 : String) (named : List (String × String))
    (t2 : Bool) (rest : Program) (bs2 : List (String × String)) :
    mergeIntoImport (Stmt.importDecl src2 named t2 :: rest) src2 bs2
      = Stmt.importDecl src2 (mergeBindings named bs2) t2 :: rest := by
  simp [mergeIntoImport]

theorem firstImportHas_mergeIntoImport_ne {l : Program} {src src2 : String}
    {bs bs2 : List (String × String)} (hne : src ≠ src2) :
    firstImportHas (mergeIntoImport l src2 bs2) src bs = firstImportHas l src bs := by
  induction l with
  | nil => rfl
  | cons x rest ih =>
    by_cases hx2 : isImportFrom x src2 = true
    · obtain ⟨named, t2, rfl⟩ := isImportFrom_shape hx2
      have hskip : ∀ nm2 : List (String × String),
          isImportFrom (Stmt.importDecl src2 nm2 t2) src = false := by
        intro nm2
        simp only [isImportFrom, decide_eq_false_iff_not]
        intro hc
        exact hne hc.symm
      rw [mergeIntoImport_cons_self]
      rw [firstImportHas_skip (hskip _), firstImportHas_skip (hskip _)]
    · have hx2f : isImportFrom x src2 = false := by simpa using hx2
      rw [mergeIntoImport_skip hx2f]
      by_cases hx : isImportFrom x src = true
      · obtain ⟨named, t2, rfl⟩ := isImportFrom_shape hx
        simp [firstImportHas]
      · have hxf : isImportFrom x src = false := by simpa using hx
        rw [firstImportHas_skip hxf, firstImportHas_skip hxf]
        exact ih

theorem firstImportHas_addNamedImport_ne {l : Program} {src src2 : String}
    {bs bs2 : List (String × String)} {t : Bool} (hne : src ≠ src2) :
    firstImportHas (addNamedImport l src2 bs2 t) src bs = firstImportHas l src bs := by
  unfold addNamedImport
  by_cases h : l.any (fun s => isImportFrom s src2)
  · simp only [h, if_true]
    exact firstImportHas_mergeIntoImport_ne hne
  · rw [if_neg h]
    have hskip2 : isImportFrom (Stmt.importDecl src2 bs2 t) src = false := by
      simp only [isImportFrom, decide_eq_false_iff_not]
      intro hc
      exact hne hc.symm
    rw [firstImportHas_skip hskip2]

theorem firstImportHas_removeAt_of {l : Program} {idxs : List Nat} {src : String}
    {bs : List (String × String)}
    (h : ∀ j ∈ idxs, isImportFrom (stmtAt l j) src = false) :
    firstImportHas (removeAt l idxs) src bs = firstImportHas l src bs := by
  unfold removeAt
  apply firstImportHas_removeAtAux
  intro s hs
  obtain ⟨j, hj, _, hst⟩ := mem_removedIdxStmts s hs
  rw [Nat.sub_zero] at hst
  rw [← hst]
  exact h j hj

theorem firstImportHas_mergeExisting {ast : Program} {ts : Bool} {n : String} {c : Expr}
    {isSpec : Bool} {hName : String} {f : Finding} {src : String}
    {bs : List (String × String)}
    (hsrc : src ≠ hooksSource)
    (hfih : firstImportHas ast src bs = true)
    (hexp : isImportFrom (stmtAt ast f.exportIdx) src = false)
    (htopimp : ∀ k, f.site = Site.top k → isImportFrom (stmtAt ast k) src = false) :
    firstImportHas (mergeExisting ast ts n c isSpec hName f) src bs = true := by
  have hbase : firstImportHas (mergeBase ast f) src bs = true := by
    unfold mergeBase
    rw [firstImportHas_addNamedImport_ne hsrc]
    rw [firstImportHas_removeAt_of]
    · exact hfih
    · intro j hj
      rcases hsite : f.site with k | _
      · simp [siteIdxs, hsite] at hj
        rcases hj with hj | hj
        · rw [hj]; exact hexp
        · rw [hj]; exact htopimp k hsite
      · simp [siteIdxs, hsite] at hj
        rw [hj]; exact hexp
  have hws : firstImportHas (mergeWithSpec ast ts n c isSpec hName f) src bs = true := by
    unfold mergeWithSpec
    by_cases hsp : isSpec = true
    · rw [if_pos hsp]
      exact firstImportHas_append_left hbase
    · rw [if_neg hsp]
      exact hbase
  unfold mergeExisting
  by_cases h1 : f.site = Site.inExport ∧ mergeRename ast hName n f = true
  · rw [if_pos h1]
    unfold namedExport
    exact firstImportHas_append_left (firstImportHas_append_left hws)
  · rw [if_neg h1]
    by_cases h2 : f.site = Site.inExport ∧
        isVariableDeclaration (mergeOrig2 ast hName n f) hName = true
    · rw [if_pos h2]
      unfold namedExport
      exact firstImportHas_append_left (firstImportHas_append_left hws)
    · rw [if_neg h2]
      exact hws

theorem firstImportHas_addHooksHandle (ast : Program) (n : String) (c : Expr) :
    firstImportHas (addHooksHandle ast true n c) kitSource [("Handle", "Handle")] = true := by
  have hk : firstImportHas (kitImport true ast) kitSource [("Handle", "Handle")] = true :=
    firstImportHas_addNamedImport ast kitSource [("Handle", "Handle")] true
  unfold addHooksHandle
  by_cases h : hasNode (kitImport true ast) c = true
  · rw [if_pos h]; exact hk
  · rw [if_neg h]
    rcases hf : (walkFind (kitImport true ast)).found with _ | f
    · unfold namedExport
      exact firstImportHas_append_left (firstImportHas_append_left hk)
    · have hinv := walkInvW_find (kitImport true ast)
      obtain ⟨hlen, hshape⟩ := hinv.found_shape f hf
      apply firstImportHas_mergeExisting (by simp [kitSource, hooksSource]) hk
      · rcases hshape with ⟨d, hd, _⟩ | ⟨specs, k, hd, _⟩
        · rw [hd]; rfl
        · rw [hd]; rfl
      · intro k hsite
        rcases hshape with ⟨d, hd, hs⟩ | ⟨specs, k2, hd, _, hs, hk2, d2, hd2⟩
        · rw [hs] at hsite; simp at hsite
        · rw [hs] at hsite
          simp at hsite
          rw [← hsite, hd2]; rfl

/-- C1: merging the same fragment twice leaves the tree of the first merge
unchanged — the structural-equality guard finds the fragment inserted by the
first call and short-circuits, and the type-import merge is idempotent. -/
theorem addHooksHandle_idempotent (ast : Program) (ts : Bool) (n : String) (c : Expr) :
    addHooksHandle (addHooksHandle ast ts n c) ts n c = addHooksHandle ast ts n c := by
  have h1 : hasNode (addHooksHandle ast ts n c) c = true := hasNode_addHooksHandle ast ts n c
  have h2 : kitImport ts (addHooksHandle ast ts n c) = addHooksHandle ast ts n c := by
    cases ts with
    | false => rfl
    | true =>
      show addNamedImport _ kitSource [("Handle", "Handle")] true = _
      exact addNamedImport_eq_self (firstImportHas_addHooksHandle ast n c)
  conv_lhs => rw [addHooksHandle]
  rw [h2, h1]
  simp

/-! ### The fresh-creation path -/

theorem hasNode_kitImport (ts : Bool) (ast : Program) (c : Expr) :
    hasNode (kitImport ts ast) c = hasNode ast c := by
  cases ts with
  | false => rfl
  | true => exact hasNode_addNamedImport ast kitSource [("Handle", "Handle")] true c

theorem exportsHandle_kitImport {ts : Bool} {ast : Program}
    (h : ∀ s ∈ ast, exportsHandle s = false) :
    ∀ s ∈ kitImport ts ast, exportsHandle s = false := by
  intro s hs
  cases ts with
  | false => exact h s hs
  | true =>
    rcases mem_addNamedImport s hs with h2 | ⟨a, b, c, rfl⟩
    · exact h s h2
    · rfl

theorem countHandleExports_kitImport (ts : Bool) (ast : Program) :
    countHandleExports (kitImport ts ast) = countHandleExports ast := by
  cases ts with
  | false => rfl
  | true => exact countP_addNamedImport (fun _ _ _ => rfl) ast kitSource _ true

/-- The walk never changes state while scanning statements that do not
export `handle` (starting from the initial state). -/
theorem walkAux_no_handle {body : Program} :
    ∀ (l : List Stmt) (i : Nat) (fd : Option Finding),
      (∀ s ∈ l, exportsHandle s = false) →
      walkAux body ⟨false, "handle", fd⟩ i l = ⟨false, "handle", fd⟩ := by
  intro l
  induction l with
  | nil => intro i fd _; rfl
  | cons s rest ih =>
    intro i fd h
    have hs : exportsHandle s = false := h s (by simp)
    have hstep : walkStep body ⟨false, "handle", fd⟩ i s = ⟨false, "handle", fd⟩ := by
      cases s with
      | decl d => rfl
      | importDecl a b c => rfl
      | tsModule a b c d e f g => rfl
      | other a b => rfl
      | exportSpecs specs =>
        have hfind : specs.find? (fun sp => sp.exportedName = "handle") = none := by
          rw [List.find?_eq_none]
          intro sp hsp
          simp [exportsHandle, List.any_eq_true] at hs
          simp [hs sp hsp]
        rw [walkStep_exportSpecs, hfind]
      | exportDecl d =>
        rw [walkStep_exportDecl]
        rw [if_neg]
        simp [exportsHandle] at hs
        show ¬(isVariableDeclaration d "handle" || isFunctionDeclaration d "handle") = true
        simp [hs.1, hs.2]
    rw [show walkAux body ⟨false, "handle", fd⟩ i (s :: rest)
        = walkAux body (walkStep body ⟨false, "handle", fd⟩ i s) (i + 1) rest from rfl]
    rw [hstep]
    exact ih (i + 1) fd (fun s2 hs2 => h s2 (by simp [hs2]))

theorem walkFind_no_handle {body : Program}
    (h : ∀ s ∈ body, exportsHandle s = false) :
    walkFind body = initState :=
  walkAux_no_handle body 0 none h

/-- C6 (amended): on a tree with no export of `handle` in which the new
fragment's expression does not already occur, `addHooksHandle` appends
exactly two statements — the fragment's declaration and
`export const handle = <newHandleName>;` — besides merging the `Handle`
type import when `typescript` is set; no composition call is introduced. -/
theorem addHooksHandle_fresh_create (ast : Program) (ts : Bool) (n : String) (c : Expr)
    (hnh : ∀ s ∈ ast, exportsHandle s = false)
    (hno : hasNode ast c = false) :
    addHooksHandle ast ts n c =
      kitImport ts ast ++
        [mkNewDecl ts n c,
         .exportDecl (.varDecl "const" [mkDeclarator ts "handle" (.ident n)])] := by
  have hw : walkFind (kitImport ts ast) = initState :=
    walkFind_no_handle (exportsHandle_kitImport hnh)
  have hn2 : hasNode (kitImport ts ast) c = false := by
    rw [hasNode_kitImport]; exact hno
  unfold addHooksHandle
  rw [if_neg (by rw [hn2]; exact Bool.false_ne_true), hw]
  show namedExport (kitImport ts ast ++ [mkNewDecl ts n c]) "handle"
      (.varDecl "const" [mkDeclarator ts "handle" (.ident n)]) = _
  unfold namedExport
  rw [List.append_assoc]
  rfl

/-- C6, counterexample to the claim as stated: a program with no `handle`
export in which the fragment's expression already occurs is left entirely
unchanged — zero new statements are emitted rather than two. -/
theorem addHooksHandle_fresh_create_noop :
    addHooksHandle [Stmt.decl (.varDecl "const" [⟨.ident "x", some (.lit 0), none⟩])]
        false "c" (.lit 0)
      = [Stmt.decl (.varDecl "const" [⟨.ident "x", some (.lit 0), none⟩])] := by
  decide

/-- C6, witness instantiating the amended theorem on the empty program. -/
theorem addHooksHandle_fresh_create_witness :
    addHooksHandle [] false "c" (.lit 0) =
      [mkNewDecl false "c" (.lit 0),
       .exportDecl (.varDecl "const" [mkDeclarator false "handle" (.ident "c")])] := by
  have := addHooksHandle_fresh_create [] false "c" (.lit 0) (by simp) (by decide)
  simpa [kitImport] using this

/-- C2: the `if (sequence)` append branch of `addHooksHandle` (lines
161-180) does not return, so on `export const handle = sequence(a, b);` the
promote logic of lines 182-235 also runs: the declarator is renamed to
`originalHandle` and a second, wrapping `sequence` composition is emitted —
the arguments of the existing composition are not merely extended to
`[a, b, c]`. -/
theorem addHooksHandle_sequence_fallthrough :
    addHooksHandle
        [.exportDecl (.varDecl "const"
          [⟨.ident "handle",
            some (.call (.ident "sequence") [.ident "a", .ident "b"]), none⟩])]
        false "c" (.lit 0)
      = [.importDecl hooksSource [("sequence", "sequence")] false,
         .decl (.varDecl "const"
           [⟨.ident "originalHandle",
             some (.call (.ident "sequence") [.ident "a", .ident "b", .ident "c"]), none⟩]),
         mkNewDecl false "c" (.lit 0),
         .exportDecl (.varDecl "const"
           [⟨.ident "handle",
             some (.call (.ident "sequence") [.ident "originalHandle", .ident "c"]),
             none⟩])] := by
  decide

/-- C10: with `typescript` set, the `Handle` type import is merged before
the duplicate-fragment guard runs, so a call that is otherwise a no-op can
still change the tree's imports; with `typescript` unset such a call leaves
the tree entirely unchanged. -/
theorem addHooksHandle_import_frame_effect :
    (∀ (ast : Program) (n : String) (c : Expr), hasNode ast c = true →
        addHooksHandle ast false n c = ast) ∧
    (∀ (ast : Program) (n : String) (c : Expr),
        hasNode (addNamedImport ast kitSource [("Handle", "Handle")] true) c = true →
        addHooksHandle ast true n c
          = addNamedImport ast kitSource [("Handle", "Handle")] true) ∧
    (addHooksHandle [Stmt.decl (.varDecl "const" [⟨.ident "x", some (.lit 1), none⟩])]
        true "c" (.lit 1)
      ≠ [Stmt.decl (.varDecl "const" [⟨.ident "x", some (.lit 1), none⟩])]) := by
  refine ⟨?_, ?_, ?_⟩
  · intro ast n c h
    unfold addHooksHandle
    rw [if_pos (show hasNode (kitImport false ast) c = true from h)]
    rfl
  · intro ast n c h
    unfold addHooksHandle
    rw [if_pos (show hasNode (kitImport true ast) c = true from h)]
    rfl
  · decide

/-- C10, witness: the frame-effect theorem applied at concrete inputs. -/
theorem addHooksHandle_import_frame_effect_witness :
    addHooksHandle [Stmt.decl (.varDecl "const" [⟨.ident "x", some (.lit 1), none⟩])]
        false "c" (.lit 1)
      = [Stmt.decl (.varDecl "const" [⟨.ident "x", some (.lit 1), none⟩])] :=
  addHooksHandle_import_frame_effect.1
    [Stmt.decl (.varDecl "const" [⟨.ident "x", some (.lit 1), none⟩])] "c" (.lit 1)
    (by decide)

/-! ### Which match the locator returns -/

theorem stmtAt_eq_getElem {l : Program} {i : Nat} (h : i < l.length) :
    stmtAt l i = l[i] := by
  simp [stmtAt, List.getD_eq_getElem?_getD, List.getElem?_eq_getElem h]

theorem walkAux_append (body : Program) (st : WalkState) (i : Nat)
    (l1 l2 : List Stmt) :
    walkAux body st i (l1 ++ l2)
      = walkAux body (walkAux body st i l1) (i + l1.length) l2 := by
  induction l1 generalizing st i with
  | nil => simp [walkAux]
  | cons s rest ih =>
    show walkAux body (walkStep body st i s) (i + 1) (rest ++ l2) = _
    rw [ih]
    congr 1
    simp
    omega

/-- The state of the walk after visiting the first `j` statements. -/
def walkUpTo (body : Program) (j : Nat) : WalkState :=
  walkAux body initState 0 (body.take j)

/-- Whether the walker callback at statement `s` (in state `st`) assigns the
`exportDecl`/`originalHandleDecl` pair, and with which site. -/
def stepMatchSite (body : Program) (st : WalkState) (s : Stmt) : Option Site :=
  match s with
  | .exportSpecs specs =>
    match specs.find? (fun sp => sp.exportedName = "handle") with
    | some sp => resolveSite body (sp.localName.getD sp.exportedName)
    | none => none
  | .exportDecl d =>
    if isVariableDeclaration d st.handleName || isFunctionDeclaration d st.handleName
    then some .inExport else none
  | _ => none

theorem stepMatchSite_exportSpecs (body : Program) (st : WalkState)
    (specs : List ExportSpec) :
    stepMatchSite body st (.exportSpecs specs) =
      match specs.find? (fun sp => sp.exportedName = "handle") with
      | some sp => resolveSite body (sp.localName.getD sp.exportedName)
      | none => none := rfl

theorem stepMatchSite_exportDecl (body : Program) (st : WalkState) (d : Decl) :
    stepMatchSite body st (.exportDecl d) =
      (if (isVariableDeclaration d st.handleName || isFunctionDeclaration d st.handleName) = true
       then some Site.inExport else none) := rfl

theorem walkStep_found (body : Program) (st : WalkState) (i : Nat) (s : Stmt) :
    (walkStep body st i s).found =
      match stepMatchSite body st s with
      | some site => some ⟨i, site⟩
      | none => st.found := by
  cases s with
  | decl d => rfl
  | importDecl a b c => rfl
  | tsModule a b c d e f g => rfl
  | other a b => rfl
  | exportSpecs specs =>
    rw [stepMatchSite_exportSpecs]
    rcases hfind : specs.find? (fun sp => sp.exportedName = "handle") with _ | sp
    · rw [walkStep_exportSpecs, hfind]
    · rw [walkStep_exportSpecs_some hfind, hfind]
      rcases hres : resolveSite body (sp.localName.getD sp.exportedName) with _ | site
      · simp [hres]
      · simp [hres]
  | exportDecl d =>
    rw [walkStep_exportDecl, stepMatchSite_exportDecl]
    by_cases hc : (isVariableDeclaration d st.handleName
        || isFunctionDeclaration d st.handleName) = true
    · rw [if_pos hc, if_pos hc]
    · rw [if_neg hc, if_neg hc]

/-- Whether the export statement at index `j` matches, under the state the
walk has accumulated before reaching it. -/
def matchAt (body : Program) (j : Nat) : Bool :=
  (stepMatchSite body (walkUpTo body j) (stmtAt body j)).isSome

theorem walkUpTo_succ (body : Program) (i : Nat) (hi : i < body.length) :
    walkUpTo body (i + 1) = walkStep body (walkUpTo body i) i (stmtAt body i) := by
  unfold walkUpTo
  rw [List.take_succ, List.getElem?_eq_getElem hi]
  rw [walkAux_append]
  rw [List.length_take, Nat.min_eq_left (le_of_lt hi), Nat.zero_add]
  show walkStep body (walkAux body initState 0 (body.take i)) i body[i] = _
  rw [stmtAt_eq_getElem hi]

theorem walkFind_split (body : Program) (m : Nat) (hm : m ≤ body.length) :
    walkFind body = walkAux body (walkUpTo body m) m (body.drop m) := by
  unfold walkFind walkUpTo
  conv_lhs => rw [← List.take_append_drop m body]
  rw [walkAux_append]
  rw [List.length_take, Nat.min_eq_left hm, Nat.zero_add, List.take_append_drop]

theorem drop_eq_stmtAt_cons {l : Program} {j : Nat} (h : j < l.length) :
    l.drop j = stmtAt l j :: l.drop (j + 1) := by
  induction l generalizing j with
  | nil => simp at h
  | cons x rest ih =>
    cases j with
    | zero => simp [stmtAt]
    | succ j2 =>
      rw [List.drop_succ_cons, ih (by simpa using h), stmtAt_cons_succ]
      rfl

theorem walkAux_found_isSome {body : Program} :
    ∀ (l : List Stmt) (i : Nat) (st : WalkState), st.found.isSome = true →
      (walkAux body st i l).found.isSome = true := by
  intro l
  induction l with
  | nil => intro i st h; exact h
  | cons s rest ih =>
    intro i st h
    show (walkAux body (walkStep body st i s) (i + 1) rest).found.isSome = true
    apply ih
    rw [walkStep_found]
    rcases hms : stepMatchSite body st s with _ | site
    · exact h
    · rfl

theorem walkAux_last_match {body : Program} :
    ∀ (l : List Stmt) (i : Nat) (st : WalkState),
      body.drop i = l → st = walkUpTo body i →
      (∀ f0, st.found = some f0 → matchAt body f0.exportIdx = true ∧ f0.exportIdx < i) →
      ∀ f, (walkAux body st i l).found = some f →
        matchAt body f.exportIdx = true ∧ (st.found = some f ∨ i ≤ f.exportIdx) := by
  intro l
  induction l with
  | nil =>
    intro i st _ _ hpre f hf
    exact ⟨(hpre f hf).1, Or.inl hf⟩
  | cons s rest ih =>
    intro i st hdrop hst hpre f hf
    obtain ⟨hlen, hstmt, hrest⟩ := drop_cons_spec hdrop
    have hst2 : walkStep body st i s = walkUpTo body (i + 1) := by
      rw [walkUpTo_succ body i hlen, ← hst, ← hstmt]
    have hpre2 : ∀ f0, (walkStep body st i s).found = some f0 →
        matchAt body f0.exportIdx = true ∧ f0.exportIdx < i + 1 := by
      intro f0 hf0
      rw [walkStep_found] at hf0
      rcases hms : stepMatchSite body st s with _ | site
      · rw [hms] at hf0
        obtain ⟨h1, h2⟩ := hpre f0 hf0
        exact ⟨h1, by omega⟩
      · rw [hms] at hf0
        simp at hf0
        rw [← hf0]
        constructor
        · show (stepMatchSite body (walkUpTo body i) (stmtAt body i)).isSome = true
          rw [← hst, hstmt, hms]
          rfl
        · show i < i + 1
          omega
    have hmain := ih (i + 1) (walkStep body st i s) hrest hst2 hpre2 f hf
    obtain ⟨h1, h2⟩ := hmain
    refine ⟨h1, ?_⟩
    rcases h2 with h2 | h2
    · rw [walkStep_found] at h2
      rcases hms : stepMatchSite body st s with _ | site
      · rw [hms] at h2
        exact Or.inl h2
      · rw [hms] at h2
        simp at h2
        rw [← h2]
        exact Or.inr (by show i ≤ i; omega)
    · exact Or.inr (by omega)

/-- C7 (amended): the Construct Locator keeps overwriting its finding, so
it returns the LAST match in source order — whenever the statement at index
`j` matches (under the walk's evolving state), the final finding exists,
points at an index no smaller than `j`, and itself matches. -/
theorem walkFind_returns_last_match (body : Program) (j : Nat) (hj : j < body.length)
    (hm : matchAt body j = true) :
    ∃ f, (walkFind body).found = some f ∧ j ≤ f.exportIdx ∧
      matchAt body f.exportIdx = true := by
  have hsucc := walkUpTo_succ body j hj
  obtain ⟨site, hsite⟩ : ∃ site,
      stepMatchSite body (walkUpTo body j) (stmtAt body j) = some site := by
    unfold matchAt at hm
    rcases h : stepMatchSite body (walkUpTo body j) (stmtAt body j) with _ | site
    · rw [h] at hm; simp at hm
    · exact ⟨site, rfl⟩
  have hfound : (walkUpTo body (j + 1)).found = some ⟨j, site⟩ := by
    rw [hsucc, walkStep_found, hsite]
  have hsplit := walkFind_split body (j + 1) (by omega)
  have hsome : (walkFind body).found.isSome = true := by
    rw [hsplit]
    apply walkAux_found_isSome
    rw [hfound]
    rfl
  obtain ⟨f, hf⟩ : ∃ f, (walkFind body).found = some f := by
    rcases h : (walkFind body).found with _ | f
    · rw [h] at hsome; simp at hsome
    · exact ⟨f, rfl⟩
  have hpre : ∀ f0, (walkUpTo body (j + 1)).found = some f0 →
      matchAt body f0.exportIdx = true ∧ f0.exportIdx < j + 1 := by
    intro f0 hf0
    rw [hfound] at hf0
    simp at hf0
    rw [← hf0]
    exact ⟨hm, by show j < j + 1; omega⟩
  have hlast := walkAux_last_match (body.drop (j + 1)) (j + 1) (walkUpTo body (j + 1))
    rfl rfl hpre f (by rw [← hsplit]; exact hf)
  obtain ⟨h1, h2⟩ := hlast
  refine ⟨f, hf, ?_, h1⟩
  rcases h2 with h2 | h2
  · rw [hfound] at h2
    injection h2 with h3
    rw [← h3]
  · omega

/-- C7, counterexample to the claim as stated: with two matching exports of
`handle`, the first (index 0) matches but the locator returns the finding
for index 1 — the last match, not the first. -/
theorem walkFind_not_first_match :
    matchAt
        [.exportDecl (.varDecl "const" [⟨.ident "handle", some (.lit 1), none⟩]),
         .exportDecl (.varDecl "const" [⟨.ident "handle", some (.lit 2), none⟩])] 0 = true ∧
    (walkFind
        [.exportDecl (.varDecl "const" [⟨.ident "handle", some (.lit 1), none⟩]),
         .exportDecl (.varDecl "const" [⟨.ident "handle", some (.lit 2), none⟩])]).found
      = some ⟨1, Site.inExport⟩ := by
  decide

/-! ### Walk-neutral statements and import decomposition -/

theorem exportsHandle_false_spec_find {specs : List ExportSpec}
    (h : exportsHandle (.exportSpecs specs) = false) :
    specs.find? (fun sp => sp.exportedName = "handle") = none := by
  rw [List.find?_eq_none]
  intro sp hsp
  have h2 : specs.any (fun sp => sp.exportedName = "handle") = false := h
  have := List.any_eq_false.mp h2 sp hsp
  simpa using this

/-- A statement that is not an export of `handle` leaves the walk state
unchanged (while the target name is still `handle`). -/
theorem walkStep_neutral {body : Program} {st : WalkState} {i : Nat} {s : Stmt}
    (hhn : st.handleName = "handle") (hs : exportsHandle s = false) :
    walkStep body st i s = st := by
  cases s with
  | exportSpecs specs =>
    have hf := exportsHandle_false_spec_find hs
    rw [walkStep_exportSpecs, hf]
  | exportDecl d =>
    have h2 : (isVariableDeclaration d "handle" || isFunctionDeclaration d "handle") = false := hs
    rw [walkStep_exportDecl, hhn, h2]
    simp
  | decl d => exact walkStep_decl body st i d
  | importDecl a b c => exact walkStep_importDecl body st i a b c
  | tsModule a b c d e f g => exact walkStep_tsModule body st i a b c d e f g
  | other a b => exact walkStep_other body st i a b

theorem walkAux_neutral {body : Program} {l : List Stmt} {st : WalkState} {i : Nat}
    (hhn : st.handleName = "handle") (hl : ∀ s ∈ l, exportsHandle s = false) :
    walkAux body st i l = st := by
  induction l generalizing st i with
  | nil => rfl
  | cons a rest ih =>
    show walkAux body (walkStep body st i a) (i + 1) rest = st
    rw [walkStep_neutral hhn (hl a (by simp))]
    exact ih hhn (fun s hs => hl s (by simp [hs]))

theorem mergeIntoImport_append_left {l1 : Program} (l2 : Program) {src : String}
    (bs : List (String × String)) (h : l1.any (fun s => isImportFrom s src) = true) :
    mergeIntoImport (l1 ++ l2) src bs = mergeIntoImport l1 src bs ++ l2 := by
  induction l1 with
  | nil => simp at h
  | cons a rest ih =>
    cases a with
    | importDecl src2 named t2 =>
      by_cases hsrc : src2 = src
      · simp [mergeIntoImport, hsrc]
      · have h2 : rest.any (fun s => isImportFrom s src) = true := by
          simpa [List.any_cons, isImportFrom, hsrc] using h
        simp [mergeIntoImport, hsrc, ih h2]
    | decl d =>
      have h2 : rest.any (fun s => isImportFrom s src) = true := by
        simpa [List.any_cons, isImportFrom] using h
      simp [mergeIntoImport, ih h2]
    | exportDecl d =>
      have h2 : rest.any (fun s => isImportFrom s src) = true := by
        simpa [List.any_cons, isImportFrom] using h
      simp [mergeIntoImport, ih h2]
    | exportSpecs specs =>
      have h2 : rest.any (fun s => isImportFrom s src) = true := by
        simpa [List.any_cons, isImportFrom] using h
      simp [mergeIntoImport, ih h2]
    | tsModule a b c d e f g =>
      have h2 : rest.any (fun s => isImportFrom s src) = true := by
        simpa [List.any_cons, isImportFrom] using h
      simp [mergeIntoImport, ih h2]
    | other a b =>
      have h2 : rest.any (fun s => isImportFrom s src) = true := by
        simpa [List.any_cons, isImportFrom] using h
      simp [mergeIntoImport, ih h2]

/-- The `Handle` type-import insertion of lines 65-67 only touches the part
of the body before a given non-import statement (provided no later
statement imports from the kit module), so it commutes with that
statement's removal. -/
theorem kitImport_middle (pre post : Program) (ts : Bool) (e : Stmt)
    (hei : isImportFrom e kitSource = false)
    (hpim : ∀ s ∈ post, isImportFrom s kitSource = false) :
    ∃ pre2, kitImport ts (pre ++ e :: post) = pre2 ++ e :: post ∧
      kitImport ts (pre ++ post) = pre2 ++ post ∧
      (∀ s ∈ pre2, s ∈ pre ∨ ∃ a b c, s = Stmt.importDecl a b c) := by
  cases ts with
  | false => exact ⟨pre, rfl, rfl, fun s hs => Or.inl hs⟩
  | true =>
    have hk : ∀ l, kitImport true l = addNamedImport l kitSource [("Handle", "Handle")] true :=
      fun l => rfl
    have hpost : post.any (fun s => isImportFrom s kitSource) = false :=
      List.any_eq_false.mpr (fun s hs => by simp [hpim s hs])
    by_cases hany : pre.any (fun s => isImportFrom s kitSource) = true
    · refine ⟨mergeIntoImport pre kitSource [("Handle", "Handle")], ?_, ?_, ?_⟩
      · rw [hk, addNamedImport, if_pos (by simp [List.any_append, List.any_cons, hei, hpost, hany])]
        exact mergeIntoImport_append_left (e :: post) _ hany
      · rw [hk, addNamedImport, if_pos (by simp [List.any_append, hany])]
        exact mergeIntoImport_append_left post _ hany
      · intro s hs
        exact mem_mergeIntoImport s hs
    · have hanyf : pre.any (fun s => isImportFrom s kitSource) = false := by
        simpa using hany
      refine ⟨.importDecl kitSource [("Handle", "Handle")] true :: pre, ?_, ?_, ?_⟩
      · rw [hk, addNamedImport,
          if_neg (by simp [List.any_append, List.any_cons, hei, hpost, hanyf])]
        rfl
      · rw [hk, addNamedImport, if_neg (by simp [List.any_append, hpost, hanyf])]
        rfl
      · intro s hs
        rcases List.mem_cons.mp hs with h | h
        · exact Or.inr ⟨_, _, _, h⟩
        · exact Or.inl h

/-- C4, counterexample to the claim as stated: the rename-skip does NOT
yield `export const handle = sequence(otherHandle, c);` in every
pass-through promote case.  On the specifier form `const handle =
otherHandle; export { handle };` the export statement has no `declaration`
field, so both re-append branches are skipped: the result keeps the
specifier export (no `exportDecl` at all) and the composition pushed by the
specifier re-append references the never-created name `originalHandle`
instead of `otherHandle`. -/
theorem addHooksHandle_pass_through_specifier_dangling :
    (addHooksHandle
        [.decl (.varDecl "const" [⟨.ident "handle", some (.ident "otherHandle"), none⟩]),
         .exportSpecs [⟨some "handle", "handle"⟩]]
        false "c" (.lit 0)
      = [.importDecl hooksSource [("sequence", "sequence")] false,
         .decl (.varDecl "const" [⟨.ident "handle", some (.ident "otherHandle"), none⟩]),
         mkNewDecl false "c" (.lit 0),
         .decl (.varDecl "const"
           [⟨.ident "handle",
             some (.call (.ident "sequence") [.ident "originalHandle", .ident "c"]),
             none⟩]),
         .exportSpecs [⟨some "handle", "handle"⟩]])
    ∧ (addHooksHandle
        [.decl (.varDecl "const" [⟨.ident "handle", some (.ident "otherHandle"), none⟩]),
         .exportSpecs [⟨some "handle", "handle"⟩]]
        false "c" (.lit 0)).countP
        (fun s => match s with
          | .exportDecl _ => true
          | _ => false) = 0 := by
  decide

/-- C4 (amended, inline-declaration form): on a tree whose `handle` export
is the inline pass-through declaration `export const handle = <y>;` (and
whose remaining statements export no `handle` and import nothing from
`@sveltejs/kit` after it), merging a new unit performs no rename and
produces `export const handle = sequence(<y>, <new>);`, the composition
referencing the original identifier directly. -/
theorem addHooksHandle_pass_through (pre post : Program) (ts : Bool)
    (kd y n : String) (t0 : Option String) (c : Expr)
    (hexp : ∀ s ∈ pre ++ post, exportsHandle s = false)
    (hpim : ∀ s ∈ post, isImportFrom s kitSource = false)
    (hnode : hasNode (kitImport ts
        (pre ++ .exportDecl (.varDecl kd [⟨.ident "handle", some (.ident y), t0⟩]) :: post))
        c = false) :
    addHooksHandle
        (pre ++ .exportDecl (.varDecl kd [⟨.ident "handle", some (.ident y), t0⟩]) :: post)
        ts n c
      = addNamedImport (kitImport ts (pre ++ post)) hooksSource [("sequence", "sequence")] false ++
        [mkNewDecl ts n c,
         .exportDecl (.varDecl "const"
           [mkDeclarator ts "handle" (.call (.ident "sequence") [.ident y, .ident n])])] := by
  obtain ⟨pre2, hsp1, hsp2, hmem⟩ :=
    kitImport_middle pre post ts
      (.exportDecl (.varDecl kd [⟨.ident "handle", some (.ident y), t0⟩])) rfl hpim
  have hpre2n : ∀ s ∈ pre2, exportsHandle s = false := by
    intro s hs
    rcases hmem s hs with h | ⟨a, b, c2, h⟩
    · exact hexp s (List.mem_append_left _ h)
    · subst h; rfl
  have hpostn : ∀ s ∈ post, exportsHandle s = false :=
    fun s hs => hexp s (List.mem_append_right _ hs)
  have hcond : (isVariableDeclaration
        (.varDecl kd [⟨.ident "handle", some (.ident y), t0⟩]) initState.handleName
      || isFunctionDeclaration
        (.varDecl kd [⟨.ident "handle", some (.ident y), t0⟩]) initState.handleName) = true := by
    simp [initState, isVariableDeclaration, getVariableDeclarator]
  have hwalk : walkFind
      (pre2 ++ (.exportDecl (.varDecl kd [⟨.ident "handle", some (.ident y), t0⟩]) : Stmt) :: post)
      = ⟨false, "handle", some ⟨pre2.length, Site.inExport⟩⟩ := by
    rw [walkFind, walkAux_append]
    rw [walkAux_neutral rfl hpre2n]
    simp only [Nat.zero_add]
    show walkAux _ (walkStep _ initState pre2.length
      (.exportDecl (.varDecl kd [⟨.ident "handle", some (.ident y), t0⟩]))) (pre2.length + 1) post = _
    rw [walkStep_exportDecl, if_pos hcond]
    exact walkAux_neutral rfl hpostn
  have horig : getOrig
      (pre2 ++ (.exportDecl (.varDecl kd [⟨.ident "handle", some (.ident y), t0⟩]) : Stmt) :: post)
      ⟨pre2.length, Site.inExport⟩
      = .varDecl kd [⟨.ident "handle", some (.ident y), t0⟩] := by
    show (match stmtAt
        (pre2 ++ (.exportDecl (.varDecl kd [⟨.ident "handle", some (.ident y), t0⟩]) : Stmt) :: post)
        pre2.length with
      | Stmt.exportDecl d => d
      | _ => Decl.varDecl "" []) = _
    rw [stmtAt_append_length]
  have hrename : mergeRename
      (pre2 ++ (.exportDecl (.varDecl kd [⟨.ident "handle", some (.ident y), t0⟩]) : Stmt) :: post)
      "handle" n ⟨pre2.length, Site.inExport⟩ = false := by
    unfold mergeRename
    rw [horig]
    rfl
  have horig2 : mergeOrig2
      (pre2 ++ (.exportDecl (.varDecl kd [⟨.ident "handle", some (.ident y), t0⟩]) : Stmt) :: post)
      "handle" n ⟨pre2.length, Site.inExport⟩
      = .varDecl kd [⟨.ident "handle", some (.ident y), t0⟩] := by
    unfold mergeOrig2
    rw [horig]
    rfl
  rw [hsp1] at hnode
  rw [addHooksHandle, hsp1, hnode]
  simp only [Bool.false_eq_true, if_false]
  rw [hwalk]
  show mergeExisting
      (pre2 ++ (.exportDecl (.varDecl kd [⟨.ident "handle", some (.ident y), t0⟩]) : Stmt) :: post)
      ts n c false "handle" ⟨pre2.length, Site.inExport⟩ = _
  rw [mergeExisting]
  rw [if_neg (by simp [hrename])]
  rw [if_pos ⟨rfl, by simp [horig2, isVariableDeclaration, getVariableDeclarator]⟩]
  rw [horig2]
  show namedExport
      ((if false = true then _ else mergeBase _ ⟨pre2.length, Site.inExport⟩) ++
        [mkNewDecl ts n c]) "handle" _ = _
  rw [if_neg (by simp)]
  rw [mergeBase]
  rw [show siteIdxs ⟨pre2.length, Site.inExport⟩ = [pre2.length] from rfl]
  rw [removeAt_middle]
  rw [hsp2]
  simp [namedExport, passThroughDecl, passThroughName, getVariableDeclarator]

/-- C4, witness: the amended pass-through theorem at the concrete tree
`export const handle = otherHandle;`. -/
theorem addHooksHandle_pass_through_witness :
    addHooksHandle
        [.exportDecl (.varDecl "const" [⟨.ident "handle", some (.ident "otherHandle"), none⟩])]
        false "c" (.lit 0)
      = addNamedImport (kitImport false []) hooksSource [("sequence", "sequence")] false ++
        [mkNewDecl false "c" (.lit 0),
         .exportDecl (.varDecl "const"
           [mkDeclarator false "handle"
             (.call (.ident "sequence") [.ident "otherHandle", .ident "c"])])] :=
  addHooksHandle_pass_through [] [] false "const" "otherHandle" "c" none (.lit 0)
    (by intro s hs; simp at hs) (by intro s hs; simp at hs) (by decide)

/-- C5, counterexample to the claim as stated: on `function foo() {...};
export { foo as handle };` the merge renames `foo` and builds the
composition, but binds it to the original local name and RETAINS the
specifier export — the result contains no `export const handle = ...`
statement at all. -/
theorem addHooksHandle_specifier_keeps_alias :
    (addHooksHandle
        [.decl (.funDecl (some "foo") []), .exportSpecs [⟨some "foo", "handle"⟩]]
        false "c" (.lit 0)
      = [.importDecl hooksSource [("sequence", "sequence")] false,
         .decl (.funDecl (some "originalHandle") []),
         mkNewDecl false "c" (.lit 0),
         .decl (.varDecl "const"
           [⟨.ident "foo",
             some (.call (.ident "sequence") [.ident "originalHandle", .ident "c"]),
             none⟩]),
         .exportSpecs [⟨some "foo", "handle"⟩]])
    ∧ (addHooksHandle
        [.decl (.funDecl (some "foo") []), .exportSpecs [⟨some "foo", "handle"⟩]]
        false "c" (.lit 0)).countP
        (fun s => match s with
          | .exportDecl d => isVariableDeclaration d "handle"
          | _ => false) = 0 := by
  decide

/-- C5 (amended): on `function foo() {...}; export { foo as handle };` with
a new unit that does not already occur, `addHooksHandle` renames the
function to `originalHandle`, introduces the composition
`const foo = sequence(originalHandle, <new>);` bound to the original local
name, and keeps `export { foo as handle }` as the export of the public
name (no `export const handle = ...` is produced). -/
theorem addHooksHandle_specifier_function (fooName n : String) (ts : Bool) (c : Expr)
    (fbody : List Expr) (hno : occursInExprList c fbody = false) :
    addHooksHandle
        [.decl (.funDecl (some fooName) fbody), .exportSpecs [⟨some fooName, "handle"⟩]]
        ts n c
      = (if ts then
          [.importDecl hooksSource [("sequence", "sequence")] false,
           .importDecl kitSource [("Handle", "Handle")] true]
         else [.importDecl hooksSource [("sequence", "sequence")] false]) ++
        [.decl (.funDecl (some "originalHandle") fbody),
         mkNewDecl ts n c,
         .decl (newHandleDeclOf fooName n),
         .exportSpecs [⟨some fooName, "handle"⟩]] := by
  cases ts with
  | false =>
    simp [addHooksHandle, kitImport, hasNode, occursInStmt, occursInDecl, hno,
      walkFind, walkAux, walkStep, resolveSite, isFunctionDeclarationStmt,
      isFunctionDeclaration, List.findIdx?_cons,
      mergeExisting, mergeWithSpec, mergeBase, mergeOrig2, mergeExportStmt, mergeRename,
      getOrig, seqArgsOf, seqAppended, renameStep, removeAt, removeAtAux,
      addNamedImport, isImportFrom, stmtAt, namedExport, mkNewDecl, siteIdxs]
  | true =>
    simp [addHooksHandle, kitImport, hasNode, occursInStmt, occursInDecl, hno,
      walkFind, walkAux, walkStep, resolveSite, isFunctionDeclarationStmt,
      isFunctionDeclaration, List.findIdx?_cons,
      mergeExisting, mergeWithSpec, mergeBase, mergeOrig2, mergeExportStmt, mergeRename,
      getOrig, seqArgsOf, seqAppended, renameStep, removeAt, removeAtAux,
      addNamedImport, isImportFrom, stmtAt, namedExport, mkNewDecl, siteIdxs, kitSource, hooksSource]

/-- C5, witness: the amended specifier theorem at a concrete input. -/
theorem addHooksHandle_specifier_function_witness :
    addHooksHandle
        [.decl (.funDecl (some "foo") [.lit 9]), .exportSpecs [⟨some "foo", "handle"⟩]]
        true "c" (.lit 0)
      = (if true then
          [.importDecl hooksSource [("sequence", "sequence")] false,
           .importDecl kitSource [("Handle", "Handle")] true]
         else [.importDecl hooksSource [("sequence", "sequence")] false]) ++
        [.decl (.funDecl (some "originalHandle") [.lit 9]),
         mkNewDecl true "c" (.lit 0),
         .decl (newHandleDeclOf "foo" "c"),
         .exportSpecs [⟨some "foo", "handle"⟩]] :=
  addHooksHandle_specifier_function "foo" "c" true (.lit 0) [.lit 9] (by decide)

/-! ### The error paths of `addGlobalAppInterface` -/

theorem stmtAt_set_self {l : Program} {i : Nat} (h : i < l.length) (s : Stmt) :
    stmtAt (l.set i s) i = s := by
  induction l generalizing i with
  | nil => simp at h
  | cons a t ih =>
    cases i with
    | zero => rfl
    | succ j =>
      have := ih (i := j) (by simpa using h)
      simpa [stmtAt, List.set, List.getD] using this

theorem tsGetD_append_length (l : List TSStmt) (x d : TSStmt) :
    (l ++ [x]).getD l.length d = x := by
  induction l with
  | nil => rfl
  | cons a t ih => simpa [List.getD] using ih

theorem moduleBodyIsBlock_shape {t : TSStmt} (h : moduleBodyIsBlock t = true) :
    ∃ ii nm gl dc stmts, t = TSStmt.module ii nm gl dc true true stmts := by
  cases t with
  | module ii nm gl dc hb bib stmts =>
    obtain ⟨h1, h2⟩ : hb = true ∧ bib = true := by
      simpa [moduleBodyIsBlock, Bool.and_eq_true] using h
    subst h1
    subst h2
    exact ⟨ii, nm, gl, dc, stmts, rfl⟩
  | iface ii n t2 => simp [moduleBodyIsBlock] at h
  | otherTS t2 => simp [moduleBodyIsBlock] at h

/-- C9: whenever `addGlobalAppInterface` reports an error (a non-block body
of the outer `declare global` or of the `App` namespace), the returned tree
is the input tree unchanged — every path that mutates the tree (creating
the `declare global`, the `App` namespace, or the interface) ends in a
successful return, so no partially created block is committed before a
throw. -/
theorem addGlobalAppInterface_error_frame (ast : Program) (name : String) (e : String)
    (herr : (addGlobalAppInterface ast name).2 = .error e) :
    (addGlobalAppInterface ast name).1 = ast := by
  cases hg : ast.findIdx? isGlobalDeclare with
  | none =>
    exfalso
    simp [addGlobalAppInterface, hg, stmtAt_append_length, freshGlobal, tsOfStmt,
      moduleBodyIsBlock, appPathsTS, appPathsTSList, pushAtTS, stmtOfTS,
      rootChildCount, freshApp, lookupTS, ifaceNodesTS, ifaceNodesTSList,
      setStmt] at herr
  | some i =>
    have hi : i < ast.length := (findIdx?_some_spec hg).1
    simp only [addGlobalAppInterface, hg] at herr ⊢
    by_cases hb : moduleBodyIsBlock (tsOfStmt (stmtAt ast i)) = true
    · rw [if_neg (by simp [hb])] at herr ⊢
      cases happs : (appPathsTS (tsOfStmt (stmtAt ast i))).getLast? with
      | some p =>
        simp only [happs] at herr ⊢
        by_cases hb2 : moduleBodyIsBlock (lookupTS (tsOfStmt (stmtAt ast i)) p) = true
        · rw [if_neg (by simp [hb2])] at herr ⊢
          cases hifc : (ifaceNodesTS name (tsOfStmt (stmtAt ast i))).getLast? with
          | some nd => simp [hifc] at herr
          | none => simp [hifc] at herr
        · rw [if_pos (by simp [hb2])] at herr ⊢
      | none =>
        exfalso
        simp only [happs] at herr
        obtain ⟨ii, nm, gl, dc, stmts, hsh⟩ := moduleBodyIsBlock_shape hb
        rw [hsh] at herr
        have hset : stmtAt
            (setStmt ast i (stmtOfTS (pushAtTS (TSStmt.module ii nm gl dc true true stmts) [] freshApp))) i
            = stmtOfTS (pushAtTS (TSStmt.module ii nm gl dc true true stmts) [] freshApp) :=
          stmtAt_set_self hi _
        simp only [hset] at herr
        simp [pushAtTS, stmtOfTS, tsOfStmt, rootChildCount, lookupTS,
          tsGetD_append_length, freshApp, moduleBodyIsBlock] at herr
        cases hifc : (ifaceNodesTS name (TSStmt.module ii nm gl dc true true stmts)).getLast? with
        | none => simp [hifc] at herr
        | some nd => simp [hifc] at herr
    · rw [if_pos (by simp [hb])] at herr ⊢

/-- C9, witness: the error-frame theorem applied to a tree whose `declare
global` has a non-block body. -/
theorem addGlobalAppInterface_error_frame_witness :
    (addGlobalAppInterface [.tsModule true "global" true true true false []] "Error").1
      = [.tsModule true "global" true true true false []] :=
  addGlobalAppInterface_error_frame [.tsModule true "global" true true true false []]
    "Error" "Unexpected body type of `declare global` in `src/app.d.ts`" rfl

/-! ### Structure of the `addGlobalAppInterface` walks under a push -/

theorem appPathsTSList_append (l1 l2 : List TSStmt) (i : Nat) :
    appPathsTSList (l1 ++ l2) i = appPathsTSList l1 i ++ appPathsTSList l2 (i + l1.length) := by
  induction l1 generalizing i with
  | nil => simp [appPathsTSList]
  | cons s rest ih =>
    simp only [List.cons_append, appPathsTSList, List.length_cons, List.append_eq]
    rw [ih (i + 1), List.append_assoc]
    have harith : i + 1 + rest.length = i + (rest.length + 1) := by omega
    rw [harith]

theorem ifaceNodesTSList_append (name : String) (l1 l2 : List TSStmt) :
    ifaceNodesTSList name (l1 ++ l2)
      = ifaceNodesTSList name l1 ++ ifaceNodesTSList name l2 := by
  induction l1 with
  | nil => rfl
  | cons s rest ih =>
    simp only [List.cons_append, ifaceNodesTSList, List.append_eq, ih, List.append_assoc]

theorem tsGetD_set_self {l : List TSStmt} {i : Nat} (h : i < l.length) (y d : TSStmt) :
    (l.set i y).getD i d = y := by
  induction l generalizing i with
  | nil => simp at h
  | cons a t ih =>
    cases i with
    | zero => rfl
    | succ k => simpa [List.set, List.getD] using ih (i := k) (by simpa using h)

theorem tsGetD_mem {l : List TSStmt} {i : Nat} (h : i < l.length) (d : TSStmt) :
    l.getD i d ∈ l := by
  induction l generalizing i with
  | nil => simp at h
  | cons a t ih =>
    cases i with
    | zero => simp [List.getD]
    | succ k =>
      have := ih (i := k) (by simpa using h)
      exact List.mem_cons_of_mem _ (by simpa [List.getD] using this)

theorem tsSet_append_length (l : List TSStmt) (a x : TSStmt) :
    (l ++ [a]).set l.length x = l ++ [x] := by
  induction l with
  | nil => rfl
  | cons s rest ih => simp [List.set, ih]

theorem setProg_append_length (l : Program) (a x : Stmt) :
    (l ++ [a]).set l.length x = l ++ [x] := by
  induction l with
  | nil => rfl
  | cons s rest ih => simp [List.set, ih]

theorem setStmt_setStmt (l : Program) (i : Nat) (a b : Stmt) :
    setStmt (setStmt l i a) i b = setStmt l i b := by
  simp [setStmt, List.set_set]

theorem appPathsTSList_set {l : List TSStmt} {i : Nat} {y : TSStmt} (j : Nat)
    (hy : appPathsTS y = appPathsTS (l.getD i (.otherTS 0))) :
    appPathsTSList (l.set i y) j = appPathsTSList l j := by
  induction l generalizing i j with
  | nil => rfl
  | cons s rest ih =>
    cases i with
    | zero =>
      have hy2 : appPathsTS y = appPathsTS s := by simpa [List.getD] using hy
      simp only [List.set, appPathsTSList, hy2]
    | succ k =>
      have hy2 : appPathsTS y = appPathsTS (rest.getD k (.otherTS 0)) := by
        simpa [List.getD] using hy
      simp only [List.set, appPathsTSList]
      rw [ih (j + 1) hy2]

theorem appPathsTS_pushAtTS (p : List Nat) (s x : TSStmt) (hx : appPathsTS x = []) :
    appPathsTS (pushAtTS s p x) = appPathsTS s := by
  induction p generalizing s with
  | nil =>
    cases s with
    | module ii nm gl dc hb bib stmts =>
      simp only [pushAtTS, appPathsTS]
      rw [appPathsTSList_append]
      simp [appPathsTSList, hx]
    | iface ii n t => rfl
    | otherTS t => rfl
  | cons i rest ih =>
    cases s with
    | module ii nm gl dc hb bib stmts =>
      simp only [pushAtTS, appPathsTS]
      rw [appPathsTSList_set 0 (ih (stmts.getD i (.otherTS 0)))]
    | iface ii n t => rfl
    | otherTS t => rfl

/-- Each step of the path stays inside a module with a block body (the shape
of every path the `App`-module walk can produce whose endpoint passed the
block check). -/
def pathIntoBlocks : TSStmt → List Nat → Bool
  | s, [] => moduleBodyIsBlock s
  | s, i :: rest =>
    match s with
    | .module _ _ _ _ hb bib stmts =>
      hb && bib && decide (i < stmts.length) &&
        pathIntoBlocks (stmts.getD i (.otherTS 0)) rest
    | _ => false

theorem mem_appPathsTSList {l : List TSStmt} {i j : Nat} {q : List Nat}
    (h : (j :: q) ∈ appPathsTSList l i) :
    i ≤ j ∧ j - i < l.length ∧ q ∈ appPathsTS (l.getD (j - i) (.otherTS 0)) := by
  induction l generalizing i with
  | nil => simp [appPathsTSList] at h
  | cons s rest ih =>
    simp only [appPathsTSList, List.mem_append, List.mem_map] at h
    rcases h with ⟨a, ha, heq⟩ | h
    · injection heq with h1 h2
      subst h1
      subst h2
      exact ⟨Nat.le_refl _, by simp, by simpa [List.getD] using ha⟩
    · obtain ⟨h1, h2, h3⟩ := ih h
      refine ⟨by omega, by simp; omega, ?_⟩
      have harith : j - i = (j - (i + 1)) + 1 := by omega
      rw [harith]
      simpa [List.getD] using h3

theorem pathIntoBlocks_of_mem {s : TSStmt} {p : List Nat}
    (hp : p ∈ appPathsTS s) (hb : moduleBodyIsBlock (lookupTS s p) = true) :
    pathIntoBlocks s p = true := by
  induction p generalizing s with
  | nil => exact hb
  | cons i rest ih =>
    cases s with
    | module ii nm gl dc hb2 bib stmts =>
      simp only [appPathsTS, List.mem_append] at hp
      rcases hp with h | h
      · split at h <;> simp at h
      · cases hbb : (hb2 && bib) with
        | false => simp [hbb] at h
        | true =>
          simp only [hbb, if_true] at h
          obtain ⟨_, h2, h3⟩ := mem_appPathsTSList h
          simp only [Nat.sub_zero] at h2 h3
          have hlook : moduleBodyIsBlock
              (lookupTS (stmts.getD i (.otherTS 0)) rest) = true := hb
          obtain ⟨hbb1, hbb2⟩ : hb2 = true ∧ bib = true := by simpa using hbb
          have h4 := ih h3 hlook
          have hgd : stmts.getD i (TSStmt.otherTS 0) = stmts[i] := by
            simp [List.getD, List.getElem?_eq_getElem h2]
          rw [hgd] at h4
          simp [pathIntoBlocks, hbb1, hbb2, h2, h4]
    | iface ii n t => simp [appPathsTS] at hp
    | otherTS t => simp [appPathsTS] at hp

theorem ifaceNodesTSList_nil {name : String} {l : List TSStmt}
    (hall : ∀ s ∈ l, ifaceNodesTS name s = []) :
    ifaceNodesTSList name l = [] := by
  induction l with
  | nil => rfl
  | cons s rest ih =>
    simp only [ifaceNodesTSList, hall s (by simp),
      ih (fun t ht => hall t (by simp [ht])), List.append_nil]

theorem ifaceNodesTS_nil_mem {name : String} {l : List TSStmt}
    (h : ifaceNodesTSList name l = []) : ∀ s ∈ l, ifaceNodesTS name s = [] := by
  induction l with
  | nil => simp
  | cons s rest ih =>
    simp only [ifaceNodesTSList, List.append_eq_nil] at h
    intro t ht
    rcases List.mem_cons.mp ht with h1 | h1
    · subst h1; exact h.1
    · exact ih h.2 t h1

theorem ifaceNodesTSList_set_nil {name : String} {l : List TSStmt} {i : Nat} {y : TSStmt}
    (hall : ∀ s ∈ l, ifaceNodesTS name s = []) (h : i < l.length) :
    ifaceNodesTSList name (l.set i y) = ifaceNodesTS name y := by
  induction l generalizing i with
  | nil => simp at h
  | cons s rest ih =>
    cases i with
    | zero =>
      simp only [List.set, ifaceNodesTSList]
      rw [ifaceNodesTSList_nil (fun t ht => hall t (by simp [ht]))]
      simp
    | succ k =>
      simp only [List.set, ifaceNodesTSList, hall s (by simp)]
      rw [ih (fun t ht => hall t (by simp [ht])) (by simpa using h)]
      simp

theorem ifaceNodesTS_pushAtTS_nil {name : String} {s : TSStmt} {p : List Nat} {x : TSStmt}
    (hp : pathIntoBlocks s p = true) (hn : ifaceNodesTS name s = []) :
    ifaceNodesTS name (pushAtTS s p x) = ifaceNodesTS name x := by
  induction p generalizing s with
  | nil =>
    have hb : moduleBodyIsBlock s = true := hp
    obtain ⟨ii, nm, gl, dc, stmts, rfl⟩ := moduleBodyIsBlock_shape hb
    have hn2 : ifaceNodesTSList name stmts = [] := by
      simpa [ifaceNodesTS] using hn
    simp [pushAtTS, ifaceNodesTS, ifaceNodesTSList_append, hn2, ifaceNodesTSList]
  | cons i rest ih =>
    cases s with
    | module ii nm gl dc hb bib stmts =>
      have hps : (hb && bib && decide (i < stmts.length) &&
          pathIntoBlocks (stmts.getD i (.otherTS 0)) rest) = true := hp
      simp only [Bool.and_eq_true, decide_eq_true_eq] at hps
      obtain ⟨⟨⟨hb1, hb2⟩, hlt⟩, hrest⟩ := hps
      have hn2 : ifaceNodesTSList name stmts = [] := by
        simpa [ifaceNodesTS, hb1, hb2] using hn
      have hall := ifaceNodesTS_nil_mem hn2
      have hni : ifaceNodesTS name (stmts.getD i (.otherTS 0)) = [] :=
        hall _ (tsGetD_mem hlt _)
      simp only [pushAtTS, ifaceNodesTS, hb1, hb2]
      rw [ifaceNodesTSList_set_nil hall hlt, ih hrest hni]
      simp
    | iface ii n t => simp [pathIntoBlocks] at hp
    | otherTS t => simp [pathIntoBlocks] at hp

theorem lookupTS_pushAtTS_block {s : TSStmt} {p : List Nat} (x : TSStmt)
    (hp : pathIntoBlocks s p = true) :
    moduleBodyIsBlock (lookupTS (pushAtTS s p x) p) = true := by
  induction p generalizing s with
  | nil =>
    have hb : moduleBodyIsBlock s = true := hp
    obtain ⟨ii, nm, gl, dc, stmts, rfl⟩ := moduleBodyIsBlock_shape hb
    rfl
  | cons i rest ih =>
    cases s with
    | module ii nm gl dc hb bib stmts =>
      have hps : (hb && bib && decide (i < stmts.length) &&
          pathIntoBlocks (stmts.getD i (.otherTS 0)) rest) = true := hp
      simp only [Bool.and_eq_true, decide_eq_true_eq] at hps
      obtain ⟨⟨⟨hb1, hb2⟩, hlt⟩, hrest⟩ := hps
      show moduleBodyIsBlock
        (lookupTS ((stmts.set i (pushAtTS (stmts.getD i (.otherTS 0)) rest x)).getD i
          (.otherTS 0)) rest) = true
      rw [tsGetD_set_self (by simpa using hlt)]
      exact ih hrest
    | iface ii n t => simp [pathIntoBlocks] at hp
    | otherTS t => simp [pathIntoBlocks] at hp

theorem findIdx?_set_self {p : Stmt → Bool} {l : Program} {i : Nat} {y : Stmt}
    (h : l.findIdx? p = some i) (hy : p y = true) :
    (l.set i y).findIdx? p = some i := by
  induction l generalizing i with
  | nil => simp [List.findIdx?] at h
  | cons a rest ih =>
    rw [List.findIdx?_cons] at h
    by_cases hp : p a = true
    · simp [hp] at h
      subst h
      simp [List.set, List.findIdx?_cons, hy]
    · simp [hp] at h
      obtain ⟨k, hk, rfl⟩ := h
      simp [List.set, List.findIdx?_cons, hp, ih hk]

theorem findIdx?_append_singleton {p : Stmt → Bool} {l : Program} {x : Stmt}
    (h : l.findIdx? p = none) (hx : p x = true) :
    (l ++ [x]).findIdx? p = some l.length := by
  induction l with
  | nil => simp [List.findIdx?_cons, hx]
  | cons a rest ih =>
    rw [List.findIdx?_cons] at h
    by_cases hp : p a = true
    · rw [if_pos hp] at h
      exact Option.noConfusion h
    · rw [if_neg hp, List.findIdx?_succ] at h
      have h2 : rest.findIdx? p = none := by
        cases hr : rest.findIdx? p with
        | none => rfl
        | some k => rw [hr] at h; simp at h
      rw [List.cons_append, List.findIdx?_cons, if_neg hp, List.findIdx?_succ, ih h2]
      simp

theorem isGlobalDeclare_shape {s : Stmt} (h : isGlobalDeclare s = true) :
    ∃ ii nm gl dc hb bib stmts, s = Stmt.tsModule ii nm gl dc hb bib stmts ∧
      (gl && dc) = true := by
  cases s with
  | tsModule ii nm gl dc hb bib stmts =>
    exact ⟨ii, nm, gl, dc, hb, bib, stmts, rfl, h⟩
  | decl d => simp [isGlobalDeclare] at h
  | exportDecl d => simp [isGlobalDeclare] at h
  | exportSpecs sp => simp [isGlobalDeclare] at h
  | importDecl a b c => simp [isGlobalDeclare] at h
  | other a b => simp [isGlobalDeclare] at h

theorem pushAtTS_module (ii : Bool) (nm : String) (gl dc hb bib : Bool)
    (stmts : List TSStmt) (p : List Nat) (x : TSStmt) :
    ∃ stmts2, pushAtTS (.module ii nm gl dc hb bib stmts) p x
      = .module ii nm gl dc hb bib stmts2 := by
  cases p with
  | nil => exact ⟨stmts ++ [x], rfl⟩
  | cons i rest => exact ⟨_, rfl⟩

theorem countP_set_eq {p : Stmt → Bool} {l : Program} {i : Nat} {y : Stmt}
    (h : i < l.length) (hp : p y = p (stmtAt l i)) :
    (l.set i y).countP p = l.countP p := by
  induction l generalizing i with
  | nil => simp at h
  | cons a t ih =>
    cases i with
    | zero =>
      have hpa : p y = p a := by simpa [stmtAt] using hp
      simp [List.set, List.countP_cons, hpa]
    | succ k =>
      have h2 : k < t.length := by simpa using h
      have hp2 : p y = p (stmtAt t k) := by simpa [stmtAt_cons_succ] using hp
      simp [List.set, List.countP_cons, ih h2 hp2]

theorem ifaceNodesTSList_set_decomp (nm : String) {l : List TSStmt} {i : Nat}
    (y : TSStmt) (h : i < l.length) :
    ∃ A B, ifaceNodesTSList nm (l.set i y) = A ++ ifaceNodesTS nm y ++ B ∧
      ifaceNodesTSList nm l = A ++ ifaceNodesTS nm (l.getD i (.otherTS 0)) ++ B := by
  induction l generalizing i with
  | nil => simp at h
  | cons s rest ih =>
    cases i with
    | zero =>
      refine ⟨[], ifaceNodesTSList nm rest, ?_, ?_⟩
      · simp [List.set, ifaceNodesTSList]
      · simp [ifaceNodesTSList, List.getD]
    | succ k =>
      obtain ⟨A, B, h1, h2⟩ := ih (i := k) (by simpa using h)
      refine ⟨ifaceNodesTS nm s ++ A, B, ?_, ?_⟩
      · simp [List.set, ifaceNodesTSList, h1, List.append_assoc]
      · have hgd : (s :: rest).getD (k + 1) (.otherTS 0) = rest.getD k (.otherTS 0) := by
          simp [List.getD]
        rw [hgd]
        simp [ifaceNodesTSList, h2, List.append_assoc]

/-- Pushing a node into a block along a valid path only INSERTS its
interface declarations into the walk-order list: nothing is dropped. -/
theorem ifaceNodesTS_pushAtTS_insert (nm : String) {s : TSStmt} {p : List Nat}
    (x : TSStmt) (hp : pathIntoBlocks s p = true) :
    ∃ A B, ifaceNodesTS nm (pushAtTS s p x) = A ++ ifaceNodesTS nm x ++ B ∧
      ifaceNodesTS nm s = A ++ B := by
  induction p generalizing s with
  | nil =>
    have hb : moduleBodyIsBlock s = true := hp
    obtain ⟨ii, nmm, gl, dc, stmts, rfl⟩ := moduleBodyIsBlock_shape hb
    refine ⟨ifaceNodesTSList nm stmts, [], ?_, ?_⟩
    · simp [pushAtTS, ifaceNodesTS, ifaceNodesTSList_append, ifaceNodesTSList]
    · simp [ifaceNodesTS]
  | cons i rest ih =>
    cases s with
    | module ii nmm gl dc hb bib stmts =>
      have hps : (hb && bib && decide (i < stmts.length) &&
          pathIntoBlocks (stmts.getD i (.otherTS 0)) rest) = true := hp
      simp only [Bool.and_eq_true, decide_eq_true_eq] at hps
      obtain ⟨⟨⟨hb1, hb2⟩, hlt⟩, hrest⟩ := hps
      subst hb1
      subst hb2
      obtain ⟨A2, B2, h3, h4⟩ := ih hrest
      obtain ⟨A1, B1, h1, h2⟩ :=
        ifaceNodesTSList_set_decomp nm (pushAtTS (stmts.getD i (.otherTS 0)) rest x) hlt
      refine ⟨A1 ++ A2, B2 ++ B1, ?_, ?_⟩
      · have e1 : ifaceNodesTS nm
            (pushAtTS (.module ii nmm gl dc true true stmts) (i :: rest) x)
            = ifaceNodesTSList nm
              (stmts.set i (pushAtTS (stmts.getD i (.otherTS 0)) rest x)) := by
          simp [pushAtTS, ifaceNodesTS]
        rw [e1, h1, h3]
        simp [List.append_assoc]
      · have e2 : ifaceNodesTS nm (.module ii nmm gl dc true true stmts)
            = ifaceNodesTSList nm stmts := by
          simp [ifaceNodesTS]
        rw [e2, h2, h4]
        simp [List.append_assoc]
    | iface ii n t => simp [pathIntoBlocks] at hp
    | otherTS t => simp [pathIntoBlocks] at hp

theorem countIface_pushAtTS_mono (nm : String) {s : TSStmt} {p : List Nat}
    (x : TSStmt) (hp : pathIntoBlocks s p = true) :
    (ifaceNodesTS nm s).length ≤ (ifaceNodesTS nm (pushAtTS s p x)).length := by
  obtain ⟨A, B, h1, h2⟩ := ifaceNodesTS_pushAtTS_insert nm x hp
  rw [h1, h2]
  simp only [List.length_append]
  omega

/-- C8 (amended): a successful call never removes an existing `declare
global`, `App` namespace, or interface block — for every name the number of
matching interfaces in the searched region does not decrease, the number of
`declare global` statements does not decrease, and the first `declare
global` keeps its index with its pre-order `App`-module paths preserved as
a prefix.  When moreover the searched region held at most one interface
named `name` beforehand, the resulting tree contains exactly one matching
interface declaration, and the second call returns the very same node and
leaves the tree untouched. -/
theorem addGlobalAppInterface_idem (ast : Program) (name : String)
    (t1 : Program) (r1 : TSStmt)
    (hok : addGlobalAppInterface ast name = (t1, .ok r1)) :
    (∀ nm, countIfaceInGlobal ast nm ≤ countIfaceInGlobal t1 nm) ∧
    ast.countP isGlobalDeclare ≤ t1.countP isGlobalDeclare ∧
    (∀ i, ast.findIdx? isGlobalDeclare = some i →
      t1.findIdx? isGlobalDeclare = some i ∧
      ∃ rest, appPathsTS (tsOfStmt (stmtAt t1 i))
        = appPathsTS (tsOfStmt (stmtAt ast i)) ++ rest) ∧
    (countIfaceInGlobal ast name ≤ 1 →
      countIfaceInGlobal t1 name = 1 ∧
      addGlobalAppInterface t1 name = (t1, .ok r1)) := by
  cases hg : ast.findIdx? isGlobalDeclare with
  | none =>
    have hfirst : addGlobalAppInterface ast name
        = (ast ++ [.tsModule true "global" true true true true
            [.module true "App" false false true true [.iface true name 0]]],
           .ok (.iface true name 0)) := by
      simp [addGlobalAppInterface, hg, stmtAt_append_length, freshGlobal, freshApp,
        freshIface, tsOfStmt, stmtOfTS, moduleBodyIsBlock, appPathsTS, appPathsTSList,
        pushAtTS, rootChildCount, lookupTS, ifaceNodesTS, ifaceNodesTSList, setStmt,
        setProg_append_length]
    rw [hfirst] at hok
    injection hok with h1 h2
    injection h2 with h3
    subst h1
    subst h3
    have hfind : (ast ++ [(.tsModule true "global" true true true true
        [.module true "App" false false true true [.iface true name 0]] : Stmt)]).findIdx?
          isGlobalDeclare = some ast.length :=
      findIdx?_append_singleton hg rfl
    refine ⟨?_, ?_, ?_, fun hc => ⟨?_, ?_⟩⟩
    · intro nm2
      simp [countIfaceInGlobal, ifacesInGlobal, hg]
    · rw [List.countP_append]
      omega
    · intro i2 hi2
      exact Option.noConfusion hi2
    · simp [countIfaceInGlobal, ifacesInGlobal, hfind, stmtAt_append_length, tsOfStmt,
        ifaceNodesTS, ifaceNodesTSList]
    · simp [addGlobalAppInterface, hfind, stmtAt_append_length, tsOfStmt,
        moduleBodyIsBlock, appPathsTS, appPathsTSList, lookupTS, ifaceNodesTS,
        ifaceNodesTSList]
  | some i =>
    have hi : i < ast.length := (findIdx?_some_spec hg).1
    have hglob : isGlobalDeclare (stmtAt ast i) = true := (findIdx?_some_spec hg).2
    obtain ⟨ii, nm, gl, dc, hb3, bib3, stmts0, hst, hgd⟩ := isGlobalDeclare_shape hglob
    simp only [addGlobalAppInterface, hg, hst, tsOfStmt] at hok
    by_cases hbk : moduleBodyIsBlock (.module ii nm gl dc hb3 bib3 stmts0) = true
    · obtain ⟨hb31, hb32⟩ : hb3 = true ∧ bib3 = true := by
        simpa [moduleBodyIsBlock] using hbk
      subst hb31
      subst hb32
      rw [if_neg (by simp [moduleBodyIsBlock])] at hok
      cases happs : (appPathsTS (.module ii nm gl dc true true stmts0)).getLast? with
      | some p =>
        simp only [happs, hst, tsOfStmt] at hok
        by_cases hbk2 : moduleBodyIsBlock
            (lookupTS (.module ii nm gl dc true true stmts0) p) = true
        · rw [if_neg (by simp [hbk2])] at hok
          cases hifc : (ifaceNodesTS name (.module ii nm gl dc true true stmts0)).getLast? with
          | some nd =>
            simp only [hifc] at hok
            injection hok with h1 h2
            injection h2 with h3
            subst h1
            subst h3
            have hcc : countIfaceInGlobal ast name
                = (ifaceNodesTS name (.module ii nm gl dc true true stmts0)).length := by
              simp [countIfaceInGlobal, ifacesInGlobal, hg, hst, tsOfStmt]
            refine ⟨?_, ?_, ?_, fun hc => ⟨?_, ?_⟩⟩
            · intro nm2
              exact Nat.le_refl _
            · exact Nat.le_refl _
            · intro i2 hi2
              injection hi2 with h4
              subst h4
              exact ⟨hg, [], by simp⟩
            · have hpos : 0 < (ifaceNodesTS name (.module ii nm gl dc true true stmts0)).length :=
                List.length_pos.mpr (List.ne_nil_of_mem (List.mem_of_getLast?_eq_some hifc))
              rw [hcc] at hc ⊢
              omega
            · simp only [addGlobalAppInterface, hg, hst, tsOfStmt]
              rw [if_neg (by simp [moduleBodyIsBlock])]
              simp only [happs, hst, tsOfStmt]
              rw [if_neg (by simp [hbk2])]
              simp [hifc]
          | none =>
            simp only [hifc] at hok
            have hnil : ifaceNodesTS name (.module ii nm gl dc true true stmts0) = [] :=
              List.getLast?_eq_none_iff.mp hifc
            have hpmem : p ∈ appPathsTS (.module ii nm gl dc true true stmts0) :=
              List.mem_of_getLast?_eq_some happs
            have hpath : pathIntoBlocks (.module ii nm gl dc true true stmts0) p = true :=
              pathIntoBlocks_of_mem hpmem hbk2
            obtain ⟨stmts2, hpush⟩ :=
              pushAtTS_module ii nm gl dc true true stmts0 p (freshIface name)
            rw [hpush] at hok
            injection hok with h1 h2
            injection h2 with h3
            subst h1
            subst h3
            have hiface2 : ifaceNodesTS name (.module ii nm gl dc true true stmts2)
                = [freshIface name] := by
              rw [← hpush, ifaceNodesTS_pushAtTS_nil hpath hnil]
              simp [ifaceNodesTS, freshIface]
            have happ2 : appPathsTS (.module ii nm gl dc true true stmts2)
                = appPathsTS (.module ii nm gl dc true true stmts0) := by
              rw [← hpush]
              exact appPathsTS_pushAtTS p _ _ rfl
            have hlook2 : moduleBodyIsBlock
                (lookupTS (.module ii nm gl dc true true stmts2) p) = true := by
              rw [← hpush]
              exact lookupTS_pushAtTS_block _ hpath
            have hglob2 : isGlobalDeclare
                (Stmt.tsModule ii nm gl dc true true stmts2) = true := by
              simpa [isGlobalDeclare] using hgd
            have hfind2 : ((setStmt ast i
                (Stmt.tsModule ii nm gl dc true true stmts2)).findIdx?
                  isGlobalDeclare) = some i :=
              findIdx?_set_self hg hglob2
            have hstmt2 : stmtAt (setStmt ast i
                (Stmt.tsModule ii nm gl dc true true stmts2)) i
                = Stmt.tsModule ii nm gl dc true true stmts2 :=
              stmtAt_set_self hi _
            refine ⟨?_, ?_, ?_, fun hc => ⟨?_, ?_⟩⟩
            · intro nm2
              have hca : countIfaceInGlobal ast nm2
                  = (ifaceNodesTS nm2 (.module ii nm gl dc true true stmts0)).length := by
                simp [countIfaceInGlobal, ifacesInGlobal, hg, hst, tsOfStmt]
              have hct : countIfaceInGlobal (setStmt ast i
                  (stmtOfTS (.module ii nm gl dc true true stmts2))) nm2
                  = (ifaceNodesTS nm2 (.module ii nm gl dc true true stmts2)).length := by
                simp [countIfaceInGlobal, ifacesInGlobal, hfind2, hstmt2, tsOfStmt, stmtOfTS]
              rw [hca, hct, ← hpush]
              exact countIface_pushAtTS_mono nm2 (freshIface name) hpath
            · have hp1 : isGlobalDeclare (stmtOfTS (.module ii nm gl dc true true stmts2))
                  = isGlobalDeclare (stmtAt ast i) := by
                rw [hst]
                simp [isGlobalDeclare, stmtOfTS]
              show ast.countP isGlobalDeclare ≤
                (ast.set i (stmtOfTS (.module ii nm gl dc true true stmts2))).countP
                  isGlobalDeclare
              exact Nat.le_of_eq (countP_set_eq hi hp1).symm
            · intro i2 hi2
              injection hi2 with h4
              subst h4
              exact ⟨hfind2, [], by simp [hstmt2, tsOfStmt, stmtOfTS, hst, happ2]⟩
            · simp [countIfaceInGlobal, ifacesInGlobal, hfind2, hstmt2, tsOfStmt,
                stmtOfTS, hiface2]
            · simp only [addGlobalAppInterface, stmtOfTS, hfind2, hstmt2, tsOfStmt]
              rw [if_neg (by simp [moduleBodyIsBlock])]
              simp only [happ2, happs, hstmt2, tsOfStmt]
              rw [if_neg (by simp [hlook2])]
              simp [hiface2, freshIface]
        · rw [if_pos (by simp [hbk2])] at hok
          injection hok with h1 h2
          exact absurd h2 (by simp)
      | none =>
        simp only [happs, hst, tsOfStmt] at hok
        have happnilA : appPathsTS (.module ii nm gl dc true true stmts0) = [] :=
          List.getLast?_eq_none_iff.mp happs
        obtain ⟨hA, hB⟩ : (if (ii && decide (nm = "App")) = true
              then [([] : List Nat)] else []) = [] ∧ appPathsTSList stmts0 0 = [] := by
          simpa [appPathsTS, List.append_eq_nil] using happnilA
        have hApp : (ii && decide (nm = "App")) = false := by
          by_cases hx : (ii && decide (nm = "App")) = true
          · rw [if_pos hx] at hA
            cases hA
          · simpa using hx
        have hstmt2 : stmtAt (setStmt ast i
            (Stmt.tsModule ii nm gl dc true true
              (stmts0 ++ [.module true "App" false false true true []]))) i
            = Stmt.tsModule ii nm gl dc true true
              (stmts0 ++ [.module true "App" false false true true []]) :=
          stmtAt_set_self hi _
        simp only [pushAtTS, stmtOfTS, tsOfStmt, freshApp, hstmt2, rootChildCount,
          lookupTS, tsGetD_append_length, tsSet_append_length, List.nil_append,
          moduleBodyIsBlock] at hok
        rw [if_neg (by simp)] at hok
        have hifeq : ifaceNodesTS name (.module ii nm gl dc true true stmts0)
            = ifaceNodesTSList name stmts0 := by
          simp [ifaceNodesTS]
        rw [hifeq] at hok
        have hglob2 : isGlobalDeclare (Stmt.tsModule ii nm gl dc true true
            (stmts0 ++ [.module true "App" false false true true []])) = true := by
          simpa [isGlobalDeclare] using hgd
        have hfind2 : ((setStmt ast i (Stmt.tsModule ii nm gl dc true true
            (stmts0 ++ [.module true "App" false false true true []]))).findIdx?
              isGlobalDeclare) = some i :=
          findIdx?_set_self hg hglob2
        have happs2a : appPathsTS (.module ii nm gl dc true true
            (stmts0 ++ [.module true "App" false false true true []]))
            = [[stmts0.length]] := by
          simp [appPathsTS, hApp, appPathsTSList_append, hB, appPathsTSList]
        have happs2 : (appPathsTS (.module ii nm gl dc true true
            (stmts0 ++ [.module true "App" false false true true []]))).getLast?
            = some [stmts0.length] := by
          rw [happs2a]
          rfl
        cases hifc : (ifaceNodesTSList name stmts0).getLast? with
        | some nd =>
          simp only [hifc] at hok
          injection hok with h1 h2
          injection h2 with h3
          subst h1
          subst h3
          have hifl2 : ifaceNodesTS name (.module ii nm gl dc true true
              (stmts0 ++ [.module true "App" false false true true []]))
              = ifaceNodesTSList name stmts0 := by
            simp [ifaceNodesTS, ifaceNodesTSList_append, ifaceNodesTSList]
          have hiflg : ∀ nm2, ifaceNodesTS nm2 (.module ii nm gl dc true true
              (stmts0 ++ [.module true "App" false false true true []]))
              = ifaceNodesTSList nm2 stmts0 := fun nm2 => by
            simp [ifaceNodesTS, ifaceNodesTSList_append, ifaceNodesTSList]
          refine ⟨?_, ?_, ?_, fun hc => ⟨?_, ?_⟩⟩
          · intro nm2
            have hca : countIfaceInGlobal ast nm2
                = (ifaceNodesTSList nm2 stmts0).length := by
              simp [countIfaceInGlobal, ifacesInGlobal, hg, hst, tsOfStmt, ifaceNodesTS]
            have hct : countIfaceInGlobal (setStmt ast i (Stmt.tsModule ii nm gl dc
                true true (stmts0 ++ [.module true "App" false false true true []]))) nm2
                = (ifaceNodesTSList nm2 stmts0).length := by
              simp [countIfaceInGlobal, ifacesInGlobal, hfind2, hstmt2, tsOfStmt, hiflg]
            rw [hca, hct]
          · have hp1 : isGlobalDeclare (Stmt.tsModule ii nm gl dc true true
                (stmts0 ++ [.module true "App" false false true true []]))
                = isGlobalDeclare (stmtAt ast i) := by
              rw [hst]
              simp [isGlobalDeclare]
            show ast.countP isGlobalDeclare ≤
              (ast.set i (Stmt.tsModule ii nm gl dc true true
                (stmts0 ++ [.module true "App" false false true true []]))).countP
                isGlobalDeclare
            exact Nat.le_of_eq (countP_set_eq hi hp1).symm
          · intro i2 hi2
            injection hi2 with h4
            subst h4
            exact ⟨hfind2, [[stmts0.length]],
              by simp [hstmt2, tsOfStmt, hst, happs2a, happnilA]⟩
          · have hpos : 0 < (ifaceNodesTSList name stmts0).length :=
              List.length_pos.mpr (List.ne_nil_of_mem (List.mem_of_getLast?_eq_some hifc))
            have hcc : countIfaceInGlobal ast name
                = (ifaceNodesTSList name stmts0).length := by
              simp [countIfaceInGlobal, ifacesInGlobal, hg, hst, tsOfStmt, ifaceNodesTS]
            have hcc2 : countIfaceInGlobal (setStmt ast i (Stmt.tsModule ii nm gl dc
                true true (stmts0 ++ [.module true "App" false false true true []]))) name
                = (ifaceNodesTSList name stmts0).length := by
              simp [countIfaceInGlobal, ifacesInGlobal, hfind2, hstmt2, tsOfStmt, hifl2]
            rw [hcc] at hc
            rw [hcc2]
            omega
          · simp only [addGlobalAppInterface, hfind2, hstmt2, tsOfStmt]
            rw [if_neg (by simp [moduleBodyIsBlock])]
            simp only [happs2, hstmt2, tsOfStmt]
            rw [if_neg (by simp [lookupTS, tsGetD_append_length, moduleBodyIsBlock])]
            simp [hifl2, hifc]
        | none =>
          have hnil0 : ifaceNodesTSList name stmts0 = [] :=
            List.getLast?_eq_none_iff.mp hifc
          simp only [hifc] at hok
          rw [setStmt_setStmt] at hok
          injection hok with h1 h2
          injection h2 with h3
          subst h1
          subst h3
          have hglob3 : isGlobalDeclare (Stmt.tsModule ii nm gl dc true true
              (stmts0 ++ [.module true "App" false false true true [freshIface name]]))
              = true := by
            simpa [isGlobalDeclare] using hgd
          have hfind3 : ((setStmt ast i (Stmt.tsModule ii nm gl dc true true
              (stmts0 ++ [.module true "App" false false true true [freshIface name]]))).findIdx?
                isGlobalDeclare) = some i :=
            findIdx?_set_self hg hglob3
          have hstmt4 : stmtAt (setStmt ast i (Stmt.tsModule ii nm gl dc true true
              (stmts0 ++ [.module true "App" false false true true [freshIface name]]))) i
              = Stmt.tsModule ii nm gl dc true true
                (stmts0 ++ [.module true "App" false false true true [freshIface name]]) :=
            stmtAt_set_self hi _
          have happs3a : appPathsTS (.module ii nm gl dc true true
              (stmts0 ++ [.module true "App" false false true true [freshIface name]]))
              = [[stmts0.length]] := by
            simp [appPathsTS, hApp, appPathsTSList_append, hB, appPathsTSList, freshIface]
          have happs3 : (appPathsTS (.module ii nm gl dc true true
              (stmts0 ++ [.module true "App" false false true true [freshIface name]]))).getLast?
              = some [stmts0.length] := by
            rw [happs3a]
            rfl
          have hifl3 : ifaceNodesTS name (.module ii nm gl dc true true
              (stmts0 ++ [.module true "App" false false true true [freshIface name]]))
              = [freshIface name] := by
            simp [ifaceNodesTS, ifaceNodesTSList_append, hnil0, ifaceNodesTSList, freshIface]
          refine ⟨?_, ?_, ?_, fun hc => ⟨?_, ?_⟩⟩
          · intro nm2
            have hdecomp : ifaceNodesTS nm2 (.module ii nm gl dc true true
                (stmts0 ++ [.module true "App" false false true true [freshIface name]]))
                = ifaceNodesTSList nm2 stmts0
                  ++ ifaceNodesTSList nm2 [freshIface name] := by
              simp [ifaceNodesTS, ifaceNodesTSList_append, ifaceNodesTSList]
            have hca : countIfaceInGlobal ast nm2
                = (ifaceNodesTSList nm2 stmts0).length := by
              simp [countIfaceInGlobal, ifacesInGlobal, hg, hst, tsOfStmt, ifaceNodesTS]
            have hct : countIfaceInGlobal (setStmt ast i (Stmt.tsModule ii nm gl dc
                true true (stmts0
                  ++ [.module true "App" false false true true [freshIface name]]))) nm2
                = (ifaceNodesTSList nm2 stmts0).length
                  + (ifaceNodesTSList nm2 [freshIface name]).length := by
              simp [countIfaceInGlobal, ifacesInGlobal, hfind3, hstmt4, tsOfStmt, hdecomp]
            rw [hca, hct]
            omega
          · have hp1 : isGlobalDeclare (Stmt.tsModule ii nm gl dc true true
                (stmts0 ++ [.module true "App" false false true true [freshIface name]]))
                = isGlobalDeclare (stmtAt ast i) := by
              rw [hst]
              simp [isGlobalDeclare]
            show ast.countP isGlobalDeclare ≤
              (ast.set i (Stmt.tsModule ii nm gl dc true true
                (stmts0
                  ++ [.module true "App" false false true true [freshIface name]]))).countP
                isGlobalDeclare
            exact Nat.le_of_eq (countP_set_eq hi hp1).symm
          · intro i2 hi2
            injection hi2 with h4
            subst h4
            exact ⟨hfind3, [[stmts0.length]],
              by simp [hstmt4, tsOfStmt, hst, happs3a, happnilA]⟩
          · simp [countIfaceInGlobal, ifacesInGlobal, hfind3, hstmt4, tsOfStmt, hifl3]
          · simp only [addGlobalAppInterface, hfind3, hstmt4, tsOfStmt]
            rw [if_neg (by simp [moduleBodyIsBlock])]
            simp only [happs3, hstmt4, tsOfStmt]
            rw [if_neg (by simp [lookupTS, tsGetD_append_length, moduleBodyIsBlock])]
            simp only [freshIface] at hifl3
            simp [freshIface, hifl3]
    · rw [if_pos (by simp [hbk])] at hok
      injection hok with h1 h2
      exact absurd h2 (by simp)

/-- C8, counterexample to the claim as stated: on a tree whose `App`
namespace already holds two `Error` interfaces, two calls (each returning
the LAST matching interface, not the first) leave both in place — the
result has two matching interface declarations, not exactly one. -/
theorem addGlobalAppInterface_dup_not_single :
    countIfaceInGlobal
      (addGlobalAppInterface
        (addGlobalAppInterface
          [.tsModule true "global" true true true true
            [.module true "App" false false true true
              [.iface true "Error" 1, .iface true "Error" 2]]] "Error").1 "Error").1
      "Error" = 2 := by
  decide

/-- C8, witness: the amended theorem applied to the empty program — the
first call creates `declare global`, `namespace App` and the interface
without removing anything (interface count is monotone), and on the result
(which satisfies the at-most-one precondition trivially before the call)
the count is exactly one and the second call returns the same node,
changing nothing. -/
theorem addGlobalAppInterface_idem_witness :
    countIfaceInGlobal ([] : Program) "Error" ≤ countIfaceInGlobal
      [.tsModule true "global" true true true true
        [.module true "App" false false true true [.iface true "Error" 0]]] "Error" ∧
    countIfaceInGlobal
      [.tsModule true "global" true true true true
        [.module true "App" false false true true [.iface true "Error" 0]]] "Error" = 1 ∧
    addGlobalAppInterface
      [.tsModule true "global" true true true true
        [.module true "App" false false true true [.iface true "Error" 0]]] "Error"
      = ([.tsModule true "global" true true true true
          [.module true "App" false false true true [.iface true "Error" 0]]],
         .ok (.iface true "Error" 0)) :=
  ⟨(addGlobalAppInterface_idem [] "Error"
      [.tsModule true "global" true true true true
        [.module true "App" false false true true [.iface true "Error" 0]]]
      (.iface true "Error" 0) rfl).1 "Error",
   ((addGlobalAppInterface_idem [] "Error"
      [.tsModule true "global" true true true true
        [.module true "App" false false true true [.iface true "Error" 0]]]
      (.iface true "Error" 0) rfl).2.2.2 (by decide)).1,
   ((addGlobalAppInterface_idem [] "Error"
      [.tsModule true "global" true true true true
        [.module true "App" false false true true [.iface true "Error" 0]]]
      (.iface true "Error" 0) rfl).2.2.2 (by decide)).2⟩

/-! ### Counting the exports of `handle` -/

theorem exportsHandle_exportDecl (d : Decl) :
    exportsHandle (.exportDecl d)
      = (isVariableDeclaration d "handle" || isFunctionDeclaration d "handle") := rfl

theorem exportsHandle_declStmt (d : Decl) : exportsHandle (.decl d) = false := rfl

theorem exportsHandle_newHandleDeclOf (hName n : String) :
    exportsHandle (.exportDecl (newHandleDeclOf hName n)) = decide (hName = "handle") := by
  by_cases h : hName = "handle" <;>
    simp [exportsHandle, newHandleDeclOf, isVariableDeclaration, getVariableDeclarator,
      isFunctionDeclaration, h]

theorem exportsHandle_passThroughDecl (ts : Bool) (d : Decl) (hName n : String) :
    exportsHandle (.exportDecl (passThroughDecl ts d hName n))
      = decide (hName = "handle") := by
  by_cases h : hName = "handle" <;>
    simp [exportsHandle, passThroughDecl, mkDeclarator, isVariableDeclaration,
      getVariableDeclarator, isFunctionDeclaration, h]

theorem exportsHandle_of_isSpecHandle {s : Stmt} (h : isSpecHandle s = true) :
    exportsHandle s = true := by
  cases s <;> simp [isSpecHandle] at h <;> simpa [exportsHandle] using h

theorem isSpecHandle_shape {s : Stmt} (h : isSpecHandle s = true) :
    ∃ specs, s = Stmt.exportSpecs specs := by
  cases s <;> simp [isSpecHandle] at h
  exact ⟨_, rfl⟩

theorem exportsHandle_seqAppended (d : Decl) (hName nn : String) :
    exportsHandle (.exportDecl (seqAppended d hName nn))
      = exportsHandle (.exportDecl d) := by
  rw [exportsHandle_exportDecl, exportsHandle_exportDecl,
    isVariableDeclaration_seqAppended, isFunctionDeclaration_seqAppended]

theorem mem_renameDeclarator {ds : List Declarator} {hName newName : String} :
    ∀ x ∈ renameDeclarator ds hName newName,
      x ∈ ds ∨ ∃ d0 : Declarator, x = ⟨.ident newName, d0.init, d0.tsType⟩ := by
  induction ds with
  | nil => simp [renameDeclarator]
  | cons d rest ih =>
    intro x hx
    cases hid : d.id with
    | ident nn =>
      by_cases hn : nn = hName
      · simp only [renameDeclarator, hid, if_pos hn] at hx
        rcases List.mem_cons.mp hx with h1 | h1
        · exact Or.inr ⟨d, h1⟩
        · exact Or.inl (List.mem_cons_of_mem _ h1)
      · simp only [renameDeclarator, hid, if_neg hn] at hx
        rcases List.mem_cons.mp hx with h1 | h1
        · exact Or.inl (by simp [h1])
        · rcases ih x h1 with h2 | h2
          · exact Or.inl (List.mem_cons_of_mem _ h2)
          · exact Or.inr h2
    | other tg =>
      simp only [renameDeclarator, hid] at hx
      rcases List.mem_cons.mp hx with h1 | h1
      · exact Or.inl (by simp [h1])
      · rcases ih x h1 with h2 | h2
        · exact Or.inl (List.mem_cons_of_mem _ h2)
        · exact Or.inr h2

theorem exportsHandle_renameStep {d : Decl} (hName : String)
    (h : exportsHandle (.exportDecl d) = false) :
    exportsHandle (.exportDecl (renameStep d hName).2) = false := by
  rw [exportsHandle_exportDecl, Bool.or_eq_false_iff] at h
  obtain ⟨hv, hf⟩ := h
  cases d with
  | varDecl k ds =>
    have hfind : getVariableDeclarator ds "handle" = none := by
      cases hfd : getVariableDeclarator ds "handle" with
      | none => rfl
      | some dec => simp [isVariableDeclaration, hfd] at hv
    have hren : getVariableDeclarator
        (renameDeclarator ds hName "originalHandle") "handle" = none := by
      rw [getVariableDeclarator, List.find?_eq_none]
      intro x hx
      rcases mem_renameDeclarator x hx with h1 | ⟨d0, h1⟩
      · have := List.find?_eq_none.mp hfind x h1
        simpa using this
      · subst h1
        simp
    rw [renameStep_varDecl]
    rcases hg : getVariableDeclarator ds hName with _ | dec
    · simp [exportsHandle_exportDecl, isVariableDeclaration, isFunctionDeclaration, hfind]
    · rcases hinit : dec.init with _ | e
      · simp [exportsHandle_exportDecl, isVariableDeclaration, isFunctionDeclaration,
          hinit, hren]
      · cases e with
        | ident y =>
          simp [exportsHandle_exportDecl, isVariableDeclaration, isFunctionDeclaration,
            hinit, hfind]
        | call cc args =>
          simp [exportsHandle_exportDecl, isVariableDeclaration, isFunctionDeclaration,
            hinit, hren]
        | lit t =>
          simp [exportsHandle_exportDecl, isVariableDeclaration, isFunctionDeclaration,
            hinit, hren]
  | funDecl nOpt b =>
    rw [renameStep_funDecl]
    cases nOpt with
    | none => simp [exportsHandle_exportDecl, hv, hf]
    | some nm =>
      by_cases hn : nm = hName
      · simp [if_pos hn, exportsHandle_exportDecl, isVariableDeclaration,
          isFunctionDeclaration]
      · simp only [if_neg hn]
        simp [exportsHandle_exportDecl, hv, hf]

theorem specifiersResolvable_addNamedImport {l : Program} {src : String}
    {bs : List (String × String)} {t : Bool}
    (h : specifiersResolvable l = true) :
    specifiersResolvable (addNamedImport l src bs t) = true := by
  rw [specifiersResolvable, List.all_eq_true]
  intro s hs
  rcases mem_addNamedImport s hs with hmem | ⟨a, b, c2, rfl⟩
  · cases s with
    | exportSpecs specs =>
      have h2 := List.all_eq_true.mp h _ hmem
      simp only at h2 ⊢
      rw [List.all_eq_true] at h2 ⊢
      intro sp hsp
      have h3 := h2 sp hsp
      by_cases he : sp.exportedName = "handle"
      · rw [if_pos he] at h3 ⊢
        rw [List.any_eq_true] at h3 ⊢
        obtain ⟨w, hw, hwp⟩ := h3
        have hwShape : ∃ d, w = Stmt.decl d := by
          rw [Bool.or_eq_true] at hwp
          rcases hwp with hp | hp
          · obtain ⟨d, hd, _⟩ := isFunctionDeclarationStmt_shape hp
            exact ⟨d, hd⟩
          · obtain ⟨d, hd, _⟩ := isVariableDeclarationStmt_shape hp
            exact ⟨d, hd⟩
        obtain ⟨d, rfl⟩ := hwShape
        exact ⟨_, mem_addNamedImport_of_mem hw (fun a b c hne => by cases hne), hwp⟩
      · rw [if_neg he]
    | decl d => rfl
    | exportDecl d => rfl
    | importDecl a b c2 => rfl
    | tsModule a b c2 d e f2 g => rfl
    | other a b => rfl
  · rfl

theorem specifiersResolvable_kitImport {ts : Bool} {ast : Program}
    (h : specifiersResolvable ast = true) :
    specifiersResolvable (kitImport ts ast) = true := by
  cases ts with
  | false => exact h
  | true => exact specifiersResolvable_addNamedImport h

/-- The walk-state facts available after visiting the first `i` statements
of a body whose `handle` specifiers all resolve: the flags are consistent,
a `none` finding certifies that no visited statement exports `handle`, and
a `some` finding records a statement that matches the CURRENT
`handleName`. -/
structure InvS (body : Program) (st : WalkState) (i : Nat) : Prop where
  mono_spec : st.isSpecifier = false → st.handleName = "handle"
  spec_ex : st.isSpecifier = true → ∃ s ∈ body, isSpecHandle s = true
  none_clean : st.found = none → st.isSpecifier = false ∧
      ∀ j, j < i → exportsHandle (stmtAt body j) = false
  some_inexp : ∀ f, st.found = some f → f.site = Site.inExport →
      f.exportIdx < i ∧ ∃ d, stmtAt body f.exportIdx = Stmt.exportDecl d ∧
        (isVariableDeclaration d st.handleName
          || isFunctionDeclaration d st.handleName) = true
  some_top : ∀ f k, st.found = some f → f.site = Site.top k →
      f.exportIdx < i ∧ isSpecHandle (stmtAt body f.exportIdx) = true ∧
      k < body.length ∧ ∃ d, stmtAt body k = Stmt.decl d ∧
        (isVariableDeclaration d st.handleName
          || isFunctionDeclaration d st.handleName) = true

theorem invS_init (body : Program) : InvS body initState 0 := by
  constructor
  · intro _; rfl
  · intro h; simp [initState] at h
  · intro _; exact ⟨rfl, fun j hj => by omega⟩
  · intro f h; simp [initState] at h
  · intro f k h; simp [initState] at h

theorem invS_step {body : Program} (hspec : specifiersResolvable body = true)
    {st : WalkState} {i : Nat} (hlt : i < body.length) {s : Stmt}
    (hs : stmtAt body i = s) (inv : InvS body st i) :
    InvS body (walkStep body st i s) (i + 1) := by
  cases s with
  | decl d =>
    rw [walkStep_decl]
    refine ⟨inv.mono_spec, inv.spec_ex, ?_, ?_, ?_⟩
    · intro hn
      obtain ⟨h1, h2⟩ := inv.none_clean hn
      refine ⟨h1, fun j hj => ?_⟩
      rcases Nat.lt_or_ge j i with h | h
      · exact h2 j h
      · have : j = i := by omega
        subst this
        rw [hs]
        rfl
    · intro f hf hsite
      obtain ⟨h1, h2⟩ := inv.some_inexp f hf hsite
      exact ⟨by omega, h2⟩
    · intro f k hf hsite
      obtain ⟨h1, h2, h3, h4⟩ := inv.some_top f k hf hsite
      exact ⟨by omega, h2, h3, h4⟩
  | importDecl a b c =>
    rw [walkStep_importDecl]
    refine ⟨inv.mono_spec, inv.spec_ex, ?_, ?_, ?_⟩
    · intro hn
      obtain ⟨h1, h2⟩ := inv.none_clean hn
      refine ⟨h1, fun j hj => ?_⟩
      rcases Nat.lt_or_ge j i with h | h
      · exact h2 j h
      · have : j = i := by omega
        subst this
        rw [hs]
        rfl
    · intro f hf hsite
      obtain ⟨h1, h2⟩ := inv.some_inexp f hf hsite
      exact ⟨by omega, h2⟩
    · intro f k hf hsite
      obtain ⟨h1, h2, h3, h4⟩ := inv.some_top f k hf hsite
      exact ⟨by omega, h2, h3, h4⟩
  | tsModule a b c d2 e f2 g =>
    rw [walkStep_tsModule]
    refine ⟨inv.mono_spec, inv.spec_ex, ?_, ?_, ?_⟩
    · intro hn
      obtain ⟨h1, h2⟩ := inv.none_clean hn
      refine ⟨h1, fun j hj => ?_⟩
      rcases Nat.lt_or_ge j i with h | h
      · exact h2 j h
      · have : j = i := by omega
        subst this
        rw [hs]
        rfl
    · intro f hf hsite
      obtain ⟨h1, h2⟩ := inv.some_inexp f hf hsite
      exact ⟨by omega, h2⟩
    · intro f k hf hsite
      obtain ⟨h1, h2, h3, h4⟩ := inv.some_top f k hf hsite
      exact ⟨by omega, h2, h3, h4⟩
  | other a b =>
    rw [walkStep_other]
    refine ⟨inv.mono_spec, inv.spec_ex, ?_, ?_, ?_⟩
    · intro hn
      obtain ⟨h1, h2⟩ := inv.none_clean hn
      refine ⟨h1, fun j hj => ?_⟩
      rcases Nat.lt_or_ge j i with h | h
      · exact h2 j h
      · have : j = i := by omega
        subst this
        rw [hs]
        rfl
    · intro f hf hsite
      obtain ⟨h1, h2⟩ := inv.some_inexp f hf hsite
      exact ⟨by omega, h2⟩
    · intro f k hf hsite
      obtain ⟨h1, h2, h3, h4⟩ := inv.some_top f k hf hsite
      exact ⟨by omega, h2, h3, h4⟩
  | exportDecl d =>
    rw [walkStep_exportDecl]
    by_cases hc : (isVariableDeclaration d st.handleName
        || isFunctionDeclaration d st.handleName) = true
    · rw [if_pos hc]
      refine ⟨inv.mono_spec, inv.spec_ex, ?_, ?_, ?_⟩
      · intro hn; simp at hn
      · intro f hf hsite
        have hf2 : f = ⟨i, Site.inExport⟩ := by
          simpa using hf.symm
        subst hf2
        exact ⟨Nat.lt_succ_self i, d, hs, hc⟩
      · intro f k hf hsite
        have hf2 : f = ⟨i, Site.inExport⟩ := by
          simpa using hf.symm
        subst hf2
        simp at hsite
    · rw [if_neg hc]
      refine ⟨inv.mono_spec, inv.spec_ex, ?_, ?_, ?_⟩
      · intro hn
        obtain ⟨h1, h2⟩ := inv.none_clean hn
        refine ⟨h1, fun j hj => ?_⟩
        rcases Nat.lt_or_ge j i with h | h
        · exact h2 j h
        · have : j = i := by omega
          subst this
          rw [hs, exportsHandle_exportDecl]
          rw [inv.mono_spec h1] at hc
          simpa using hc
      · intro f hf hsite
        obtain ⟨h1, h2⟩ := inv.some_inexp f hf hsite
        exact ⟨by omega, h2⟩
      · intro f k hf hsite
        obtain ⟨h1, h2, h3, h4⟩ := inv.some_top f k hf hsite
        exact ⟨by omega, h2, h3, h4⟩
  | exportSpecs specs =>
    rcases hfind : specs.find? (fun sp => sp.exportedName = "handle") with _ | sp
    · rw [walkStep_exportSpecs, hfind]
      refine ⟨inv.mono_spec, inv.spec_ex, ?_, ?_, ?_⟩
      · intro hn
        obtain ⟨h1, h2⟩ := inv.none_clean hn
        refine ⟨h1, fun j hj => ?_⟩
        rcases Nat.lt_or_ge j i with h | h
        · exact h2 j h
        · have : j = i := by omega
          subst this
          rw [hs]
          show (specs.any fun sp => sp.exportedName = "handle") = false
          rw [List.any_eq_false]
          intro sp hsp
          have := List.find?_eq_none.mp hfind sp hsp
          simpa using this
      · intro f hf hsite
        obtain ⟨h1, h2⟩ := inv.some_inexp f hf hsite
        exact ⟨by omega, h2⟩
      · intro f k hf hsite
        obtain ⟨h1, h2, h3, h4⟩ := inv.some_top f k hf hsite
        exact ⟨by omega, h2, h3, h4⟩
    · have hspmem := List.mem_of_find?_eq_some hfind
      have hsppred : sp.exportedName = "handle" := by
        have := List.find?_some hfind
        simpa using this
      have hmem : Stmt.exportSpecs specs ∈ body := hs ▸ stmtAt_mem body i hlt
      have hresolv : (body.any fun t =>
          isFunctionDeclarationStmt t (sp.localName.getD sp.exportedName)
            || isVariableDeclarationStmt t (sp.localName.getD sp.exportedName)) = true := by
        have hall := List.all_eq_true.mp hspec _ hmem
        simp only at hall
        have h2 := List.all_eq_true.mp hall sp hspmem
        rw [if_pos hsppred] at h2
        exact h2
      have hsome := resolveSite_isSome_of_any hresolv
      rcases hres : resolveSite body (sp.localName.getD sp.exportedName) with _ | site
      · rw [hres] at hsome
        simp at hsome
      · rw [walkStep_exportSpecs_some hfind, hres]
      -- the state is now ⟨true, local, some ⟨i, site⟩⟩ with site = .top k
        obtain ⟨k, hk, hklen, d, hd, hdmatch⟩ := resolveSite_spec hres
        subst hk
        have hspec2 : isSpecHandle (Stmt.exportSpecs specs) = true := by
          simp only [isSpecHandle, List.any_eq_true]
          exact ⟨sp, hspmem, by simpa using hsppred⟩
        refine ⟨?_, ?_, ?_, ?_, ?_⟩
        · intro hn; simp at hn
        · intro _
          exact ⟨Stmt.exportSpecs specs, hmem, hspec2⟩
        · intro hn; simp at hn
        · intro f hf hsite
          have hf2 : f = ⟨i, Site.top k⟩ := by
            simpa using hf.symm
          subst hf2
          simp at hsite
        · intro f k2 hf hsite
          have hf2 : f = ⟨i, Site.top k⟩ := by
            simpa using hf.symm
          subst hf2
          have hk2 : k2 = k := by
            simpa using hsite.symm
          subst hk2
          refine ⟨Nat.lt_succ_self i, hs ▸ hspec2, hklen, d, hd, ?_⟩
          show (isVariableDeclaration d (sp.localName.getD sp.exportedName)
            || isFunctionDeclaration d (sp.localName.getD sp.exportedName)) = true
          rw [Bool.or_comm]
          exact hdmatch

theorem invS_aux {body : Program} (hspec : specifiersResolvable body = true) :
    ∀ (l : List Stmt) (i : Nat) (st : WalkState), body.drop i = l →
      InvS body st i → InvS body (walkAux body st i l) (i + l.length) := by
  intro l
  induction l with
  | nil => intro i st _ hinv; simpa using hinv
  | cons s rest ih =>
    intro i st hdrop hinv
    obtain ⟨h1, h2, h3⟩ := drop_cons_spec hdrop
    have := ih (i + 1) _ h3 (invS_step hspec h1 h2 hinv)
    show InvS body (walkAux body (walkStep body st i s) (i + 1) rest) _
    have harith : i + (s :: rest).length = (i + 1) + rest.length := by
      simp
      omega
    rw [harith]
    exact this

theorem invS_find {body : Program} (hspec : specifiersResolvable body = true) :
    InvS body (walkFind body) body.length := by
  have := invS_aux hspec body 0 initState (by simp) (invS_init body)
  simpa using this

theorem removeAtAux_pair_comm (l : List Stmt) (a b : Nat) (cur : Nat) :
    removeAtAux l [a, b] cur = removeAtAux l [b, a] cur := by
  induction l generalizing cur with
  | nil => rfl
  | cons x rest ih =>
    by_cases hc : cur ∈ [a, b]
    · have hc2 : cur ∈ [b, a] := by
        simp at hc ⊢
        tauto
      simp only [removeAtAux, if_pos hc, if_pos hc2, ih]
    · have hc2 : cur ∉ [b, a] := by
        simp at hc ⊢
        tauto
      simp only [removeAtAux, if_neg hc, if_neg hc2, ih]

theorem countHandle_removeAt_single {body : Program} {e : Nat} (he : e < body.length) :
    (removeAt body [e]).countP exportsHandle
        + (if exportsHandle (stmtAt body e) = true then 1 else 0)
      = body.countP exportsHandle := by
  have h := countP_removeAtAux exportsHandle body [e] 0
  rw [removedIdxStmts_single (by omega) (by omega)] at h
  simpa [removeAt, List.countP_cons] using h

theorem countHandle_removeAt_pair {body : Program} {a b : Nat} (hab : a ≠ b)
    (ha : a < body.length) (hb : b < body.length) :
    (removeAt body [a, b]).countP exportsHandle
        + ((if exportsHandle (stmtAt body a) = true then 1 else 0)
          + (if exportsHandle (stmtAt body b) = true then 1 else 0))
      = body.countP exportsHandle := by
  rcases Nat.lt_or_ge a b with h | h
  · have h2 := countP_removeAtAux exportsHandle body [a, b] 0
    rw [removedIdxStmts_pair h (by omega) (by omega)] at h2
    simp [removeAt, List.countP_cons] at h2 ⊢
    omega
  · have hba : b < a := by omega
    have h2 := countP_removeAtAux exportsHandle body [b, a] 0
    rw [removedIdxStmts_pair hba (by omega) (by omega)] at h2
    rw [removeAt, removeAtAux_pair_comm]
    simp [List.countP_cons] at h2 ⊢
    omega

theorem countHandle_mergeBase_inExport {body : Program} {ei : Nat}
    (he : ei < body.length) :
    (mergeBase body ⟨ei, Site.inExport⟩).countP exportsHandle
        + (if exportsHandle (stmtAt body ei) = true then 1 else 0)
      = body.countP exportsHandle := by
  rw [mergeBase,
    countP_addNamedImport (fun a b c => rfl)]
  exact countHandle_removeAt_single he

theorem countHandle_mergeBase_top {body : Program} {ei k : Nat}
    (hne : ei ≠ k) (he : ei < body.length) (hk : k < body.length) :
    (mergeBase body ⟨ei, Site.top k⟩).countP exportsHandle
        + ((if exportsHandle (stmtAt body ei) = true then 1 else 0)
          + (if exportsHandle (stmtAt body k) = true then 1 else 0))
      = body.countP exportsHandle := by
  rw [mergeBase,
    countP_addNamedImport (fun a b c => rfl)]
  exact countHandle_removeAt_pair hne he hk

/-- After the merge of an existing `handle` export, the body exports the
public name exactly once (given at most one export beforehand and
resolvable specifiers, recorded in the walk invariant). -/
theorem countHandle_mergeExisting {body : Program} (ts : Bool) (n : String) (c : Expr)
    {f : Finding}
    (inv : InvS body (walkFind body) body.length)
    (hf : (walkFind body).found = some f)
    (hc : countHandleExports body ≤ 1) :
    countHandleExports
      (mergeExisting body ts n c (walkFind body).isSpecifier
        (walkFind body).handleName f) = 1 := by
  obtain ⟨ei, fsite⟩ := f
  cases fsite with
  | inExport =>
    obtain ⟨he0, d, hd0, hmatch⟩ := inv.some_inexp ⟨ei, Site.inExport⟩ hf rfl
    have he : ei < body.length := he0
    have hd : stmtAt body ei = Stmt.exportDecl d := hd0
    have horig : getOrig body ⟨ei, Site.inExport⟩ = d := by
      show (match stmtAt body ei with
        | Stmt.exportDecl d => d
        | _ => Decl.varDecl "" []) = d
      rw [hd]
    have hmem : Stmt.exportDecl d ∈ body := hd ▸ stmtAt_mem body ei he
    have horig2 : mergeOrig2 body (walkFind body).handleName n ⟨ei, Site.inExport⟩
        = (renameStep (seqAppended d (walkFind body).handleName n)
            (walkFind body).handleName).2 := by
      rw [mergeOrig2, horig]
    have hexportstmt : mergeExportStmt body (walkFind body).handleName n
        ⟨ei, Site.inExport⟩
        = .exportDecl (mergeOrig2 body (walkFind body).handleName n
            ⟨ei, Site.inExport⟩) := rfl
    -- split on whether a specifier was seen
    cases hspecb : (walkFind body).isSpecifier with
    | false =>
      have hHn := inv.mono_spec hspecb
      have hEH : exportsHandle (stmtAt body ei) = true := by
        rw [hd, exportsHandle_exportDecl]
        rw [hHn] at hmatch
        exact hmatch
      have hone : countHandleExports body = 1 := by
        have := countP_pos_of_mem hmem (by rw [← hd]; exact hEH)
        rw [countHandleExports] at hc ⊢
        omega
      have hbase : (mergeBase body ⟨ei, Site.inExport⟩).countP exportsHandle = 0 := by
        have := countHandle_mergeBase_inExport he
        rw [if_pos hEH] at this
        rw [countHandleExports] at hone
        omega
      have hws : mergeWithSpec body ts n c false
          (walkFind body).handleName ⟨ei, Site.inExport⟩
          = mergeBase body ⟨ei, Site.inExport⟩ := by
        rw [mergeWithSpec]
        simp
      by_cases hrr : mergeRename body (walkFind body).handleName n
          ⟨ei, Site.inExport⟩ = true
      · rw [mergeExisting, if_pos ⟨rfl, hrr⟩, namedExport]
        rw [countHandleExports, List.countP_append, List.countP_append, hws, hbase]
        simp [List.countP_cons, exportsHandle_newHandleDeclOf, hHn, mkNewDecl,
          exportsHandle_declStmt]
      · have hrrf : mergeRename body (walkFind body).handleName n
            ⟨ei, Site.inExport⟩ = false := by
          simpa using hrr
        have hvar := mergeBranch_fires horig hmatch hrrf
        rw [mergeExisting, if_neg (by simp [hrrf]), if_pos ⟨rfl, hvar⟩, namedExport]
        rw [countHandleExports, List.countP_append, List.countP_append, hws, hbase]
        simp [List.countP_cons, exportsHandle_passThroughDecl, hHn, mkNewDecl,
          exportsHandle_declStmt]
    | true =>
      obtain ⟨ssp, hsspmem, hsspec⟩ := inv.spec_ex hspecb
      have hdf : exportsHandle (.exportDecl d) = false := by
        cases hcon : exportsHandle (.exportDecl d) with
        | false => rfl
        | true =>
          exfalso
          obtain ⟨specs, hshape⟩ := isSpecHandle_shape hsspec
          have hne : Stmt.exportDecl d ≠ ssp := by
            rw [hshape]
            intro hx
            cases hx
          have h2 := countP_two_of_mem hmem hsspmem hne hcon
            (exportsHandle_of_isSpecHandle hsspec)
          rw [countHandleExports] at hc
          omega
      have hHnF : ((walkFind body).handleName = "handle") → False := by
        intro hx
        rw [hx] at hmatch
        rw [exportsHandle_exportDecl] at hdf
        rw [hmatch] at hdf
        cases hdf
      have hone : countHandleExports body = 1 := by
        have := countP_pos_of_mem hsspmem (exportsHandle_of_isSpecHandle hsspec)
        rw [countHandleExports] at hc ⊢
        omega
      have hEHf : exportsHandle (stmtAt body ei) = false := by
        rw [hd]
        exact hdf
      have hbase : (mergeBase body ⟨ei, Site.inExport⟩).countP exportsHandle = 1 := by
        have := countHandle_mergeBase_inExport he
        rw [if_neg (by simp [hEHf])] at this
        rw [countHandleExports] at hone
        omega
      have horig2f : exportsHandle (.exportDecl (mergeOrig2 body
          (walkFind body).handleName n ⟨ei, Site.inExport⟩)) = false := by
        rw [horig2]
        apply exportsHandle_renameStep
        rw [exportsHandle_seqAppended]
        exact hdf
      have hnewf : exportsHandle (.exportDecl
          (newHandleDeclOf (walkFind body).handleName n)) = false := by
        rw [exportsHandle_newHandleDeclOf]
        simpa using hHnF
      have hws : mergeWithSpec body ts n c true
          (walkFind body).handleName ⟨ei, Site.inExport⟩
          = mergeBase body ⟨ei, Site.inExport⟩ ++
            [.decl (mergeOrig2 body (walkFind body).handleName n ⟨ei, Site.inExport⟩),
             mkNewDecl ts n c,
             .decl (newHandleDeclOf (walkFind body).handleName n),
             .exportDecl (mergeOrig2 body (walkFind body).handleName n
               ⟨ei, Site.inExport⟩)] := by
        rw [mergeWithSpec]
        simp [hexportstmt]
      by_cases hrr : mergeRename body (walkFind body).handleName n
          ⟨ei, Site.inExport⟩ = true
      · rw [mergeExisting, if_pos ⟨rfl, hrr⟩, namedExport]
        rw [countHandleExports, List.countP_append, List.countP_append, hws,
          List.countP_append, hbase]
        simp [List.countP_cons, horig2f, hnewf, mkNewDecl, exportsHandle_declStmt]
      · have hrrf : mergeRename body (walkFind body).handleName n
            ⟨ei, Site.inExport⟩ = false := by
          simpa using hrr
        have hvar := mergeBranch_fires horig hmatch hrrf
        rw [mergeExisting, if_neg (by simp [hrrf]), if_pos ⟨rfl, hvar⟩, namedExport]
        rw [countHandleExports, List.countP_append, List.countP_append, hws,
          List.countP_append, hbase]
        have hpassf : exportsHandle (.exportDecl (passThroughDecl ts
            (mergeOrig2 body (walkFind body).handleName n ⟨ei, Site.inExport⟩)
            (walkFind body).handleName n)) = false := by
          rw [exportsHandle_passThroughDecl]
          simpa using hHnF
        simp [List.countP_cons, horig2f, hnewf, hpassf, mkNewDecl, exportsHandle_declStmt]
  | top k =>
    obtain ⟨he0, hspek0, hklen, d, hdk, hmatchk⟩ := inv.some_top ⟨ei, Site.top k⟩ k hf rfl
    have he : ei < body.length := he0
    have hspek : isSpecHandle (stmtAt body ei) = true := hspek0
    have hspecb : (walkFind body).isSpecifier = true :=
      (walkInvW_find body).site_top_spec ⟨ei, Site.top k⟩ k hf rfl
    have hne : ei ≠ k := by
      intro hx
      obtain ⟨specs, hshape⟩ := isSpecHandle_shape hspek
      rw [hx, hdk] at hshape
      cases hshape
    have hone : countHandleExports body = 1 := by
      have hmem : stmtAt body ei ∈ body := stmtAt_mem body ei he
      have := countP_pos_of_mem hmem (exportsHandle_of_isSpecHandle hspek)
      rw [countHandleExports] at hc ⊢
      omega
    have hbase : (mergeBase body ⟨ei, Site.top k⟩).countP exportsHandle = 0 := by
      have h2 := countHandle_mergeBase_top hne he hklen
      rw [if_pos (exportsHandle_of_isSpecHandle hspek)] at h2
      rw [if_neg (by rw [hdk]; simp [exportsHandle])] at h2
      rw [countHandleExports] at hone
      omega
    have hexportstmt : mergeExportStmt body (walkFind body).handleName n
        ⟨ei, Site.top k⟩ = stmtAt body ei := rfl
    rw [mergeExisting, if_neg (by simp), if_neg (by simp)]
    rw [mergeWithSpec, hspecb]
    rw [if_pos rfl]
    rw [countHandleExports, List.countP_append, hbase]
    simp [List.countP_cons, hexportstmt, mkNewDecl, exportsHandle_declStmt,
      exportsHandle_of_isSpecHandle hspek]

/-- C3, counterexample to the claim as stated: on the tree
`export { handle };` whose specifier cannot be resolved to any declaration,
the locator records no finding, so the CREATE path appends a second export
of `handle` — the result exports the public name twice. -/
theorem addHooksHandle_two_exports :
    countHandleExports
      (addHooksHandle [.exportSpecs [⟨some "handle", "handle"⟩]] false "c" (.lit 0))
      = 2 := by
  decide

/-- C3 (amended): for every tree with at most one export of the public name
`handle`, whose `handle` specifiers all resolve to a top-level declaration,
and whose merge is not cut short by the duplicate-fragment guard, the tree
after `addHooksHandle` contains exactly one export of `handle`. -/
theorem addHooksHandle_single_export (ast : Program) (ts : Bool) (n : String) (c : Expr)
    (H1 : countHandleExports ast ≤ 1)
    (H2 : specifiersResolvable ast = true)
    (H3 : hasNode (kitImport ts ast) c = false) :
    countHandleExports (addHooksHandle ast ts n c) = 1 := by
  have hC : countHandleExports (kitImport ts ast) ≤ 1 := by
    rw [countHandleExports_kitImport]
    exact H1
  have hS : specifiersResolvable (kitImport ts ast) = true :=
    specifiersResolvable_kitImport H2
  have inv := invS_find hS
  rw [addHooksHandle, H3]
  simp only [Bool.false_eq_true, if_false]
  rcases hfound : (walkFind (kitImport ts ast)).found with _ | f
  · simp only [hfound]
    obtain ⟨hspec0, hclean⟩ := inv.none_clean hfound
    have hHn := inv.mono_spec hspec0
    have hzero : (kitImport ts ast).countP exportsHandle = 0 := by
      rw [List.countP_eq_zero]
      intro s hs
      obtain ⟨j, hj, hjs⟩ := List.getElem_of_mem hs
      have := hclean j hj
      rw [stmtAt_eq_getElem hj, hjs] at this
      simp [this]
    have hexp : exportsHandle (.exportDecl (.varDecl "const"
        [mkDeclarator ts (walkFind (kitImport ts ast)).handleName (.ident n)])) = true := by
      rw [hHn]
      simp [exportsHandle, isVariableDeclaration, getVariableDeclarator, mkDeclarator]
    rw [namedExport, countHandleExports, List.countP_append, List.countP_append, hzero]
    simp [List.countP_cons, hexp, mkNewDecl, exportsHandle_declStmt]
  · simp only [hfound]
    exact countHandle_mergeExisting ts n c inv hfound hC

/-- C3, witness: the amended single-export theorem at the concrete tree
`export const handle = 5;`. -/
theorem addHooksHandle_single_export_witness :
    countHandleExports
      (addHooksHandle
        [.exportDecl (.varDecl "const" [⟨.ident "handle", some (.lit 5), none⟩])]
        false "c" (.lit 0)) = 1 :=
  addHooksHandle_single_export
    [.exportDecl (.varDecl "const" [⟨.ident "handle", some (.lit 5), none⟩])]
    false "c" (.lit 0) (by decide) (by decide) (by decide)

/-- C7, witness: the last-match theorem applied to a concrete two-export
tree at `j = 0`. -/
theorem walkFind_returns_last_match_witness :
    ∃ f, (walkFind
        [.exportDecl (.varDecl "const" [⟨.ident "handle", some (.lit 3), none⟩]),
         .exportDecl (.varDecl "const" [⟨.ident "handle", some (.lit 4), none⟩])]).found
        = some f ∧ 0 ≤ f.exportIdx ∧
      matchAt
        [.exportDecl (.varDecl "const" [⟨.ident "handle", some (.lit 3), none⟩]),
         .exportDecl (.varDecl "const" [⟨.ident "handle", some (.lit 4), none⟩])]
        f.exportIdx = true :=
  walkFind_returns_last_match _ 0 (by decide) (by decide)

end Kit
